import Mathlib

/-!
Verification of the SmartNews feed-rewriting scripts (scripts/build-feed.mjs
and the unnamed revisions of the same script).  The JavaScript operates on
strings with regular expressions; we embed the relevant string
transformations as executable functions on lists of characters, mirroring
each regex pass of the source, and prove the claimed properties about them.
-/

set_option maxRecDepth 40000

abbrev Chars := List Char

/-- Lowercasing of ASCII letters, as performed by JavaScript
case-insensitive regex matching and by toLowerCase on the ASCII namespace
prefixes this program handles. -/
def lc : Char → Char
  | 'A' => 'a' | 'B' => 'b' | 'C' => 'c' | 'D' => 'd' | 'E' => 'e'
  | 'F' => 'f' | 'G' => 'g' | 'H' => 'h' | 'I' => 'i' | 'J' => 'j'
  | 'K' => 'k' | 'L' => 'l' | 'M' => 'm' | 'N' => 'n' | 'O' => 'o'
  | 'P' => 'p' | 'Q' => 'q' | 'R' => 'r' | 'S' => 's' | 'T' => 't'
  | 'U' => 'u' | 'V' => 'v' | 'W' => 'w' | 'X' => 'x' | 'Y' => 'y'
  | 'Z' => 'z'
  | c => c

def ciEqc (a b : Char) : Bool := lc a == lc b

/-- Case-sensitive prefix test. -/
def startsL (pat s : Chars) : Bool := List.isPrefixOf pat s

/-- Case-insensitive (ASCII) prefix test, as for a JS regex with the i
flag. -/
def startsCI : Chars → Chars → Bool
  | [], _ => true
  | _ :: _, [] => false
  | p :: ps, c :: cs => ciEqc p c && startsCI ps cs

/-- Case-sensitive substring test. -/
def hasSub (pat : Chars) : Chars → Bool
  | [] => pat.isEmpty
  | c :: s => startsL pat (c :: s) || hasSub pat s

/-- Case-insensitive substring test. -/
def hasSubCI (pat : Chars) : Chars → Bool
  | [] => pat.isEmpty
  | c :: s => startsCI pat (c :: s) || hasSubCI pat s

/-- Index of the first (case-sensitive) occurrence of a pattern. -/
def subIdx (pat : Chars) : Chars → Option Nat
  | [] => if pat.isEmpty then some 0 else none
  | c :: s => if startsL pat (c :: s) then some 0 else (subIdx pat s).map Nat.succ

/-- All start offsets of case-insensitive occurrences of a pattern. -/
def subPositionsCI (pat : Chars) : Chars → List Nat
  | [] => []
  | c :: s =>
    (if startsCI pat (c :: s) then [0] else []) ++
      (subPositionsCI pat s).map Nat.succ

def firstSome : List α → (α → Option β) → Option β
  | [], _ => none
  | a :: as, f =>
    match f a with
    | some b => some b
    | none => firstSome as f

/-- JavaScript regex class backslash-s (whitespace), restricted to the
code points occurring in feeds handled here. -/
def jsWs (c : Char) : Bool :=
  c == ' ' || c == '\t' || c == '\n' || c == '\r' ||
  decide (c.toNat = 11) || decide (c.toNat = 12) || decide (c.toNat = 160) ||
  decide (c.toNat = 65279)

/-- JavaScript regex word character, backslash-w: ASCII letters, digits,
underscore. -/
def jsWord (c : Char) : Bool :=
  (decide (48 ≤ c.toNat) && decide (c.toNat ≤ 57)) ||
  (decide (65 ≤ c.toNat) && decide (c.toNat ≤ 90)) ||
  (decide (97 ≤ c.toNat) && decide (c.toNat ≤ 122)) ||
  decide (c.toNat = 95)

/-- JavaScript String.prototype.trim. -/
def trimL (s : Chars) : Chars :=
  ((s.dropWhile (fun c => jsWs c)).reverse.dropWhile (fun c => jsWs c)).reverse

/-- The single-quote character (used when matching attribute quotes). -/
def squote : Char := Char.ofNat 39

def isQuote (c : Char) : Bool := c == '"' || c == squote

/-! ## Generic left-to-right regex replacement

`scanGo step fuel s` walks `s` from the left.  At each position `step`
reports whether a match starts here; on `some (out, rest)` it emits `out`
and resumes at `rest` (the unconsumed remainder, exactly like a JS global
replace, which continues after each match); on `none` it copies one
character.  The fuel is instantiated with the length of the string, which
suffices because every step of the transformations below consumes at
least one character. -/
def scanGo (step : Chars → Option (Chars × Chars)) : Nat → Chars → Chars
  | _, [] => []
  | 0, s => s
  | Nat.succ f, c :: s =>
    match step (c :: s) with
    | some (out, rest) => out ++ scanGo step f rest
    | none => c :: scanGo step f s

def scan (step : Chars → Option (Chars × Chars)) (s : Chars) : Chars :=
  scanGo step s.length s

/-- Replace only the first match, splicing the remainder unchanged (a JS
non-global replace). -/
def repFirst (step : Chars → Option (Chars × Chars)) : Chars → Chars
  | [] => []
  | c :: s =>
    match step (c :: s) with
    | some (out, rest) => out ++ rest
    | none => c :: repFirst step s

/-- Step replacing one occurrence of a literal pattern (case-sensitive,
as JS String.prototype.replace with a string pattern). -/
def litStep (pat rep : Chars) (s : Chars) : Option (Chars × Chars) :=
  if pat.isEmpty then none
  else if startsL pat s then some (rep, s.drop pat.length) else none

/-- Step replacing one occurrence of a literal pattern, case-insensitive. -/
def litStepCI (pat rep : Chars) (s : Chars) : Option (Chars × Chars) :=
  if pat.isEmpty then none
  else if startsCI pat s then some (rep, s.drop pat.length) else none

def replaceAllLit (pat rep : Chars) (s : Chars) : Chars :=
  scan (litStep pat rep) s

/-! ## Entity handling and CDATA escaping (build-feed.mjs lines 226-236) -/

/-- decodeEntities: six sequential global literal replacements. -/
def decodeEntities (s : Chars) : Chars :=
  replaceAllLit "&gt;".data ">".data
    (replaceAllLit "&lt;".data "<".data
      (replaceAllLit "&#39;".data [squote]
        (replaceAllLit "&quot;".data "\"".data
          (replaceAllLit "&amp;".data "&".data
            (replaceAllLit "&nbsp;".data " ".data s)))))

/-- escapeCdata: rewrite every occurrence of the CDATA terminator. -/
def escapeCdata (s : Chars) : Chars :=
  replaceAllLit (String.data "]]>") (String.data "]]&gt;") s

/-- escapeXml as written at line 342 of build-feed.mjs.  The replacement
object there maps the greater-than sign to the amp entity and has no
entry for the ampersand itself, so the JS callback returns undefined for
an ampersand and the replacement inserts the literal text undefined. -/
def escapeXmlChar (c : Char) : Chars :=
  if c == '<' then "&lt;".data
  else if c == '>' then "&amp;".data
  else if c == squote then "&apos;".data
  else if c == '"' then "&quot;".data
  else "undefined".data

def escapeXmlStep : Chars → Option (Chars × Chars)
  | [] => none
  | c :: s =>
    if c == '<' || c == '>' || c == '&' || c == squote || c == '"' then
      some (escapeXmlChar c, s)
    else none

def escapeXml (s : Chars) : Chars := scan escapeXmlStep s

/-- The spec-side notion of correct XML escaping for text content, used
to state what the diagnostic-payload claim requires of the escaper. -/
def xmlEscapedRef (s : Chars) : Chars :=
  (s.map (fun c =>
    if c == '<' then "&lt;".data
    else if c == '>' then "&gt;".data
    else if c == '&' then "&amp;".data
    else if c == squote then "&apos;".data
    else if c == '"' then "&quot;".data
    else [c])).flatten

/-! ## Title rewriting (build-feed.mjs lines 108-117) -/

/-- Step removing one bracketed shortcode block (at least one character
between the brackets). -/
def afterFirstRB : Chars → Option Chars
  | [] => none
  | c :: s => if c == ']' then some s else afterFirstRB s

def shortcodeStep : Chars → Option (Chars × Chars)
  | '[' :: s =>
    (match s with
     | [] => none
     | c :: _ =>
       if c == ']' then none
       else match afterFirstRB s with
         | some rest => some ([], rest)
         | none => none)
  | _ => none

def removeShortcodes (s : Chars) : Chars := scan shortcodeStep s

/-- Step collapsing a run of two or more whitespace characters to one
space. -/
def wsRunStep : Chars → Option (Chars × Chars)
  | c :: d :: s =>
    if jsWs c && jsWs d then some (" ".data, (d :: s).dropWhile (fun x => jsWs x))
    else none
  | _ => none

def collapseWs (s : Chars) : Chars := scan wsRunStep s

/-- The test of the regex backslash-b i n backslash-s * dollar with the i
flag: the string ends (after optional whitespace) with the bare word in. -/
def bareInTest (t : Chars) : Bool :=
  match t.reverse.dropWhile (fun c => jsWs c) with
  | n :: i :: rest =>
    ciEqc n 'n' && ciEqc i 'i' &&
      (match rest with | [] => true | b :: _ => !(jsWord b))
  | _ => false

/-- The title cleanup chain of the replace callback: trim, strip
shortcodes, decode the escaped pipe, collapse whitespace runs, trim. -/
def cleanTitleText (raw : Chars) : Chars :=
  trimL (collapseWs (replaceAllLit "&#124;".data "|".data
    (removeShortcodes (trimL raw))))

/-- The full title replace callback output (wrapped CDATA block), with
the current year passed in as a parameter. -/
def titleOut (year : Nat) (raw : Chars) : Chars :=
  let t := cleanTitleText raw
  let t2 := if bareInTest t then t ++ (Nat.repr year).data else t
  "<title><![CDATA[".data ++ t2 ++ "]]></title>".data

/-- Lazy search for the CDATA terminator followed by optional whitespace
and the closing title tag; returns the capture and the remainder after
the closing tag. -/
def titleCdEnd : Chars → Option (Chars × Chars)
  | [] => none
  | c :: s =>
    if startsL "]]>".data (c :: s) &&
        startsCI "</title>".data (((c :: s).drop 3).dropWhile (fun x => jsWs x)) then
      some ([], (((c :: s).drop 3).dropWhile (fun x => jsWs x)).drop 8)
    else
      match titleCdEnd s with
      | some (cap, rest) => some (c :: cap, rest)
      | none => none

def titleStep (year : Nat) (s : Chars) : Option (Chars × Chars) :=
  if startsCI "<title>".data s then
    let s1 := (s.drop 7).dropWhile (fun x => jsWs x)
    if startsCI "<![CDATA[".data s1 then
      match titleCdEnd (s1.drop 9) with
      | some (cap, rest) => some (titleOut year cap, rest)
      | none => none
    else
      let cap := s1.takeWhile (fun x => x ≠ '<')
      let s2 := s1.drop cap.length
      if startsCI "</title>".data s2 then some (titleOut year cap, s2.drop 8)
      else none
  else none

/-! ## Block replacement helper (build-feed.mjs lines 198-210) -/

/-- Lazy search for the closing tag of a block (case-insensitive, with
optional whitespace before the final angle bracket); returns the inner
content and the remainder after the closing tag. -/
def blockCloseFind (tag : Chars) : Chars → Option (Chars × Chars)
  | [] => none
  | c :: s =>
    if startsCI ("</".data ++ tag) (c :: s) &&
        (match ((c :: s).drop (2 + tag.length)).dropWhile (fun x => jsWs x) with
         | '>' :: _ => true
         | _ => false) then
      some ([], (((c :: s).drop (2 + tag.length)).dropWhile (fun x => jsWs x)).drop 1)
    else
      match blockCloseFind tag s with
      | some (inner, rest) => some (c :: inner, rest)
      | none => none

/-- replaceBlock: match the element (open tag with attributes, lazy
content, closing tag), rebuild it as a bare open tag, the rewritten
inner content and the closing tag. -/
def blockStep (tag : Chars) (fn : Chars → Chars) (s : Chars) : Option (Chars × Chars) :=
  if startsCI ("<".data ++ tag) s then
    let r1 := s.drop (1 + tag.length)
    if (match r1 with | [] => true | c :: _ => !(jsWord c)) then
      match r1.drop (r1.takeWhile (fun x => x ≠ '>')).length with
      | '>' :: r2 =>
        match blockCloseFind tag r2 with
        | some (inner, rest) =>
          some ("<".data ++ tag ++ ">".data ++ fn inner ++ "</".data ++ tag ++ ">".data,
            rest)
        | none => none
      | _ => none
    else none
  else none

/-- unwrapCdata (anchored): optional whitespace, a CDATA opener, a lazy
capture up to a CDATA terminator followed only by whitespace. -/
def cdCapture : Chars → Option Chars
  | [] => none
  | c :: s =>
    if startsL "]]>".data (c :: s) && ((c :: s).drop 3).all (fun x => jsWs x) then
      some []
    else
      match cdCapture s with
      | some cap => some (c :: cap)
      | none => none

def unwrapCdata (s : Chars) : Chars :=
  let s1 := s.dropWhile (fun x => jsWs x)
  if startsCI "<![CDATA[".data s1 then
    match cdCapture (s1.drop 9) with
    | some cap => cap
    | none => s
  else s

/-! ## HTML flattening (build-feed.mjs lines 212-224) -/

def brStep (s : Chars) : Option (Chars × Chars) :=
  if startsCI "<br".data s then
    match (s.drop 3).dropWhile (fun x => jsWs x) with
    | '/' :: '>' :: rest => some ("\n".data, rest)
    | '>' :: rest => some ("\n".data, rest)
    | _ => none
  else none

def hCloseStep (s : Chars) : Option (Chars × Chars) :=
  if startsCI "</h".data s then
    match s.drop 3 with
    | d :: '>' :: rest =>
      if decide ('1' ≤ d) && decide (d ≤ '6') then some ("\n\n".data, rest) else none
    | _ => none
  else none

def tagStep : Chars → Option (Chars × Chars)
  | '<' :: c :: s =>
    if c == '>' then none
    else
      match (c :: s).drop ((c :: s).takeWhile (fun x => x ≠ '>')).length with
      | '>' :: rest => some ([], rest)
      | _ => none
  | _ => none

def stripAllTagsPreservingBreaks (html : Chars) : Chars :=
  scan tagStep
    (scan hCloseStep
      (scan (litStepCI "</p>".data "\n\n".data) (scan brStep html)))

def spaceTabNlStep : Chars → Option (Chars × Chars)
  | c :: rest =>
    if c == ' ' || c == '\t' then
      match rest.dropWhile (fun x => x == ' ' || x == '\t') with
      | '\n' :: r2 => some ("\n".data, r2)
      | _ => none
    else none
  | [] => none

def nl3Step : Chars → Option (Chars × Chars)
  | '\n' :: '\n' :: '\n' :: rest =>
    some ("\n\n".data, rest.dropWhile (fun x => x == '\n'))
  | _ => none

def htmlToText (html : Chars) : Chars :=
  trimL (scan nl3Step
    (scan spaceTabNlStep (decodeEntities (stripAllTagsPreservingBreaks html))))

/-! ## Body length cap (build-feed.mjs lines 122-125 and 134-136) -/

def CONTENT_MAX_CHARS : Nat := 8000

/-- The JS replace of the trailing regex backslash-s + backslash-S * (a
final whitespace run together with the trailing partial word, if any
whitespace is present at all). -/
def dropTrailingWsWord (s : Chars) : Chars :=
  match s.reverse.dropWhile (fun c => !(jsWs c)) with
  | [] => s
  | c :: r1 => ((c :: r1).dropWhile (fun c => jsWs c)).reverse

def ellipsisChar : Char := Char.ofNat 8230

def capBody (txt : Chars) : Chars :=
  if decide (txt.length > CONTENT_MAX_CHARS) then
    dropTrailingWsWord (txt.take CONTENT_MAX_CHARS) ++ [ellipsisChar]
  else txt

/-- The description replace callback (lines 120-127): unwrap CDATA, strip
tags preserving breaks, decode entities, trim, cap, rewrap in CDATA. -/
def descFn (inner : Chars) : Chars :=
  let txt := capBody (trimL (decodeEntities
    (stripAllTagsPreservingBreaks (unwrapCdata inner))))
  "<![CDATA[".data ++ txt ++ "]]>".data

/-! ## Anchor unwrapping (FORCE_NO_LINKS, build-feed.mjs line 132) -/

/-- Lazy inner content up to the case-insensitive anchor closing tag. -/
def aCloseFind : Chars → Option (Chars × Chars)
  | [] => none
  | c :: s =>
    if startsCI "</a>".data (c :: s) then some ([], (c :: s).drop 4)
    else
      match aCloseFind s with
      | some (i, r) => some (c :: i, r)
      | none => none

def aStep (s : Chars) : Option (Chars × Chars) :=
  if startsCI "<a".data s then
    let r1 := s.drop 2
    if (match r1 with | [] => true | c :: _ => !(jsWord c)) then
      match r1.drop (r1.takeWhile (fun x => x ≠ '>')).length with
      | '>' :: r2 =>
        match aCloseFind r2 with
        | some (inner, rest) => some (inner, rest)
        | none => none
      | _ => none
    else none
  else none

def unwrapAnchorsAll (html : Chars) : Chars := scan aStep html

/-! ## stripJunk (build-feed.mjs lines 296-307) -/

/-- Lazy search for a literal closing marker (case-insensitive); returns
the remainder after it. -/
def junkPairFind (close : Chars) : Chars → Option Chars
  | [] => none
  | c :: s =>
    if startsCI close (c :: s) then some ((c :: s).drop close.length)
    else junkPairFind close s

def rawPairStep (openTag close : Chars) (s : Chars) : Option (Chars × Chars) :=
  if startsCI openTag s then
    match junkPairFind close (s.drop openTag.length) with
    | some rest => some ([], rest)
    | none => none
  else none

def navStep (s : Chars) : Option (Chars × Chars) :=
  match rawPairStep "<nav".data "</nav>".data s with
  | some r => some r
  | none =>
    match rawPairStep "<footer".data "</footer>".data s with
    | some r => some r
    | none => rawPairStep "<aside".data "</aside>".data s

def headerStep (s : Chars) : Option (Chars × Chars) :=
  if startsCI "<header".data s then
    match (s.drop 7).drop ((s.drop 7).takeWhile (fun x => x ≠ '>')).length with
    | '>' :: r =>
      match junkPairFind "</header>".data r with
      | some rest => some ([], rest)
      | none => none
    | _ => none
  else none

/-- A keyword matches at this position when it is a case-insensitive
prefix followed by a word boundary. -/
def kwAt (kw : Chars) (v : Chars) : Bool :=
  startsCI kw v &&
    (match v.drop kw.length with | [] => true | c :: _ => !(jsWord c))

/-- Skip (dot excludes newline) to the first closing quote. -/
def qAfter (q : Char) : Chars → Option Chars
  | [] => none
  | c :: s =>
    if c == '\n' then none
    else if c == q then some s
    else qAfter q s

/-- Try the keyword alternatives in order at one position; on a hit, skip
lazily to the closing quote. -/
def kwTry (q : Char) (v : Chars) : List Chars → Option Chars
  | [] => none
  | kw :: rest =>
    if kwAt kw v then
      match qAfter q (v.drop kw.length) with
      | some r => some r
      | none => kwTry q v rest
    else kwTry q v rest

/-- Lazy scan (dot excludes newline) for a boundary-delimited keyword
followed by the closing quote; prev is the previous character for the
left word boundary. -/
def kwThenQuote (q : Char) (kws : List Chars) : Option Char → Chars → Option Chars
  | _, [] => none
  | prev, c :: s =>
    if c == '\n' then none
    else
      match (if (match prev with | none => true | some p => !(jsWord p)) then
               kwTry q (c :: s) kws
             else none) with
      | some r => some r
      | none => kwThenQuote q kws (some c) s

def tryClassAt (close : Chars) (kws : List Chars) (afterEq : Chars) : Option Chars :=
  match afterEq with
  | c :: r =>
    if isQuote c then
      match kwThenQuote c kws (some c) r with
      | some r2 =>
        (match r2.drop (r2.takeWhile (fun x => x ≠ '>')).length with
         | '>' :: r3 => junkPairFind close r3
         | _ => none)
      | none => none
    else none
  | [] => none

def tryClassList (close : Chars) (kws : List Chars) (inner : Chars) : List Nat → Option Chars
  | [] => none
  | n :: ns =>
    match tryClassAt close kws (inner.drop (n + 6)) with
    | some r => some r
    | none => tryClassList close kws inner ns

/-- Container removal keyed on a class-attribute keyword (the div,
section and ul patterns of stripJunk).  The rightmost class attribute
inside the open tag is tried first, as the greedy character class before
it backtracks from the right. -/
def classedStep (openTag close : Chars) (kws : List Chars) (s : Chars) : Option (Chars × Chars) :=
  if startsCI openTag s then
    let inner := s.drop openTag.length
    let zone := inner.takeWhile (fun x => x ≠ '>')
    match tryClassList close kws inner
        (((subPositionsCI "class=".data zone).filter (fun n => decide (1 ≤ n))).reverse) with
    | some rest => some ([], rest)
    | none => none
  else none

def divKws : List Chars :=
  ["related".data, "share".data, "social".data, "subscribe".data,
   "breadcrumbs".data, "tags".data, "tag-cloud".data, "tagcloud".data,
   "promo".data, "newsletter".data, "author".data, "bio".data,
   "widget".data, "sidebar".data, "footer".data, "cta".data,
   "read-more".data, "readmore".data]

def sectionKws : List Chars :=
  ["related".data, "share".data, "social".data, "subscribe".data,
   "tags".data, "newsletter".data, "sources".data, "references".data]

def ulKws : List Chars :=
  ["related".data, "share".data, "social".data, "tags".data,
   "sources".data, "references".data]

/-- Lazy img tag body up to the first closing angle that is followed by
optional whitespace and the anchor closing tag. -/
def imgEnd : Chars → Option (Chars × Chars)
  | [] => none
  | c :: s =>
    if c == '>' && startsCI "</a>".data (s.dropWhile (fun x => jsWs x)) then
      some ([], s)
    else
      match imgEnd s with
      | some (b, r) => some (c :: b, r)
      | none => none

def aImgStep (s : Chars) : Option (Chars × Chars) :=
  if startsCI "<a".data s then
    let r1 := s.drop 2
    if (match r1 with | [] => true | c :: _ => !(jsWord c)) then
      match r1.drop (r1.takeWhile (fun x => x ≠ '>')).length with
      | '>' :: r2 =>
        let r3 := r2.dropWhile (fun x => jsWs x)
        if startsCI "<img".data r3 then
          match imgEnd (r3.drop 4) with
          | some (body, r4) =>
            let r5 := r4.dropWhile (fun x => jsWs x)
            if startsCI "</a>".data r5 then
              some ("<img".data ++ body ++ ">".data, r5.drop 4)
            else none
          | none => none
        else none
      | _ => none
    else none
  else none

def supStep (s : Chars) : Option (Chars × Chars) :=
  if startsCI "<sup".data s then
    match (s.drop 4).drop ((s.drop 4).takeWhile (fun x => x ≠ '>')).length with
    | '>' :: r =>
      let r1 := r.dropWhile (fun x => jsWs x)
      let r2 := match r1 with | '[' :: t => t | _ => r1
      let ds := r2.takeWhile (fun c => c.isDigit)
      if ds.isEmpty then none
      else
        let r3 := r2.drop ds.length
        let r4 := match r3 with | ']' :: t => t | _ => r3
        let r5 := r4.dropWhile (fun x => jsWs x)
        if startsCI "</sup>".data r5 then some ([], r5.drop 6) else none
    | _ => none
  else none

def stripJunk (html : Chars) : Chars :=
  scan supStep (scan aImgStep
    (scan (classedStep "<ul".data "</ul>".data ulKws)
      (scan (classedStep "<section".data "</section>".data sectionKws)
        (scan (classedStep "<div".data "</div>".data divKws)
          (scan (rawPairStep "<style".data "</style>".data)
            (scan (rawPairStep "<script".data "</script>".data)
              (scan headerStep (scan navStep html))))))))

/-- The content:encoded replace callback (lines 130-137): strip junk,
unwrap all anchors (FORCE_NO_LINKS), flatten to text, cap, escape the
CDATA terminator and wrap in a paragraph inside CDATA. -/
def contentFn (inner : Chars) : Chars :=
  let body := capBody (htmlToText (unwrapAnchorsAll (stripJunk (unwrapCdata inner))))
  "<![CDATA[<p>".data ++ escapeCdata body ++ "</p>]]>".data

/-! ## URL handling (build-feed.mjs lines 309-325) -/

/-- Models the WHATWG URL constructor toString for the absolute http(s)
URLs this pipeline handles: lowercases scheme and host, adds a slash for
an empty path, fails (the constructor throws) when the host is empty.
Userinfo, ports and percent-encoding subtleties do not occur in the
strings this program produces. -/
def urlToString (s : Chars) : Option Chars :=
  match subIdx "://".data s with
  | some i =>
    let scheme := s.take i
    let rest := s.drop (i + 3)
    let auth := rest.takeWhile (fun c => c ≠ '/' && c ≠ '?' && c ≠ '#')
    let pathq := rest.drop auth.length
    if auth.isEmpty then none
    else
      let pathq2 :=
        match pathq with
        | [] => "/".data
        | c :: _ => if c == '/' then pathq else "/".data ++ pathq
      some (scheme.map lc ++ "://".data ++ auth.map lc ++ pathq2)
  | none => none

def utmKeys : List Chars :=
  ["utm_source".data, "utm_medium".data, "utm_campaign".data,
   "utm_term".data, "utm_content".data]

/-- stripUtm: parse the URL, delete the tracking query keys, reserialize;
on a malformed URL return the input unchanged.  The URL parsing models
the platform URL class for the simple absolute URLs in feed links. -/
def stripUtm (u : Chars) : Chars :=
  match subIdx "://".data u with
  | none => u
  | some i =>
    let scheme := u.take i
    let rest := u.drop (i + 3)
    let auth := rest.takeWhile (fun c => c ≠ '/' && c ≠ '?' && c ≠ '#')
    if auth.isEmpty then u
    else
      let afterAuth := rest.drop auth.length
      let mainPart := afterAuth.takeWhile (fun c => c ≠ '#')
      let frag := afterAuth.drop mainPart.length
      let path := mainPart.takeWhile (fun c => c ≠ '?')
      let q := mainPart.drop path.length
      let path2 := if path.isEmpty then "/".data else path
      match q with
      | [] => scheme.map lc ++ "://".data ++ auth.map lc ++ path2 ++ frag
      | _ :: qs =>
        let parts := (qs.splitOn '&').filter
          (fun p => !(utmKeys.contains (p.takeWhile (fun c => c ≠ '='))))
        let q2 := if parts.isEmpty then ([] : Chars)
          else "?".data ++ List.intercalate "&".data parts
        scheme.map lc ++ "://".data ++ auth.map lc ++ path2 ++ q2 ++ frag

/-- Step replacing each whitespace character by a percent-encoding. -/
def pctWsStep : Chars → Option (Chars × Chars)
  | c :: s => if jsWs c then some ("%20".data, s) else none
  | [] => none

/-- sanitizeUrl (lines 317-325). -/
def sanitizeUrl (u : Chars) : Option Chars :=
  if u.isEmpty then none
  else
    let s := scan pctWsStep (trimL u)
    if startsCI "data:".data s || startsCI "mailto:".data s ||
        startsCI "tel:".data s || startsCI "javascript:".data s then none
    else if startsCI "http://".data s || startsCI "https://".data s then
      let s2 := if startsCI "http://".data s then "https://".data ++ s.drop 7 else s
      match urlToString s2 with
      | some t => some t
      | none => some s2
    else none

def extAfterOk : Chars → Bool
  | [] => true
  | c :: _ => c == '?' || c == '#'

def imgExtAt (s : Chars) : Bool :=
  match s with
  | '.' :: r =>
    (startsCI "png".data r && extAfterOk (r.drop 3)) ||
    (startsCI "jpeg".data r && extAfterOk (r.drop 4)) ||
    (startsCI "jpg".data r && extAfterOk (r.drop 3)) ||
    (startsCI "webp".data r && extAfterOk (r.drop 4)) ||
    (startsCI "gif".data r && extAfterOk (r.drop 3))
  | _ => false

/-- The ALLOWED_IMG_EXT regex test (line 26). -/
def imgExtTest : Chars → Bool
  | [] => false
  | c :: s => imgExtAt (c :: s) || imgExtTest s

/-! ## Attribute extraction (meta tags, media/enclosure urls) -/

/-- Quoted attribute value: an opening quote of either kind, at least one
character that is not a quote of either kind, a closing quote of either
kind.  Returns the capture and the remainder after the closing quote. -/
def quotedCap (r : Chars) : Option (Chars × Chars) :=
  match r with
  | q1 :: t =>
    if isQuote q1 then
      let cap := t.takeWhile (fun x => !(isQuote x))
      if cap.isEmpty then none
      else
        match t.drop cap.length with
        | q2 :: u => if isQuote q2 then some (cap, u) else none
        | [] => none
    else none
  | [] => none

/-- Tail of the meta pattern from a content attribute position. -/
def contentCapAt (r : Chars) : Option Chars :=
  match quotedCap r with
  | some (cap, _) => some cap
  | none => none

/-- From the position of the attribute value (opening quote of the
name/property value): require the quoted value, then a nonempty gap free
of closing angles, then a content attribute with a quoted capture. -/
def tryValThenContent (val : Chars) (r : Chars) : Option Chars :=
  match r with
  | q1 :: t =>
    if isQuote q1 && startsCI val t then
      match t.drop val.length with
      | q2 :: u =>
        if isQuote q2 then
          firstSome
            (((subPositionsCI "content=".data
                (u.takeWhile (fun x => x ≠ '>'))).filter
              (fun n => decide (1 ≤ n))).reverse)
            (fun n => contentCapAt (u.drop (n + 8)))
        else none
      | [] => none
    else none
  | [] => none

/-- Match of the meta pattern at one position: a meta opener, the named
attribute (inside the angle zone, after at least one character), its
quoted value, then a content capture. -/
def metaStepQ (attr val : Chars) (s : Chars) : Option Chars :=
  if startsCI "<meta".data s then
    let inner := s.drop 5
    firstSome
      (((subPositionsCI (attr ++ "=".data)
          (inner.takeWhile (fun x => x ≠ '>'))).filter
        (fun n => decide (1 ≤ n))).reverse)
      (fun n => tryValThenContent val (inner.drop (n + attr.length + 1)))
  else none

def metaFind (attr val : Chars) : Chars → Option Chars
  | [] => none
  | c :: s =>
    match metaStepQ attr val (c :: s) with
    | some cap => some cap
    | none => metaFind attr val s

/-- Attribute-url extraction for media:content and enclosure tags. -/
def urlAttrStepQ (openTag : Chars) (s : Chars) : Option Chars :=
  if startsCI openTag s then
    let inner := s.drop openTag.length
    firstSome
      (((subPositionsCI "url=".data
          (inner.takeWhile (fun x => x ≠ '>'))).filter
        (fun n => decide (1 ≤ n))).reverse)
      (fun n => contentCapAt (inner.drop (n + 4)))
  else none

def urlAttrFind (openTag : Chars) : Chars → Option Chars
  | [] => none
  | c :: s =>
    match urlAttrStepQ openTag (c :: s) with
    | some u => some u
    | none => urlAttrFind openTag s

/-! ## JSON-LD script blocks (ensureAuthor fallback) -/

/-- One ld+json script block match at this position; returns the number
of characters of the full match and the remainder. -/
def ldTypeTail (s : Chars) : Option Chars :=
  match s with
  | q1 :: t =>
    if isQuote q1 && startsCI "application/ld+json".data t then
      match t.drop 19 with
      | q2 :: u => if isQuote q2 then some u else none
      | [] => none
    else none
  | [] => none

def ldStepQ (s : Chars) : Option Chars :=
  if startsCI "<script".data s then
    let inner := s.drop 7
    match firstSome
        (((subPositionsCI "type=".data
            (inner.takeWhile (fun x => x ≠ '>'))).filter
          (fun n => decide (1 ≤ n))).reverse)
        (fun n => ldTypeTail (inner.drop (n + 5))) with
    | some u =>
      (match u.drop (u.takeWhile (fun x => x ≠ '>')).length with
       | '>' :: r => junkPairFind "</script>".data r
       | _ => none)
    | none => none
  else none

/-- Collect the full text of every ld+json script block (the JS global
match keeps whole matches). -/
def ldCollectGo : Nat → Chars → List Chars
  | 0, _ => []
  | _, [] => []
  | Nat.succ f, c :: s =>
    match ldStepQ (c :: s) with
    | some rest =>
      ((c :: s).take ((c :: s).length - rest.length)) :: ldCollectGo f rest
    | none => ldCollectGo f s

def ldCollect (html : Chars) : List Chars := ldCollectGo html.length html

/-! ## ensureAuthor (build-feed.mjs lines 238-265) -/

/-- Existence test for an element block: the open marker occurs and the
close marker occurs somewhere after it (the lazy block regex test). -/
def hasBlockCI (op cl : Chars) : Chars → Bool
  | [] => false
  | c :: s =>
    if startsCI op (c :: s) then hasSubCI cl ((c :: s).drop op.length)
    else hasBlockCI op cl s

def authorInject (n : Chars) : Chars :=
  "\n      <dc:creator><![CDATA[".data ++ n ++
    "]]></dc:creator>\n      <author><![CDATA[".data ++ n ++
    "]]></author>\n".data

/-- ensureAuthor.  The JSON-LD fallback is parameterized by an oracle
mapping a script block to the author name that parsing the embedded JSON
and searching it (findAuthorName) would produce, since the block contents
are opaque JSON. -/
def ensureAuthor (ldName : Chars → Option Chars) (itemXml articleHtml : Chars) : Chars :=
  if hasBlockCI "<dc:creator>".data "</dc:creator>".data itemXml ||
      hasBlockCI "<author>".data "</author>".data itemXml then itemXml
  else
    let name :=
      match metaFind "name".data "author".data articleHtml with
      | some n => some n
      | none => firstSome (ldCollect articleHtml) ldName
    match name with
    | some n =>
      repFirst (litStepCI "</item>".data (authorInject n ++ "</item>".data)) itemXml
    | none => itemXml

/-! ## Thumbnail handling (build-feed.mjs lines 140-186) -/

def ALLOWED_NS : List Chars := ["media".data, "content".data, "dc".data, "atom".data]

def DEFAULT_THUMB_URL : Chars := "https://i.ibb.co/V0FWL4m9/CTV-Logo.png".data

/-- The media:thumbnail presence test with a word boundary. -/
def mthumbTest : Chars → Bool
  | [] => false
  | c :: s =>
    (startsCI "<media:thumbnail".data (c :: s) &&
      (match (c :: s).drop 16 with | [] => true | d :: _ => !(jsWord d))) ||
    mthumbTest s

/-- Tail of the existing-thumbnail replace after the quoted url capture:
a zone free of closing angles that ends with a slash, then the closing
angle.  The callback sanitizes the url and either rebuilds the tag or
drops it. -/
def mthumbTail (cap rem : Chars) : Option (Chars × Chars) :=
  let z := rem.takeWhile (fun x => x ≠ '>')
  match rem.drop z.length with
  | '>' :: rest =>
    (match z.getLast? with
     | some '/' =>
       let out :=
         match sanitizeUrl cap with
         | some t =>
           if imgExtTest t then
             "<media:thumbnail url=\"".data ++ t ++ "\" />".data
           else []
         | none => []
       some (out, rest)
     | _ => none)
  | _ => none

def mthumbRepStep (s : Chars) : Option (Chars × Chars) :=
  if startsCI "<media:thumbnail".data s then
    let inner := s.drop 16
    firstSome
      (((subPositionsCI "url=".data
          (inner.takeWhile (fun x => x ≠ '>'))).filter
        (fun n => decide (1 ≤ n))).reverse)
      (fun n =>
        match quotedCap (inner.drop (n + 4)) with
        | some (cap, rem) => mthumbTail cap rem
        | none => none)
  else none

/-! ## Item link extraction and UTM stripping (lines 148, 176, 189) -/

/-- The case-sensitive link-capture regex used to pick the article page. -/
def linkStepQ (s : Chars) : Option Chars :=
  if startsL "<link>".data s then
    let r := s.drop 6
    let cap := r.takeWhile (fun x => x ≠ '<')
    if cap.isEmpty then none
    else if startsL "</link>".data (r.drop cap.length) then some cap
    else none
  else none

def linkFind : Chars → Option Chars
  | [] => none
  | c :: s =>
    match linkStepQ (c :: s) with
    | some u => some u
    | none => linkFind s

/-- The case-insensitive link replace that strips tracking parameters. -/
def utmLinkStep (s : Chars) : Option (Chars × Chars) :=
  if startsCI "<link>".data s then
    let r := s.drop 6
    let cap := r.takeWhile (fun x => x ≠ '<')
    if cap.isEmpty then none
    else if startsCI "</link>".data (r.drop cap.length) then
      some ("<link>".data ++ stripUtm cap ++ "</link>".data,
        r.drop (cap.length + 7))
    else none
  else none

/-! ## The per-item rewrite (build-feed.mjs lines 105-189) -/

/-- The body of the per-item loop of rewriteItems.  Network access is
parameterized: fetchPage maps an article link to the fetched page HTML
(none models a failed fetch or a non-ok status), and ldName models
JSON-LD parsing as for ensureAuthor.  The current year is a parameter of
the title rewrite. -/
def rewriteItem (fetchPage : Chars → Option Chars) (ldName : Chars → Option Chars)
    (year : Nat) (item : Chars) : Chars :=
  let out := repFirst (titleStep year) item
  let out := repFirst (blockStep "description".data descFn) out
  let out := repFirst (blockStep "content:encoded".data contentFn) out
  if !(mthumbTest out) then
    let cand :=
      match urlAttrFind "<media:content".data out with
      | some u => some u
      | none => urlAttrFind "<enclosure".data out
    let thumbOut :=
      match cand with
      | some u => (some u, out)
      | none =>
        let link := (match linkFind out with
          | some l => l
          | none => []).takeWhile (fun c => c ≠ '?')
        if link.isEmpty then (none, out)
        else
          match fetchPage link with
          | some html =>
            (metaFind "property".data "og:image".data html,
              ensureAuthor ldName out html)
          | none => (none, out)
    let thumb2 := match thumbOut.1 with | some t => t | none => DEFAULT_THUMB_URL
    let out3 :=
      match sanitizeUrl thumb2 with
      | some t =>
        if imgExtTest t then
          repFirst (litStep "</item>".data
            ("<media:thumbnail url=\"".data ++ t ++ "\" /></item>".data)) thumbOut.2
        else thumbOut.2
      | none => thumbOut.2
    repFirst utmLinkStep out3
  else
    let out2 := repFirst mthumbRepStep out
    let out3 :=
      let link := (match linkFind out2 with
        | some l => l
        | none => []).takeWhile (fun c => c ≠ '?')
      if link.isEmpty then out2
      else
        match fetchPage link with
        | some html => ensureAuthor ldName out2 html
        | none => out2
    repFirst utmLinkStep out3

/-! ## Document-level normalization (build-feed.mjs lines 42-84) -/

/-- The rss root marker test with a word boundary (line 42). -/
def rssTest : Chars → Bool
  | [] => false
  | c :: s =>
    (startsCI "<rss".data (c :: s) &&
      (match (c :: s).drop 4 with | [] => true | d :: _ => !(jsWord d))) ||
    rssTest s

def stripBOM : Chars → Chars
  | c :: s => if decide (c.toNat = 65279) then s else c :: s
  | [] => []

/-- Removal of an existing XML declaration at the start of the document
(line 45): optional whitespace, the declaration opener, a zone free of
closing angles ending in a question mark, the closing angle, trailing
whitespace. -/
def stripXmlDecl (s : Chars) : Chars :=
  let r := s.dropWhile (fun c => jsWs c)
  if startsCI "<?xml".data r then
    let z := (r.drop 5).takeWhile (fun c => c ≠ '>')
    match (r.drop 5).drop z.length with
    | '>' :: rest =>
      (match z.getLast? with
       | some '?' => rest.dropWhile (fun c => jsWs c)
       | _ => s)
    | _ => s
  else s

def XML_DECL : Chars := "<?xml version=\"1.0\" encoding=\"UTF-8\"?>\n".data

def xmlnsPfxChar (c : Char) : Bool :=
  (decide (97 ≤ c.toNat) && decide (c.toNat ≤ 122)) ||
  (decide (65 ≤ c.toNat) && decide (c.toNat ≤ 90)) ||
  c.isDigit || c == '_' || c == '-'

/-- Removal of xmlns declarations whose URI mentions the SmartNews
namespace (lines 50-52): whitespace run, the xmlns marker, a prefix, an
equals sign and a double-quoted URI; declarations with other URIs are
kept verbatim. -/
def xmlnsSnfStep (s : Chars) : Option (Chars × Chars) :=
  match s with
  | c :: _ =>
    if jsWs c then
      let ws := s.takeWhile (fun x => jsWs x)
      let r := s.drop ws.length
      if startsCI "xmlns:".data r then
        let pfx := (r.drop 6).takeWhile (fun x => xmlnsPfxChar x)
        if pfx.isEmpty then none
        else
          match (r.drop 6).drop pfx.length with
          | '=' :: '"' :: t =>
            let uri := t.takeWhile (fun x => x ≠ '"')
            (match t.drop uri.length with
             | '"' :: rest =>
               if hasSubCI "smartnews.be/snf".data uri then some ([], rest)
               else some (ws ++ r.take (6 + pfx.length + 2 + uri.length + 1), rest)
             | _ => none)
          | _ => none
      else none
    else none
  | [] => none

/-- Lazy search for the snf closing tag (any attributes). -/
def snfCloseFind : Chars → Option Chars
  | [] => none
  | c :: s =>
    if startsCI "</snf:".data (c :: s) &&
        (match ((c :: s).drop 6).drop
            (((c :: s).drop 6).takeWhile (fun x => x ≠ '>')).length with
         | '>' :: _ => true
         | _ => false) then
      some ((((c :: s).drop 6).drop
        (((c :: s).drop 6).takeWhile (fun x => x ≠ '>')).length).drop 1)
    else snfCloseFind s

/-- Removal of snf-prefixed container blocks (line 54). -/
def snfBlockStep (s : Chars) : Option (Chars × Chars) :=
  if startsCI "<snf:".data s then
    match (s.drop 5).drop ((s.drop 5).takeWhile (fun x => x ≠ '>')).length with
    | '>' :: r =>
      (match snfCloseFind r with
       | some rest => some ([], rest)
       | none => none)
    | _ => none
  else none

/-- Removal of self-closing snf elements (line 55): the attribute zone,
stripped of trailing whitespace, must end with a slash. -/
def snfSelfStep (s : Chars) : Option (Chars × Chars) :=
  if startsCI "<snf:".data s then
    let z := (s.drop 5).takeWhile (fun x => x ≠ '>')
    match (s.drop 5).drop z.length with
    | '>' :: rest =>
      (match z.reverse.dropWhile (fun x => jsWs x) with
       | '/' :: _ => some ([], rest)
       | _ => none)
    | _ => none
  else none

def ROOT_TAG : Chars :=
  ("<rss version=\"2.0\" xmlns:media=\"http://search.yahoo.com/mrss/\" " ++
   "xmlns:content=\"http://purl.org/rss/1.0/modules/content/\" " ++
   "xmlns:dc=\"http://purl.org/dc/elements/1.1/\" " ++
   "xmlns:atom=\"http://www.w3.org/2005/Atom\">").data

/-- Rebuild of the rss root element (lines 58-65, first match only). -/
def rootStep (s : Chars) : Option (Chars × Chars) :=
  if startsCI "<rss".data s then
    match (s.drop 4).drop ((s.drop 4).takeWhile (fun x => x ≠ '>')).length with
    | '>' :: rest => some (ROOT_TAG, rest)
    | _ => none
  else none

/-! ## Removal of non-allowed namespaced elements (lines 67-75) -/

def nsPfxChar (c : Char) : Bool :=
  (decide (97 ≤ c.toNat) && decide (c.toNat ≤ 122)) ||
  (decide (65 ≤ c.toNat) && decide (c.toNat ≤ 90)) ||
  c.isDigit || c == '_' || c == '-'

def nsNameChar (c : Char) : Bool := nsPfxChar c || c == '.'

def allowedPfx (p : Chars) : Bool := ALLOWED_NS.contains (p.map lc)

/-- Parse a prefixed open tag start: the angle, a nonempty prefix, the
colon, a nonempty local name; returns prefix, name and the rest. -/
def nsOpenParse (s : Chars) : Option (Chars × Chars × Chars) :=
  match s with
  | '<' :: r =>
    let p := r.takeWhile (fun x => nsPfxChar x)
    if p.isEmpty then none
    else
      match r.drop p.length with
      | ':' :: r2 =>
        let n := r2.takeWhile (fun x => nsNameChar x)
        if n.isEmpty then none else some (p, n, r2.drop n.length)
      | _ => none
  | _ => none

/-- Lazy, case-sensitive search for the matching close tag (backreference
to prefix and name), with optional whitespace before the closing angle;
returns the remainder after it. -/
def nsCloseFind (p n : Chars) : Chars → Option Chars
  | [] => none
  | c :: s =>
    if startsL ("</".data ++ p ++ ":".data ++ n) (c :: s) &&
        (match ((c :: s).drop (3 + p.length + n.length)).dropWhile
            (fun x => jsWs x) with
         | '>' :: _ => true
         | _ => false) then
      some ((((c :: s).drop (3 + p.length + n.length)).dropWhile
        (fun x => jsWs x)).drop 1)
    else nsCloseFind p n s

/-- Container-element pass (line 69): match a prefixed block; keep it
whole when the lowercased prefix is allowed (the scan resumes after it),
drop it otherwise. -/
def nsBlockStep (s : Chars) : Option (Chars × Chars) :=
  match nsOpenParse s with
  | some (p, n, r) =>
    let ropt : Option Chars :=
      match r with
      | '>' :: rest => some rest
      | c :: t =>
        if jsWs c then
          match t.drop (t.takeWhile (fun x => x ≠ '>')).length with
          | '>' :: rest => some rest
          | _ => none
        else none
      | [] => none
    (match ropt with
     | some body =>
       (match nsCloseFind p n body with
        | some rest =>
          if allowedPfx p then some (s.take (s.length - rest.length), rest)
          else some ([], rest)
        | none => none)
     | none => none)
  | none => none

/-- Self-closing pass (line 73): the optional attribute part must end
with a slash (after optional whitespace) before the closing angle. -/
def nsSelfStep (s : Chars) : Option (Chars × Chars) :=
  match nsOpenParse s with
  | some (p, _, r) =>
    let ropt : Option Chars :=
      match r with
      | '/' :: t =>
        (match t.dropWhile (fun x => jsWs x) with
         | '>' :: rest => some rest
         | _ => none)
      | c :: t =>
        if jsWs c then
          let z := (c :: t).takeWhile (fun x => x ≠ '>')
          match (c :: t).drop z.length with
          | '>' :: rest =>
            (match z.reverse.dropWhile (fun x => jsWs x) with
             | '/' :: _ => some rest
             | _ => none)
          | _ => none
        else none
      | [] => none
    (match ropt with
     | some rest =>
       if allowedPfx p then some (s.take (s.length - rest.length), rest)
       else some ([], rest)
     | none => none)
  | none => none

def nsStrip (s : Chars) : Chars := scan nsSelfStep (scan nsBlockStep s)

/-! ## The canonical self link (lines 77-81) -/

def FEED_SELF_URL : Chars := "https://ctv-clearlink.github.io/RSS-Feed/feed.xml".data

/-- At a rel attribute position: a quote of either kind, the word self
case-insensitively, a quote of either kind; returns the remainder. -/
def relSelfAt (r : Chars) : Option Chars :=
  match r with
  | q1 :: t =>
    if isQuote q1 && startsCI "self".data t then
      match t.drop 4 with
      | q2 :: u => if isQuote q2 then some u else none
      | [] => none
    else none
  | [] => none

/-- One candidate of the self-link removal regex from a rel position:
the rel equals self attribute, then a zone free of closing angles ending
in a slash, the closing angle and trailing whitespace. -/
def selfLinkTail (afterRel : Chars) : Option Chars :=
  match relSelfAt afterRel with
  | some u =>
    let z2 := u.takeWhile (fun x => x ≠ '>')
    (match u.drop z2.length with
     | '>' :: rest =>
       (match z2.getLast? with
        | some '/' => some (rest.dropWhile (fun x => jsWs x))
        | _ => none)
     | _ => none)
  | none => none

/-- Global removal of self-closing self links (line 79). -/
def selfLinkStep (s : Chars) : Option (Chars × Chars) :=
  if startsCI "<atom:link".data s then
    let inner := s.drop 10
    match firstSome
        (((subPositionsCI "rel=".data
            (inner.takeWhile (fun x => x ≠ '>'))).filter
          (fun n => decide (1 ≤ n))).reverse)
        (fun nn => selfLinkTail (inner.drop (nn + 4))) with
    | some rest => some ([], rest)
    | none => none
  else none

/-- The open-tag half of the self-link pattern, used by the negative
lookahead of the insertion (line 80). -/
def selfOpenAt (s : Chars) : Option Chars :=
  if startsCI "<atom:link".data s then
    let inner := s.drop 10
    firstSome
      (((subPositionsCI "rel=".data
          (inner.takeWhile (fun x => x ≠ '>'))).filter
        (fun n => decide (1 ≤ n))).reverse)
      (fun nn => relSelfAt (inner.drop (nn + 4)))
  else none

def selfOpenExists : Chars → Bool
  | [] => false
  | c :: s => (selfOpenAt (c :: s)).isSome || selfOpenExists s

def SELF_LINK_TAG (u : Chars) : Chars :=
  "<atom:link href=\"".data ++ u ++
    "\" rel=\"self\" type=\"application/rss+xml\" />".data

/-- Insertion of the canonical self link after the channel opener when no
self-link open pattern occurs later in the document (lines 80-81). -/
def channelInsStep (s : Chars) : Option (Chars × Chars) :=
  if startsCI "<channel>".data s then
    let rest := s.drop 9
    if selfOpenExists rest then none
    else some ("<channel>\n    ".data ++ SELF_LINK_TAG FEED_SELF_URL, rest)
  else none

def ensureSelfLink (s : Chars) : Chars :=
  repFirst channelInsStep (scan selfLinkStep s)

/-! ## Item limiting (build-feed.mjs lines 93-101) -/

def ITEM_LIMIT : Nat := 30

/-- Lazy body of an item match up to its closing tag (case-sensitive). -/
def itemCloseFind : Chars → Option (Chars × Chars)
  | [] => none
  | c :: s =>
    if startsL "</item>".data (c :: s) then some ([], (c :: s).drop 7)
    else
      match itemCloseFind s with
      | some (b, r) => some (c :: b, r)
      | none => none

/-- First full item match from this position. -/
def itemFind : Chars → Option (Chars × Chars)
  | [] => none
  | c :: s =>
    if startsL "<item>".data (c :: s) then
      match itemCloseFind ((c :: s).drop 6) with
      | some (body, rest) =>
        some ("<item>".data ++ body ++ "</item>".data, rest)
      | none => itemFind s
    else itemFind s

def collectItemsGo : Nat → Chars → List Chars
  | 0, _ => []
  | Nat.succ f, s =>
    match itemFind s with
    | some (m, rest) => m :: collectItemsGo f rest
    | none => []

def itemsOf (s : Chars) : List Chars := collectItemsGo s.length s

/-- Prefix of the channel region before its first item marker. -/
def splitHeader (m : Chars) : Chars :=
  match subIdx "<item>".data m with
  | some i => m.take i
  | none => m

def chanCloseFind : Chars → Option (Chars × Chars)
  | [] => none
  | c :: s =>
    if startsL "</channel>".data (c :: s) then some ([], (c :: s).drop 10)
    else
      match chanCloseFind s with
      | some (b, r) => some (c :: b, r)
      | none => none

/-- The channel-region replace of limitItems: keep the header up to the
first item, splice in the kept items, close the channel. -/
def channelRegionStep (keep : Chars) (s : Chars) : Option (Chars × Chars) :=
  if startsL "<channel>".data s then
    match chanCloseFind (s.drop 9) with
    | some (body, rest) =>
      some (splitHeader ("<channel>".data ++ body ++ "</channel>".data) ++
        keep ++ "\n</channel>".data, rest)
    | none => none
  else none

def limitItems (limit : Nat) (xml : Chars) : Chars :=
  let items := itemsOf xml
  if decide (items.length ≤ limit) then xml
  else
    repFirst (channelRegionStep (List.intercalate "\n".data (items.take limit))) xml

/-- The document normalization chain of main (lines 42-84): the rss
marker check, header normalization, SmartNews removal, root rebuild,
namespace cleanup, self-link canonicalization, item capping.  The
per-item rewrites (line 87) follow this and touch only item bodies. -/
def normalizeDoc (xml : Chars) : Option Chars :=
  if !(rssTest xml) then none
  else
    some (limitItems ITEM_LIMIT
      (ensureSelfLink
        (nsStrip
          (repFirst rootStep
            (scan snfSelfStep (scan snfBlockStep
              (scan xmlnsSnfStep
                (XML_DECL ++ stripXmlDecl (stripBOM xml)))))))))

/-! ## Observers for the document invariants -/

/-- Does an element tag (open or close) with a namespace prefix outside
the allowed set start at this position? -/
def usesDisallowedAt (s : Chars) : Bool :=
  match s with
  | '<' :: r =>
    let r2 := match r with | '/' :: t => t | _ => r
    let p := r2.takeWhile (fun x => nsPfxChar x)
    if p.isEmpty then false
    else
      match r2.drop p.length with
      | ':' :: t => !((t.takeWhile (fun x => nsNameChar x)).isEmpty) && !(allowedPfx p)
      | _ => false
  | _ => false

def usesDisallowedPfx : Chars → Bool
  | [] => false
  | c :: s => usesDisallowedAt (c :: s) || usesDisallowedPfx s

/-- The href attribute value inside an atom:link tag zone. -/
def hrefOf (zone : Chars) : Chars :=
  match firstSome (subPositionsCI "href=".data zone)
      (fun n => contentCapAt (zone.drop (n + 5))) with
  | some h => h
  | none => []

/-- Number of positions at which a self-referencing atom:link open tag
(carrying a rel equals self attribute) starts. -/
def selfLinkCount : Chars → Nat
  | [] => 0
  | c :: s =>
    (if (selfOpenAt (c :: s)).isSome then 1 else 0) + selfLinkCount s

/-- The href of the first self-referencing atom:link open tag. -/
def firstSelfHref : Chars → Option Chars
  | [] => none
  | c :: s =>
    if (selfOpenAt (c :: s)).isSome then
      some (hrefOf (((c :: s).drop 10).takeWhile (fun x => x ≠ '>')))
    else firstSelfHref s

/-! ## Claim-support definitions -/

/-- The spec wording: the cleaned title ends with the bare word in (the
two letters, case-insensitively, preceded by nothing or by a non-word
character). -/
def bareWordInSuffix (t : Chars) : Bool :=
  match t.reverse with
  | n :: i :: rest =>
    ciEqc n 'n' && ciEqc i 'i' &&
      (match rest with | [] => true | b :: _ => !(jsWord b))
  | _ => false

/-- Structured documents for the namespace-stripping claim: plain text,
a prefixed container element, a self-closing prefixed element. -/
inductive NsPart : Type
  | txt (t : Chars)
  | blockP (p n inner : Chars)
  | selfP (p n : Chars)

def renderNsPart : NsPart → Chars
  | NsPart.txt t => t
  | NsPart.blockP p n i =>
    "<".data ++ p ++ ":".data ++ n ++ ">".data ++ i ++
      "</".data ++ p ++ ":".data ++ n ++ ">".data
  | NsPart.selfP p n => "<".data ++ p ++ ":".data ++ n ++ "/>".data

def renderNsParts (ps : List NsPart) : Chars := (ps.map renderNsPart).flatten

/-- Well-formedness of a part: names drawn from the tag alphabets, no
nested markup inside text or element bodies. -/
def nsPartWf : NsPart → Bool
  | NsPart.txt t => t.all (fun c => c ≠ '<')
  | NsPart.blockP p n i =>
    !(p.isEmpty) && p.all (fun c => nsPfxChar c) &&
    !(n.isEmpty) && n.all (fun c => nsNameChar c) &&
    i.all (fun c => c ≠ '<')
  | NsPart.selfP p n =>
    !(p.isEmpty) && p.all (fun c => nsPfxChar c) &&
    !(n.isEmpty) && n.all (fun c => nsNameChar c)

def nsPartKeep : NsPart → Bool
  | NsPart.txt _ => true
  | NsPart.blockP p _ _ => allowedPfx p
  | NsPart.selfP p _ => allowedPfx p

/-- What the container pass keeps and what the self-closing pass keeps. -/
def nsKeep1 : NsPart → Bool
  | NsPart.blockP p _ _ => allowedPfx p
  | _ => true

def nsKeep2 : NsPart → Bool
  | NsPart.selfP p _ => allowedPfx p
  | _ => true

/-- Structured channel bodies for the self-link claim: plain text or a
self-closing self-link element with the given href. -/
inductive ChSeg : Type
  | txt (t : Chars)
  | selfSeg (h : Chars)

def renderChSeg : ChSeg → Chars
  | ChSeg.txt t => t
  | ChSeg.selfSeg h =>
    "<atom:link href=\"".data ++ h ++ "\" rel=\"self\" />".data

def renderChSegs (segs : List ChSeg) : Chars := (segs.map renderChSeg).flatten

/-- Character class for the quantified href values: printable url-ish
characters that cannot open a tag, close the attribute zone, carry a
quote, start the rel attribute name, or be eaten as trailing whitespace. -/
def hrefSafe (c : Char) : Bool :=
  !(ciEqc 'r' c) && c ≠ '>' && c ≠ '<' && c ≠ '"' && c ≠ squote && !(jsWs c)

def chSegWf : ChSeg → Bool
  | ChSeg.txt t =>
    t.all (fun c => c ≠ '<') &&
      (match t with | [] => true | c :: _ => !(jsWs c))
  | ChSeg.selfSeg h => h.all (fun c => hrefSafe c)

/-- What the self-link removal pass keeps. -/
def chKeep : ChSeg → Bool
  | ChSeg.selfSeg _ => false
  | _ => true

/-- A document built around a channel region for the item-cap claim:
every item body is markup-free. -/
def renderFeedItem (b : Chars) : Chars :=
  "<item>".data ++ b ++ "</item>".data

def renderFeedItems (bs : List Chars) : Chars :=
  (bs.map renderFeedItem).flatten

/-- The single-description item family for the idempotence claim. -/
def mkDescItem (d : Chars) : Chars :=
  "<item><description>".data ++ d ++ "</description></item>".data

/-- Description texts that survive a rewrite byte-identically: entity
free, markup free, no bracket that could close a CDATA section, already
trimmed, within the length cap. -/
def descClean (d : Chars) : Bool :=
  d.all (fun c => c ≠ '<' && c ≠ '&' && c ≠ ']') &&
    decide (trimL d = d) && decide (d.length ≤ CONTENT_MAX_CHARS)

/-- The fully rewritten single-description item: CDATA-wrapped body and
the default thumbnail spliced in before the closing tag. -/
def mkRewrittenItem (d : Chars) : Chars :=
  "<item><description><![CDATA[".data ++
    (d ++ ("]]></description><media:thumbnail url=\"".data ++
      (DEFAULT_THUMB_URL ++ "\" /></item>".data)))

/-- Whether the case-insensitive pattern could match at the head for some
continuation of the text. -/
def ciCompat : Chars → Chars → Bool
  | [], _ => true
  | _ :: _, [] => true
  | p :: ps, c :: cs => ciEqc p c && ciCompat ps cs

/-- Whether the pattern can match at no position of the text, whatever
follows the text. -/
def noCIHit (p : Chars) : Chars → Bool
  | [] => true
  | c :: s => !(ciCompat p (c :: s)) && noCIHit p s

/-- Concrete counterexample inputs. -/
def cexItem : Chars := "<item><description>&amp;nbsp;</description></item>".data

def cexDoc2 : Chars :=
  ("<rss version=\"2.0\"><channel><media:group><x:bad>z</x:bad>" ++
   "</media:group></channel></rss>").data

def cexDoc3 : Chars :=
  ("<rss version=\"2.0\"><channel><atom:link " ++
   "href=\"https://evil.example/feed.xml\" rel=\"self\"></atom:link>" ++
   "</channel></rss>").data

/-- A step is well-formed when its remainder never grows. -/
def StepOk (step : Chars → Option (Chars × Chars)) : Prop :=
  ∀ c s out rest, step (c :: s) = some (out, rest) → rest.length ≤ s.length

/-! # Lemma infrastructure -/

theorem lc_angle {c : Char} (h : lc c = '<') : c = '<' := by
  unfold lc at h
  split at h <;> simp_all

theorem ciEqc_angle {c : Char} (h : c ≠ '<') : ciEqc '<' c = false := by
  cases hh : ciEqc '<' c with
  | false => rfl
  | true =>
    exfalso
    apply h
    apply lc_angle
    have h2 : lc '<' = lc c := eq_of_beq hh
    rw [← h2]
    decide

theorem startsCI_head_false {p c : Char} (ps s : Chars) (h : ciEqc p c = false) :
    startsCI (p :: ps) (c :: s) = false := by
  simp [startsCI, h]

theorem startsL_head_false {p c : Char} (ps s : Chars) (h : c ≠ p) :
    startsL (p :: ps) (c :: s) = false := by
  simp [startsL, List.isPrefixOf]
  intro hc
  exact absurd hc.symm h

theorem scanGo_nil (step : Chars → Option (Chars × Chars)) (f : Nat) :
    scanGo step f [] = [] := by
  cases f <;> rfl

theorem scanGo_fuel {step : Chars → Option (Chars × Chars)} (hok : StepOk step) :
    ∀ f g (s : Chars), s.length ≤ f → s.length ≤ g →
      scanGo step f s = scanGo step g s := by
  intro f
  induction f with
  | zero =>
    intro g s h1 _
    have hs : s = [] := List.eq_nil_of_length_eq_zero (Nat.le_zero.mp h1)
    subst hs
    rw [scanGo_nil, scanGo_nil]
  | succ f ih =>
    intro g s h1 h2
    cases s with
    | nil => rw [scanGo_nil, scanGo_nil]
    | cons c t =>
      cases g with
      | zero => simp at h2
      | succ g =>
        show scanGo step (f + 1) (c :: t) = scanGo step (g + 1) (c :: t)
        simp only [scanGo]
        cases hs : step (c :: t) with
        | none =>
          have ht : t.length ≤ f := Nat.le_of_succ_le_succ h1
          have ht2 : t.length ≤ g := Nat.le_of_succ_le_succ h2
          rw [ih g t ht ht2]
        | some pr =>
          obtain ⟨out, rest⟩ := pr
          have hr : rest.length ≤ t.length := hok c t out rest hs
          have ht : rest.length ≤ f :=
            Nat.le_trans hr (Nat.le_of_succ_le_succ h1)
          have ht2 : rest.length ≤ g :=
            Nat.le_trans hr (Nat.le_of_succ_le_succ h2)
          simp only []
          rw [ih g rest ht ht2]

theorem scan_nil (step : Chars → Option (Chars × Chars)) : scan step [] = [] := rfl

theorem scan_cons_none {step : Chars → Option (Chars × Chars)} {c : Char} {s : Chars}
    (h : step (c :: s) = none) : scan step (c :: s) = c :: scan step s := by
  unfold scan
  show scanGo step (s.length + 1) (c :: s) = c :: scanGo step s.length s
  simp only [scanGo, h]

theorem scan_cons_some {step : Chars → Option (Chars × Chars)} (hok : StepOk step)
    {c : Char} {s out rest : Chars} (h : step (c :: s) = some (out, rest)) :
    scan step (c :: s) = out ++ scan step rest := by
  unfold scan
  show scanGo step (s.length + 1) (c :: s) = out ++ scanGo step rest.length rest
  simp only [scanGo, h]
  have hr : rest.length ≤ s.length := hok c s out rest h
  rw [scanGo_fuel hok s.length rest.length rest hr (Nat.le_refl _)]

/-- Characters on which a step can never fire pass through a scan. -/
theorem scan_pass {step : Chars → Option (Chars × Chars)} {trig : Char → Bool}
    (hstep : ∀ c s, trig c = false → step (c :: s) = none) :
    ∀ x y : Chars, (∀ c ∈ x, trig c = false) →
      scan step (x ++ y) = x ++ scan step y := by
  intro x
  induction x with
  | nil => intro y _; rfl
  | cons c t ih =>
    intro y hx
    have hc : trig c = false := hx c (List.mem_cons_self c t)
    have ht : ∀ d ∈ t, trig d = false := fun d hd => hx d (List.mem_cons_of_mem c hd)
    rw [List.cons_append, scan_cons_none (hstep c (t ++ y) hc), ih y ht]
    rfl

theorem scan_pass_id {step : Chars → Option (Chars × Chars)} {trig : Char → Bool}
    (hstep : ∀ c s, trig c = false → step (c :: s) = none)
    (x : Chars) (hx : ∀ c ∈ x, trig c = false) : scan step x = x := by
  have h2 := scan_pass hstep x [] hx
  rw [scan_nil] at h2
  simpa using h2

theorem repFirst_cons_none {step : Chars → Option (Chars × Chars)} {c : Char} {s : Chars}
    (h : step (c :: s) = none) : repFirst step (c :: s) = c :: repFirst step s := by
  simp [repFirst, h]

theorem repFirst_cons_some {step : Chars → Option (Chars × Chars)} {c : Char}
    {s out rest : Chars} (h : step (c :: s) = some (out, rest)) :
    repFirst step (c :: s) = out ++ rest := by
  simp [repFirst, h]

theorem repFirst_pass {step : Chars → Option (Chars × Chars)} {trig : Char → Bool}
    (hstep : ∀ c s, trig c = false → step (c :: s) = none) :
    ∀ x y : Chars, (∀ c ∈ x, trig c = false) →
      repFirst step (x ++ y) = x ++ repFirst step y := by
  intro x
  induction x with
  | nil => intro y _; rfl
  | cons c t ih =>
    intro y hx
    have hc : trig c = false := hx c (List.mem_cons_self c t)
    have ht : ∀ d ∈ t, trig d = false := fun d hd => hx d (List.mem_cons_of_mem c hd)
    rw [List.cons_append, repFirst_cons_none (hstep c (t ++ y) hc), ih y ht]
    rfl

theorem repFirst_pass_id {step : Chars → Option (Chars × Chars)} {trig : Char → Bool}
    (hstep : ∀ c s, trig c = false → step (c :: s) = none)
    (x : Chars) (hx : ∀ c ∈ x, trig c = false) : repFirst step x = x := by
  have h2 := repFirst_pass hstep x [] hx
  simp only [repFirst] at h2
  simpa using h2

/-! # Claim theorems -/

/-- C7: the failure-path escaper does not XML-escape the diagnostic
message.  On the message thrown by the rss root check itself, the
greater-than sign is turned into the amp entity (which denotes an
ampersand, not a greater-than sign), and a bare ampersand is turned into
the literal text undefined, so the written payload does not decode back
to the diagnostic message, while the reference escaping does. -/
theorem C7_escapeXml_not_escaping :
    escapeXml "Origin did not return RSS/XML (no <rss> tag)".data =
      "Origin did not return RSS/XML (no &lt;rss&amp; tag)".data ∧
    xmlEscapedRef "Origin did not return RSS/XML (no <rss> tag)".data =
      "Origin did not return RSS/XML (no &lt;rss&gt; tag)".data ∧
    escapeXml "&".data = "undefined".data ∧
    xmlEscapedRef "&".data = "&amp;".data := by
  refine ⟨by decide, by decide, by decide, by decide⟩

/-- C9: url sanitization upgrades the scheme of the http image url,
preserves everything else, the result matches the image-extension allow
list, and the javascript url is rejected. -/
theorem C9_sanitizeUrl :
    sanitizeUrl "http://example.com/img.PNG?x=1".data =
      some "https://example.com/img.PNG?x=1".data ∧
    imgExtTest "https://example.com/img.PNG?x=1".data = true ∧
    sanitizeUrl "javascript:alert(1)".data = none := by
  refine ⟨by decide, by decide, by decide⟩

/-- C1 counterexample: the item rewrite pipeline is not idempotent.  The
first pass decodes the amp entity in the description, leaving the text of
an nbsp entity; the second pass decodes that remnant to a space and trims
it away, so the second output differs from the first. -/
theorem C1_counterexample :
    rewriteItem (fun _ => none) (fun _ => none) 2025
        (rewriteItem (fun _ => none) (fun _ => none) 2025 cexItem) ≠
      rewriteItem (fun _ => none) (fun _ => none) 2025 cexItem := by
  decide

/-- C2 counterexample: after document normalization a document can still
contain an element with a non-allowed namespace prefix.  The global
container pass skips over the whole kept media block, so the x-prefixed
element nested inside it survives. -/
theorem C2_counterexample :
    (normalizeDoc cexDoc2).map (hasSub "<x:bad>".data) = some true ∧
    (normalizeDoc cexDoc2).map usesDisallowedPfx = some true := by
  refine ⟨by decide, by decide⟩

/-- C3 counterexample: a malformed container-form self link (closed by a
separate end tag instead of self-closing) escapes the removal regex,
suppresses the insertion through the negative lookahead, and leaves the
processed document with exactly one self link whose href is not the
configured canonical url. -/
theorem C3_counterexample :
    (normalizeDoc cexDoc3).map selfLinkCount = some 1 ∧
    (normalizeDoc cexDoc3).map firstSelfHref =
      some (some "https://evil.example/feed.xml".data) ∧
    "https://evil.example/feed.xml".data ≠ FEED_SELF_URL := by
  refine ⟨by decide, by decide, by decide⟩

/-! ## C5: the body cap -/

theorem dropWhile_replicate_a (n : Nat) :
    List.dropWhile (fun c => !(jsWs c)) (List.replicate n 'a') = ([] : Chars) := by
  induction n with
  | zero => rfl
  | succ n ih =>
    rw [List.replicate_succ, List.dropWhile_cons, if_pos (by decide), ih]

theorem capBody_replicate_cond :
    decide ((List.replicate 8001 'a').length > CONTENT_MAX_CHARS) = true := by
  rw [List.length_replicate]
  rfl

theorem capBody_replicate :
    capBody (List.replicate 8001 'a') = List.replicate 8000 'a' ++ [ellipsisChar] := by
  unfold capBody
  rw [if_pos capBody_replicate_cond]
  have ht : (List.replicate 8001 'a').take CONTENT_MAX_CHARS =
      List.replicate 8000 'a' := by
    rw [List.take_replicate]
    norm_num [CONTENT_MAX_CHARS]
  rw [ht]
  unfold dropTrailingWsWord
  rw [List.reverse_replicate, dropWhile_replicate_a 8000]

/-- C5 counterexample: on a whitespace-free body of 8001 characters the
truncation finds no whitespace boundary, keeps the full 8000-character
slice and appends the ellipsis, producing 8001 characters, above the
configured maximum. -/
theorem C5_counterexample :
    ¬ ((capBody (List.replicate 8001 'a')).length ≤ CONTENT_MAX_CHARS) := by
  rw [capBody_replicate]
  rw [List.length_append, List.length_replicate, List.length_cons,
    List.length_nil]
  unfold CONTENT_MAX_CHARS
  omega

theorem length_dropWhile_leL {p : Char → Bool} :
    ∀ l : Chars, (l.dropWhile p).length ≤ l.length := by
  intro l
  induction l with
  | nil => exact Nat.le_refl _
  | cons a t ih =>
    rw [List.dropWhile_cons]
    by_cases hp : p a
    · rw [if_pos hp]
      exact Nat.le_trans ih (Nat.le_succ _)
    · rw [if_neg hp]

theorem dropWhile_head_false {p : Char → Bool} :
    ∀ (l : Chars) c r, l.dropWhile p = c :: r → p c = false := by
  intro l
  induction l with
  | nil => intro c r h; cases h
  | cons a t ih =>
    intro c r h
    rw [List.dropWhile_cons] at h
    by_cases hp : p a
    · rw [if_pos hp] at h
      exact ih c r h
    · rw [if_neg hp] at h
      cases h
      exact Bool.eq_false_iff.mpr hp

theorem dropWhile_nil_all {p : Char → Bool} :
    ∀ l : Chars, l.dropWhile p = [] → ∀ c ∈ l, p c = true := by
  intro l
  induction l with
  | nil => intro _ c hc; cases hc
  | cons a t ih =>
    intro h c hc
    rw [List.dropWhile_cons] at h
    by_cases hp : p a
    · rw [if_pos hp] at h
      rcases List.mem_cons.mp hc with rfl | hm
      · exact hp
      · exact ih h c hm
    · rw [if_neg hp] at h
      cases h

theorem dropTrailingWsWord_len (s : Chars) :
    (dropTrailingWsWord s).length ≤ s.length := by
  unfold dropTrailingWsWord
  cases heq : s.reverse.dropWhile (fun c => !(jsWs c)) with
  | nil => exact Nat.le_refl _
  | cons c r1 =>
    calc (((c :: r1).dropWhile (fun c => jsWs c)).reverse).length
        = ((c :: r1).dropWhile (fun c => jsWs c)).length := List.length_reverse _
      _ ≤ (c :: r1).length := length_dropWhile_leL _
      _ = (s.reverse.dropWhile (fun c => !(jsWs c))).length := by rw [heq]
      _ ≤ s.reverse.length := length_dropWhile_leL _
      _ = s.length := List.length_reverse _

theorem dropTrailingWsWord_len_lt (s : Chars)
    (h : s.any (fun c => jsWs c) = true) :
    (dropTrailingWsWord s).length + 1 ≤ s.length := by
  unfold dropTrailingWsWord
  cases heq : s.reverse.dropWhile (fun c => !(jsWs c)) with
  | nil =>
    exfalso
    rcases List.any_eq_true.mp h with ⟨c, hc, hw⟩
    have hall := dropWhile_nil_all _ heq c (List.mem_reverse.mpr hc)
    rw [hw] at hall
    cases hall
  | cons c r1 =>
    have hcw : jsWs c = true := by
      have := dropWhile_head_false _ c r1 heq
      cases hjw : jsWs c
      · rw [hjw] at this; cases this
      · rfl
    have hstep : (c :: r1).dropWhile (fun c => jsWs c) =
        r1.dropWhile (fun c => jsWs c) := by
      rw [List.dropWhile_cons, if_pos hcw]
    calc (((c :: r1).dropWhile (fun c => jsWs c)).reverse).length + 1
        = ((c :: r1).dropWhile (fun c => jsWs c)).length + 1 := by
          rw [List.length_reverse]
      _ = (r1.dropWhile (fun c => jsWs c)).length + 1 := by rw [hstep]
      _ ≤ r1.length + 1 := by
          exact Nat.add_le_add_right (length_dropWhile_leL _) 1
      _ = (c :: r1).length := rfl
      _ = (s.reverse.dropWhile (fun c => !(jsWs c))).length := by rw [heq]
      _ ≤ s.reverse.length := length_dropWhile_leL _
      _ = s.length := List.length_reverse _

/-- C5 amended: the capped body never exceeds the maximum plus one
character; it stays within the maximum whenever the truncated slice
contains any whitespace (truncation then ends at a whitespace boundary);
and every truncated body ends with the ellipsis marker. -/
theorem C5_amended (txt : Chars) :
    (capBody txt).length ≤ CONTENT_MAX_CHARS + 1 ∧
    (txt.length > CONTENT_MAX_CHARS →
      (txt.take CONTENT_MAX_CHARS).any (fun c => jsWs c) = true →
      (capBody txt).length ≤ CONTENT_MAX_CHARS) ∧
    (txt.length > CONTENT_MAX_CHARS →
      (capBody txt).getLast? = some ellipsisChar) := by
  have htake : (txt.take CONTENT_MAX_CHARS).length ≤ CONTENT_MAX_CHARS := by
    rw [List.length_take]
    exact Nat.min_le_left _ _
  refine ⟨?h1, ?h2, ?h3⟩
  case h1 =>
    unfold capBody
    cases hd : decide (txt.length > CONTENT_MAX_CHARS) with
    | false =>
      rw [if_neg (by decide : ¬ (false = true))]
      have := of_decide_eq_false hd
      omega
    | true =>
      rw [if_pos rfl]
      rw [List.length_append]
      have := dropTrailingWsWord_len (txt.take CONTENT_MAX_CHARS)
      simp only [List.length_cons, List.length_nil]
      omega
  case h2 =>
    intro hgt hws
    unfold capBody
    rw [if_pos (decide_eq_true hgt)]
    rw [List.length_append]
    have := dropTrailingWsWord_len_lt (txt.take CONTENT_MAX_CHARS) hws
    simp only [List.length_cons, List.length_nil]
    omega
  case h3 =>
    intro hgt
    unfold capBody
    rw [if_pos (decide_eq_true hgt)]
    exact List.getLast?_concat _

/-- Witness for the C5 amended theorem at a concrete truncated input that
contains whitespace in its slice. -/
theorem C5_amended_witness :
    (capBody ('a' :: ' ' :: List.replicate 8000 'b')).length ≤ CONTENT_MAX_CHARS := by
  refine (C5_amended _).2.1 ?hl ?hw
  case hl =>
    rw [List.length_cons, List.length_cons, List.length_replicate]
    unfold CONTENT_MAX_CHARS
    omega
  case hw =>
    have h8 : CONTENT_MAX_CHARS = 7998 + 1 + 1 := by rfl
    rw [h8, List.take_succ_cons, List.take_succ_cons]
    rw [List.any_cons, List.any_cons]
    rw [show jsWs ' ' = true from by decide]
    rw [Bool.true_or, Bool.or_true]

/-! ## C10: the CDATA escape is terminator-free -/

theorem startsL_decomp {pat s : Chars} (h : startsL pat s = true) :
    ∃ u, s = pat ++ u := by
  rcases List.isPrefixOf_iff_prefix.mp h with ⟨u, hu⟩
  exact ⟨u, hu.symm⟩

theorem escapeCdata_hit (t : Chars) :
    escapeCdata (']' :: ']' :: '>' :: t) = "]]&gt;".data ++ escapeCdata t := by
  unfold escapeCdata replaceAllLit
  have hstep : litStep "]]>".data "]]&gt;".data (']' :: ']' :: '>' :: t) =
      some ("]]&gt;".data, t) := by
    simp [litStep, startsL, List.isPrefixOf]
  exact scan_cons_some
    (by
      intro c s out rest hsr
      unfold litStep at hsr
      by_cases hp : startsL "]]>".data (c :: s) = true
      · rw [if_neg (by decide), if_pos hp] at hsr
        cases hsr
        rw [List.length_drop]
        rw [show ("]]>".data).length = 3 from rfl, List.length_cons]
        omega
      · rw [if_neg (by decide), if_neg hp] at hsr
        cases hsr)
    hstep

theorem escapeCdata_miss {c : Char} {t : Chars}
    (h : startsL "]]>".data (c :: t) = false) :
    escapeCdata (c :: t) = c :: escapeCdata t := by
  unfold escapeCdata replaceAllLit
  exact scan_cons_none (by simp [litStep, h])

theorem escapeCdata_head (t : Chars) :
    (escapeCdata t).head? = t.head? ∨ (escapeCdata t).head? = some ']' := by
  cases t with
  | nil => left; rfl
  | cons c s =>
    by_cases h : startsL "]]>".data (c :: s) = true
    · rcases startsL_decomp h with ⟨u, hu⟩
      have : c :: s = ']' :: ']' :: '>' :: u := hu
      rw [this, escapeCdata_hit]
      right; rfl
    · rw [escapeCdata_miss (Bool.eq_false_iff.mpr h)]
      left; rfl

theorem escapeCdata_aux1 (t : Chars)
    (h : startsL "]>".data (escapeCdata t) = true) :
    startsL "]>".data t = true := by
  cases t with
  | nil => simp [escapeCdata, replaceAllLit, scan, scanGo, startsL,
      List.isPrefixOf] at h
  | cons c s =>
    by_cases hp : startsL "]]>".data (c :: s) = true
    · rcases startsL_decomp hp with ⟨u, hu⟩
      have hcs : c :: s = ']' :: ']' :: '>' :: u := hu
      rw [hcs, escapeCdata_hit] at h
      simp [startsL, List.isPrefixOf] at h
    · rw [escapeCdata_miss (Bool.eq_false_iff.mpr hp)] at h
      rcases startsL_decomp h with ⟨u, hu⟩
      have hu2 : c :: escapeCdata s = ']' :: '>' :: u := hu
      have hc : c = ']' := by
        have := congrArg List.head? hu2
        simpa using this
      have hes : escapeCdata s = '>' :: u := by
        have := congrArg List.tail hu2
        simpa using this
      have hhead : (escapeCdata s).head? = some '>' := by rw [hes]; rfl
      have hs : s.head? = some '>' := by
        rcases escapeCdata_head s with hcase | hcase
        · rw [← hcase]; exact hhead
        · rw [hcase] at hhead; cases hhead
      subst hc
      cases s with
      | nil => cases hs
      | cons d r =>
        have hd : d = '>' := by
          simp [List.head?] at hs
          exact hs
        subst hd
        simp [startsL, List.isPrefixOf]

theorem escapeCdata_noTerm_aux :
    ∀ N, ∀ s : Chars, s.length ≤ N →
      hasSub "]]>".data (escapeCdata s) = false := by
  intro N
  induction N with
  | zero =>
    intro s hlen
    have : s = [] := List.eq_nil_of_length_eq_zero (Nat.le_zero.mp hlen)
    subst this
    decide
  | succ N ih =>
    intro s hlen
    cases s with
    | nil => decide
    | cons c t =>
      by_cases hp : startsL "]]>".data (c :: t) = true
      · rcases startsL_decomp hp with ⟨u, hu⟩
        have hcs : c :: t = ']' :: ']' :: '>' :: u := hu
        have hu_len : u.length ≤ N := by
          have := congrArg List.length hcs
          simp [List.length_cons] at this
          simp [List.length_cons] at hlen
          omega
        rw [hcs, escapeCdata_hit]
        rw [show ("]]&gt;".data) = [']', ']', '&', 'g', 't', ';'] from rfl]
        simp only [List.cons_append, List.nil_append]
        simp [hasSub, startsL, List.isPrefixOf]
        exact ih u hu_len
      · have hp2 : startsL "]]>".data (c :: t) = false := Bool.eq_false_iff.mpr hp
        rw [escapeCdata_miss hp2]
        have ht_len : t.length ≤ N := by
          simp [List.length_cons] at hlen
          omega
        rw [show hasSub "]]>".data (c :: escapeCdata t) =
          (startsL "]]>".data (c :: escapeCdata t) ||
            hasSub "]]>".data (escapeCdata t)) from rfl]
        rw [ih t ht_len, Bool.or_false]
        cases hsl : startsL "]]>".data (c :: escapeCdata t) with
        | false => rfl
        | true =>
          exfalso
          rcases startsL_decomp hsl with ⟨u, hu⟩
          have hu2 : c :: escapeCdata t = ']' :: ']' :: '>' :: u := hu
          have hc : c = ']' := by
            have := congrArg List.head? hu2
            simpa using this
          have hes : escapeCdata t = ']' :: '>' :: u := by
            have := congrArg List.tail hu2
            simpa using this
          have h2 : startsL "]>".data (escapeCdata t) = true := by
            rw [hes]
            simp [startsL, List.isPrefixOf]
          have h3 := escapeCdata_aux1 t h2
          rcases startsL_decomp h3 with ⟨u2, hu3⟩
          subst hc
          have : startsL "]]>".data (']' :: t) = true := by
            rw [hu3]
            simp [startsL, List.isPrefixOf]
          exact hp this

/-- C10: the escaped CDATA body never contains the CDATA terminator, so
body text placed inside a CDATA section cannot terminate it early. -/
theorem C10_escapeCdata_safe (s : Chars) :
    hasSub "]]>".data (escapeCdata s) = false :=
  escapeCdata_noTerm_aux s.length s (Nat.le_refl _)

/-! ## C6: the title year fixup -/

theorem lc_n {c : Char} (h : lc c = 'n') : c = 'n' ∨ c = 'N' := by
  unfold lc at h
  split at h <;> simp_all

theorem lc_i {c : Char} (h : lc c = 'i') : c = 'i' ∨ c = 'I' := by
  unfold lc at h
  split at h <;> simp_all

/-- C6: whenever the cleaned title ends with the bare word in, the title
rewrite appends the current calendar year directly after it, with no
separator, and rewraps the result in a CDATA title block. -/
theorem C6_title_year (year : Nat) (raw : Chars)
    (h : bareWordInSuffix (cleanTitleText raw) = true) :
    titleOut year raw =
      "<title><![CDATA[".data ++ cleanTitleText raw ++ (Nat.repr year).data ++
        "]]></title>".data := by
  have hb : bareInTest (cleanTitleText raw) = true := by
    unfold bareWordInSuffix at h
    unfold bareInTest
    cases hrev : (cleanTitleText raw).reverse with
    | nil => rw [hrev] at h; simp at h
    | cons n r1 =>
      cases r1 with
      | nil => rw [hrev] at h; simp at h
      | cons i rest =>
        rw [hrev] at h
        simp only [Bool.and_eq_true] at h
        obtain ⟨⟨hn, hi⟩, hrest⟩ := h
        have hlcn : lc n = 'n' := by
          have := eq_of_beq hn
          simpa [lc] using this
        have hnws : jsWs n = false := by
          rcases lc_n hlcn with rfl | rfl <;> decide
        have hdw : List.dropWhile (fun c => jsWs c) (n :: i :: rest) =
            n :: i :: rest := by
          rw [List.dropWhile_cons, if_neg (by simp [hnws])]
        rw [hdw]
        simp only [Bool.and_eq_true]
        exact ⟨⟨hn, hi⟩, hrest⟩
  simp [titleOut, hb, List.append_assoc]

/-- Witness for the C6 theorem at the scenario of the spec: the shortcode
is removed, the dangling in is detected, and the year 2025 is appended
with no space. -/
theorem C6_title_witness :
    titleOut 2025 "Best Shows Coming in [current_date]".data =
      "<title><![CDATA[Best Shows Coming in2025]]></title>".data := by
  rw [C6_title_year 2025 "Best Shows Coming in [current_date]".data (by decide)]
  decide

/-! ## C8: author backfill -/

theorem ciEqc_refl (c : Char) : ciEqc c c = true := by
  simp [ciEqc]

theorem startsCI_self_append : ∀ (p y : Chars), startsCI p (p ++ y) = true := by
  intro p
  induction p with
  | nil => intro y; rfl
  | cons c t ih =>
    intro y
    simp [startsCI, ciEqc_refl, ih]

theorem hasSubCI_cons (pat : Chars) (c : Char) (s : Chars) :
    hasSubCI pat (c :: s) = (startsCI pat (c :: s) || hasSubCI pat s) := rfl

theorem hasSubCI_append_left (pat : Chars) :
    ∀ (w s : Chars), hasSubCI pat s = true → hasSubCI pat (w ++ s) = true := by
  intro w
  induction w with
  | nil => exact fun s h => h
  | cons c t ih =>
    intro s h
    show hasSubCI pat (c :: (t ++ s)) = true
    rw [hasSubCI_cons, ih s h, Bool.or_true]

theorem hasSubCI_self_append {pat : Chars} (hp : pat ≠ []) (y : Chars) :
    hasSubCI pat (pat ++ y) = true := by
  cases pat with
  | nil => exact absurd rfl hp
  | cons p ps =>
    show hasSubCI (p :: ps) (p :: (ps ++ y)) = true
    rw [hasSubCI_cons]
    rw [show p :: (ps ++ y) = (p :: ps) ++ y from rfl]
    rw [startsCI_self_append, Bool.true_or]

theorem hasBlockCI_cons (op cl : Chars) (c : Char) (s : Chars) :
    hasBlockCI op cl (c :: s) =
      (if startsCI op (c :: s) then hasSubCI cl ((c :: s).drop op.length)
       else hasBlockCI op cl s) := rfl

theorem hasBlockCI_pass {op cl : Chars} {p0 : Char} {ps : Chars}
    (hop : op = p0 :: ps) :
    ∀ (x y : Chars), (∀ c ∈ x, ciEqc p0 c = false) →
      hasBlockCI op cl (x ++ y) = hasBlockCI op cl y := by
  intro x
  induction x with
  | nil => intro y _; rfl
  | cons c t ih =>
    intro y hx
    show hasBlockCI op cl (c :: (t ++ y)) = hasBlockCI op cl y
    rw [hasBlockCI_cons]
    rw [hop, startsCI_head_false _ _ (hx c (List.mem_cons_self c t)), if_neg (by decide)]
    rw [← hop]
    exact ih y (fun d hd => hx d (List.mem_cons_of_mem c hd))

theorem isEmpty_false_of_ne {pat : Chars} (hp : pat ≠ []) :
    pat.isEmpty = false := by
  cases pat with
  | nil => exact absurd rfl hp
  | cons p ps => rfl

theorem hasBlockCI_append_right {op cl : Chars} :
    ∀ (x s : Chars), hasBlockCI op cl s = true →
      (∀ j, j ≤ op.length → hasSubCI cl (s.drop j) = true) →
      hasBlockCI op cl (x ++ s) = true := by
  intro x
  induction x with
  | nil => intro s h _; exact h
  | cons c t ih =>
    intro s h hj
    show hasBlockCI op cl (c :: (t ++ s)) = true
    rw [hasBlockCI_cons]
    by_cases hst : startsCI op (c :: (t ++ s)) = true
    · rw [if_pos hst]
      by_cases hl : op.length ≤ t.length + 1
      · have hdrop : (c :: (t ++ s)).drop op.length =
            (c :: t).drop op.length ++ s := by
          rw [show c :: (t ++ s) = (c :: t) ++ s from rfl]
          exact List.drop_append_of_le_length (by simpa using hl)
        rw [hdrop]
        exact hasSubCI_append_left cl _ s (hj 0 (Nat.zero_le _))
      · have hgt : t.length + 1 < op.length := Nat.lt_of_not_le hl
        have hL : op.length = (c :: t).length + (op.length - (t.length + 1)) := by
          simp only [List.length_cons]
          omega
        have hdrop : (c :: (t ++ s)).drop op.length =
            s.drop (op.length - (t.length + 1)) := by
          rw [show c :: (t ++ s) = (c :: t) ++ s from rfl]
          nth_rewrite 1 [hL]
          rw [List.drop_append]
        rw [hdrop]
        exact hj (op.length - (t.length + 1)) (Nat.sub_le _ _)
    · rw [if_neg hst]
      exact ih s h hj

theorem repFirst_lit_at_end {pat rep : Chars} (hp : pat ≠ []) :
    ∀ pre : Chars,
      (∀ k, k < pre.length → startsCI pat (pre.drop k ++ pat) = false) →
      repFirst (litStepCI pat rep) (pre ++ pat) = pre ++ rep := by
  intro pre
  induction pre with
  | nil =>
    intro _
    simp only [List.nil_append]
    have hself : startsCI pat pat = true := by
      have := startsCI_self_append pat []
      rwa [List.append_nil] at this
    cases hpat : pat with
    | nil => exact absurd hpat hp
    | cons p ps =>
      rw [hpat] at hself
      have hstep : litStepCI (p :: ps) rep (p :: ps) = some (rep, []) := by
        simp only [litStepCI]
        rw [if_neg (by simp)]
        rw [if_pos hself]
        rw [List.drop_length]
      rw [repFirst_cons_some hstep, List.append_nil]
  | cons c t ih =>
    intro hk
    show repFirst (litStepCI pat rep) (c :: (t ++ pat)) = c :: (t ++ rep)
    have h0 : startsCI pat ((c :: t) ++ pat) = false := by
      have := hk 0 (by simp)
      simpa using this
    have hstep : litStepCI pat rep (c :: (t ++ pat)) = none := by
      simp only [litStepCI]
      rw [if_neg (by rw [isEmpty_false_of_ne hp]; exact fun hc => by cases hc)]
      rw [show c :: (t ++ pat) = (c :: t) ++ pat from rfl, h0]
      rw [if_neg (fun hc => by cases hc)]
    rw [repFirst_cons_none hstep]
    rw [ih (fun k hkk => by
      have := hk (k + 1) (by simpa using Nat.succ_lt_succ hkk)
      simpa using this)]

theorem authorInject_split1 (name : Chars) :
    authorInject name ++ "</item>".data =
      "\n      ".data ++
        ("<dc:creator>".data ++
          (("<![CDATA[".data ++ name ++ "]]>".data) ++
            ("</dc:creator>".data ++
              ("\n      <author><![CDATA[".data ++ name ++
                "]]></author>\n</item>".data)))) := by
  unfold authorInject
  rw [show ("\n      <dc:creator><![CDATA[".data : Chars) =
    "\n      ".data ++ "<dc:creator>".data ++ "<![CDATA[".data from rfl]
  rw [show ("]]></dc:creator>\n      <author><![CDATA[".data : Chars) =
    "]]>".data ++ "</dc:creator>".data ++ "\n      <author><![CDATA[".data from rfl]
  simp only [List.append_assoc, List.cons_append, List.nil_append]

theorem authorInject_split2 (name : Chars) :
    authorInject name ++ "</item>".data =
      ("\n      <dc:creator><![CDATA[".data ++ name ++ "]]>".data) ++
        ("</dc:creator>".data ++
          ("\n      <author><![CDATA[".data ++ name ++
            "]]></author>\n</item>".data)) := by
  unfold authorInject
  rw [show ("]]></dc:creator>\n      <author><![CDATA[".data : Chars) =
    "]]>".data ++ "</dc:creator>".data ++ "\n      <author><![CDATA[".data from rfl]
  simp only [List.append_assoc, List.cons_append, List.nil_append]

theorem hasBlock_dc_inject (name : Chars) :
    hasBlockCI "<dc:creator>".data "</dc:creator>".data
      (authorInject name ++ "</item>".data) = true := by
  rw [authorInject_split1]
  rw [hasBlockCI_pass (show ("<dc:creator>".data : Chars) =
    '<' :: "dc:creator>".data from rfl) "\n      ".data _
    (by decide)]
  rw [show ("<dc:creator>".data : Chars) ++
      (("<![CDATA[".data ++ name ++ "]]>".data) ++
        ("</dc:creator>".data ++
          ("\n      <author><![CDATA[".data ++ name ++
            "]]></author>\n</item>".data))) =
    '<' :: ("dc:creator>".data ++
      (("<![CDATA[".data ++ name ++ "]]>".data) ++
        ("</dc:creator>".data ++
          ("\n      <author><![CDATA[".data ++ name ++
            "]]></author>\n</item>".data)))) from rfl]
  rw [hasBlockCI_cons]
  rw [show ('<' :: ("dc:creator>".data ++
      (("<![CDATA[".data ++ name ++ "]]>".data) ++
        ("</dc:creator>".data ++
          ("\n      <author><![CDATA[".data ++ name ++
            "]]></author>\n</item>".data)))) : Chars) =
    "<dc:creator>".data ++
      (("<![CDATA[".data ++ name ++ "]]>".data) ++
        ("</dc:creator>".data ++
          ("\n      <author><![CDATA[".data ++ name ++
            "]]></author>\n</item>".data))) from rfl]
  rw [startsCI_self_append, if_pos rfl]
  rw [List.drop_left]
  exact hasSubCI_append_left _ _ _
    (hasSubCI_self_append (by decide) _)

theorem hasSub_cl_inject_drop (name : Chars) (j : Nat)
    (hj : j ≤ ("<dc:creator>".data : Chars).length) :
    hasSubCI "</dc:creator>".data
      ((authorInject name ++ "</item>".data).drop j) = true := by
  rw [authorInject_split2]
  rw [List.drop_append_of_le_length (by
    simp only [List.length_append]
    rw [show (("\n      <dc:creator><![CDATA[".data : Chars)).length = 28 from rfl,
      show (("]]>".data : Chars)).length = 3 from rfl,
      show (("<dc:creator>".data : Chars)).length = 12 from rfl] at *
    omega)]
  exact hasSubCI_append_left _ _ _ (hasSubCI_self_append (by decide) _)

/-- C8: for an item that carries neither a creator nor an author field,
closed by a single item end tag, and an article page whose meta author
extraction yields a name, ensureAuthor injects a creator and an author
element (each holding the name in CDATA) immediately before the closing
tag, and applying ensureAuthor again leaves the item unchanged. -/
theorem C8_ensureAuthor (ld : Chars → Option Chars) (pre html name : Chars)
    (hdc : hasBlockCI "<dc:creator>".data "</dc:creator>".data
      (pre ++ "</item>".data) = false)
    (hau : hasBlockCI "<author>".data "</author>".data
      (pre ++ "</item>".data) = false)
    (hmeta : metaFind "name".data "author".data html = some name)
    (hend : ∀ k, k < pre.length →
      startsCI "</item>".data (pre.drop k ++ "</item>".data) = false) :
    ensureAuthor ld (pre ++ "</item>".data) html =
      pre ++ (authorInject name ++ "</item>".data) ∧
    ensureAuthor ld (pre ++ (authorInject name ++ "</item>".data)) html =
      pre ++ (authorInject name ++ "</item>".data) := by
  constructor
  · unfold ensureAuthor
    rw [hdc, hau]
    rw [if_neg (by decide : ¬ ((false || false) = true))]
    rw [hmeta]
    exact repFirst_lit_at_end (by decide) pre hend
  · have hdc2 : hasBlockCI "<dc:creator>".data "</dc:creator>".data
        (pre ++ (authorInject name ++ "</item>".data)) = true := by
      exact hasBlockCI_append_right pre _ (hasBlock_dc_inject name)
        (fun j hj => hasSub_cl_inject_drop name j hj)
    unfold ensureAuthor
    rw [hdc2]
    rw [if_pos (by rw [Bool.true_or])]

/-- Witness for the C8 theorem at the scenario of the spec: an item with
only a title, and a page declaring Jane Doe as meta author. -/
theorem C8_witness :
    ensureAuthor (fun _ => none) ("<item><title>t</title>".data ++ "</item>".data)
        "<html><meta name=\"author\" content=\"Jane Doe\"></html>".data =
      "<item><title>t</title>".data ++
        (authorInject "Jane Doe".data ++ "</item>".data) := by
  exact (C8_ensureAuthor (fun _ => none) "<item><title>t</title>".data
    "<html><meta name=\"author\" content=\"Jane Doe\"></html>".data
    "Jane Doe".data (by decide) (by decide) (by decide) (by decide)).1

/-! ## C4: item limiting -/

theorem startsL_self_append (p y : Chars) : startsL p (p ++ y) = true :=
  List.isPrefixOf_iff_prefix.mpr (List.prefix_append p y)

theorem startsL_nil_false {p : Char} {ps : Chars} :
    startsL (p :: ps) [] = false := rfl

theorem itemCloseFind_cons_miss {c : Char} {s : Chars}
    (h : startsL "</item>".data (c :: s) = false) :
    itemCloseFind (c :: s) =
      (match itemCloseFind s with
       | some (b, r) => some (c :: b, r)
       | none => none) := by
  unfold itemCloseFind
  rw [h]
  rw [if_neg (fun hc => by cases hc)]
  cases s <;> rfl

theorem itemCloseFind_hit (rest : Chars) :
    itemCloseFind ("</item>".data ++ rest) = some ([], rest) := by
  rw [show ("</item>".data : Chars) ++ rest =
    '<' :: ("/item>".data ++ rest) from rfl]
  unfold itemCloseFind
  rw [show '<' :: ("/item>".data ++ rest) =
    "</item>".data ++ rest from rfl]
  rw [startsL_self_append, if_pos rfl]
  rw [show (7 : Nat) = ("</item>".data : Chars).length from rfl, List.drop_left]

theorem itemCloseFind_body (rest : Chars) :
    ∀ b : Chars, (∀ c ∈ b, c ≠ '<') →
      itemCloseFind (b ++ ("</item>".data ++ rest)) = some (b, rest) := by
  intro b
  induction b with
  | nil => intro _; simpa using itemCloseFind_hit rest
  | cons c t ih =>
    intro hb
    rw [List.cons_append]
    rw [itemCloseFind_cons_miss (by
      rw [show ("</item>".data : Chars) = '<' :: "/item>".data from rfl]
      exact startsL_head_false _ _ (hb c (List.mem_cons_self c t)))]
    rw [ih (fun d hd => hb d (List.mem_cons_of_mem c hd))]

theorem itemFind_cons_eq (c : Char) (s : Chars) :
    itemFind (c :: s) =
      (if startsL "<item>".data (c :: s) then
        match itemCloseFind ((c :: s).drop 6) with
        | some (body, rest) =>
          some ("<item>".data ++ body ++ "</item>".data, rest)
        | none => itemFind s
       else itemFind s) := rfl

theorem itemFind_hit (b rest : Chars) (hb : ∀ c ∈ b, c ≠ '<') :
    itemFind ("<item>".data ++ (b ++ ("</item>".data ++ rest))) =
      some ("<item>".data ++ b ++ "</item>".data, rest) := by
  rw [show ("<item>".data : Chars) ++ (b ++ ("</item>".data ++ rest)) =
    '<' :: ("item>".data ++ (b ++ ("</item>".data ++ rest))) from rfl]
  rw [itemFind_cons_eq]
  rw [show ('<' :: ("item>".data ++ (b ++ ("</item>".data ++ rest))) : Chars) =
    "<item>".data ++ (b ++ ("</item>".data ++ rest)) from rfl]
  rw [startsL_self_append, if_pos rfl]
  rw [show (6 : Nat) = ("<item>".data : Chars).length from rfl, List.drop_left,
    itemCloseFind_body rest b hb]

theorem itemFind_none_of (s : Chars)
    (h : ∀ k, startsL "<item>".data (s.drop k) = false) : itemFind s = none := by
  induction s with
  | nil => rfl
  | cons c t ih =>
    rw [itemFind_cons_eq]
    have h0 := h 0
    rw [List.drop_zero] at h0
    rw [h0]
    rw [if_neg (fun hc => by cases hc)]
    exact ih (fun k => by
      have := h (k + 1)
      simpa using this)

theorem startsL_drop_pass {pat : Chars} {p0 : Char} {ps : Chars}
    (hpat : pat = p0 :: ps) (x : Chars) (hx : ∀ c ∈ x, c ≠ p0) (k : Nat) :
    startsL pat (x.drop k) = false := by
  cases hd : x.drop k with
  | nil => rw [hpat]; rfl
  | cons c r =>
    have hc : c ∈ x := by
      have hsub : x.drop k ⊆ x := List.drop_subset k x
      exact hsub (by rw [hd]; exact List.mem_cons_self c r)
    rw [hpat]
    exact startsL_head_false _ _ (hx c hc)

theorem itemFind_none_tail (post : Chars) (hp : ∀ c ∈ post, c ≠ '<') :
    itemFind ("</channel>".data ++ post) = none := by
  apply itemFind_none_of
  intro k
  by_cases hk : k < 10
  · rw [List.drop_append_of_le_length (by
      rw [show (("</channel>".data : Chars)).length = 10 from rfl]; omega)]
    interval_cases k <;>
      simp [startsL, List.isPrefixOf]
  · have h10 : ("</channel>".data ++ post).drop k = post.drop (k - 10) := by
      have hk2 : k = ("</channel>".data : Chars).length + (k - 10) := by
        rw [show (("</channel>".data : Chars)).length = 10 from rfl]
        omega
      nth_rewrite 1 [hk2]
      rw [List.drop_append]
    rw [h10]
    exact startsL_drop_pass rfl post hp (k - 10)

theorem itemFind_rest_len :
    ∀ s m rest, itemFind s = some (m, rest) → rest.length < s.length := by
  have hclose : ∀ u b r, itemCloseFind u = some (b, r) → r.length ≤ u.length := by
    intro u
    induction u with
    | nil => intro b r h; cases h
    | cons c t ih =>
      intro b r h
      unfold itemCloseFind at h
      by_cases hs : startsL "</item>".data (c :: t) = true
      · rw [if_pos hs] at h
        cases h
        rw [List.length_drop]
        simp only [List.length_cons]
        omega
      · rw [if_neg hs] at h
        cases hcf : itemCloseFind t with
        | none => rw [hcf] at h; cases h
        | some pr =>
          obtain ⟨b2, r2⟩ := pr
          rw [hcf] at h
          cases h
          have := ih _ _ hcf
          simp only [List.length_cons]
          omega
  intro s
  induction s with
  | nil => intro m rest h; cases h
  | cons c t ih =>
    intro m rest h
    rw [itemFind_cons_eq] at h
    by_cases hs : startsL "<item>".data (c :: t) = true
    · rw [if_pos hs] at h
      cases hcf : itemCloseFind ((c :: t).drop 6) with
      | none =>
        rw [hcf] at h
        have := ih m rest h
        simp only [List.length_cons]
        omega
      | some pr =>
        obtain ⟨b2, r2⟩ := pr
        rw [hcf] at h
        cases h
        have h1 := hclose _ _ _ hcf
        have h2 : ((c :: t).drop 6).length ≤ t.length := by
          rw [List.length_drop]
          simp only [List.length_cons]
          omega
        simp only [List.length_cons]
        omega
    · rw [if_neg hs] at h
      have := ih m rest h
      simp only [List.length_cons]
      omega

theorem collectItemsGo_fuel :
    ∀ f g (s : Chars), s.length ≤ f → s.length ≤ g →
      collectItemsGo f s = collectItemsGo g s := by
  intro f
  induction f with
  | zero =>
    intro g s h1 _
    have hs : s = [] := List.eq_nil_of_length_eq_zero (Nat.le_zero.mp h1)
    subst hs
    cases g <;> simp [collectItemsGo, itemFind]
  | succ f ih =>
    intro g s h1 h2
    cases g with
    | zero =>
      have hs : s = [] := List.eq_nil_of_length_eq_zero (Nat.le_zero.mp h2)
      subst hs
      simp [collectItemsGo, itemFind]
    | succ g =>
      show collectItemsGo (f + 1) s = collectItemsGo (g + 1) s
      unfold collectItemsGo
      cases hf : itemFind s with
      | none => rfl
      | some pr =>
        obtain ⟨m, rest⟩ := pr
        have hlt := itemFind_rest_len s m rest hf
        simp only []
        rw [ih g rest (by omega) (by omega)]

theorem itemsOf_some {s m rest : Chars} (h : itemFind s = some (m, rest)) :
    itemsOf s = m :: itemsOf rest := by
  unfold itemsOf
  have hlt := itemFind_rest_len s m rest h
  cases s with
  | nil => cases h
  | cons c t =>
    show collectItemsGo (t.length + 1) (c :: t) =
      m :: collectItemsGo rest.length rest
    conv_lhs => unfold collectItemsGo
    rw [h]
    simp only []
    rw [collectItemsGo_fuel t.length rest.length rest
      (by simp only [List.length_cons] at hlt; omega) (Nat.le_refl _)]

theorem itemsOf_none {s : Chars} (h : itemFind s = none) : itemsOf s = [] := by
  unfold itemsOf
  cases s with
  | nil => rfl
  | cons c t =>
    show collectItemsGo (t.length + 1) (c :: t) = _
    unfold collectItemsGo
    rw [h]

theorem renderFeedItems_cons (b : Chars) (bs : List Chars) :
    renderFeedItems (b :: bs) = renderFeedItem b ++ renderFeedItems bs := by
  simp [renderFeedItems]

theorem renderFeedItem_assoc (b : Chars) (y : Chars) :
    renderFeedItem b ++ y = "<item>".data ++ (b ++ ("</item>".data ++ y)) := by
  simp [renderFeedItem, List.append_assoc]

theorem itemsOf_region (post : Chars) (hpost : ∀ c ∈ post, c ≠ '<') :
    ∀ bs : List Chars, (∀ b ∈ bs, ∀ c ∈ b, c ≠ '<') →
      itemsOf (renderFeedItems bs ++ ("</channel>".data ++ post)) =
        bs.map renderFeedItem := by
  intro bs
  induction bs with
  | nil =>
    intro _
    rw [show renderFeedItems [] = ([] : Chars) from rfl, List.nil_append]
    exact itemsOf_none (itemFind_none_tail post hpost)
  | cons b bs' ih =>
    intro hb
    rw [renderFeedItems_cons, List.append_assoc, renderFeedItem_assoc]
    rw [itemsOf_some (itemFind_hit b _ (hb b (List.mem_cons_self b bs')))]
    rw [ih (fun b2 hb2 => hb b2 (List.mem_cons_of_mem b hb2))]
    rfl

theorem itemFind_pass (x y : Chars)
    (hx : ∀ k, k < x.length → startsL "<item>".data (x.drop k ++ y) = false) :
    itemFind (x ++ y) = itemFind y := by
  induction x with
  | nil => rfl
  | cons c t ih =>
    rw [List.cons_append, itemFind_cons_eq]
    have h0 : startsL "<item>".data (c :: (t ++ y)) = false := by
      have := hx 0 (by simp)
      simpa using this
    rw [h0]
    rw [if_neg (fun hc => by cases hc)]
    exact ih (fun k hk => by
      have := hx (k + 1) (by simpa using Nat.succ_lt_succ hk)
      simpa using this)

theorem itemsOf_pass (x y : Chars)
    (hx : ∀ k, k < x.length → startsL "<item>".data (x.drop k ++ y) = false) :
    itemsOf (x ++ y) = itemsOf y := by
  cases hf : itemFind y with
  | none =>
    rw [itemsOf_none hf, itemsOf_none (by rw [itemFind_pass x y hx, hf])]
  | some pr =>
    obtain ⟨m, rest⟩ := pr
    rw [itemsOf_some hf, itemsOf_some (by rw [itemFind_pass x y hx, hf])]

theorem noHit_noLt {pat : Chars} {p0 : Char} {ps : Chars} (hpat : pat = p0 :: ps)
    (w y : Chars) (hw : ∀ c ∈ w, c ≠ p0) :
    ∀ k, k < w.length → startsL pat (w.drop k ++ y) = false := by
  intro k hk
  cases hd : w.drop k with
  | nil =>
    exfalso
    have := congrArg List.length hd
    rw [List.length_drop] at this
    simp at this
    omega
  | cons c r =>
    have hc : c ∈ w := List.drop_subset k w (by rw [hd]; exact List.mem_cons_self c r)
    rw [List.cons_append, hpat]
    exact startsL_head_false _ _ (hw c hc)

theorem noHit_append {pat : Chars} (w1 w2 y : Chars)
    (h1 : ∀ k, k < w1.length → startsL pat (w1.drop k ++ (w2 ++ y)) = false)
    (h2 : ∀ k, k < w2.length → startsL pat (w2.drop k ++ y) = false) :
    ∀ k, k < (w1 ++ w2).length → startsL pat ((w1 ++ w2).drop k ++ y) = false := by
  intro k hk
  by_cases hlt : k < w1.length
  · rw [List.drop_append_of_le_length (Nat.le_of_lt hlt), List.append_assoc]
    exact h1 k hlt
  · have hge : w1.length ≤ k := Nat.le_of_not_lt hlt
    have hksplit : k = w1.length + (k - w1.length) := by omega
    rw [hksplit, List.drop_append]
    apply h2
    rw [List.length_append] at hk
    omega

theorem noHit_chan_open (y : Chars) :
    ∀ k, k < ("<channel>".data : Chars).length →
      startsL "<item>".data (("<channel>".data : Chars).drop k ++ y) = false := by
  intro k hk
  rw [show (("<channel>".data : Chars)).length = 9 from rfl] at hk
  interval_cases k <;> simp [startsL, List.isPrefixOf]

theorem noHit_item_open_chan (y : Chars) :
    ∀ k, k < ("<item>".data : Chars).length →
      startsL "</channel>".data (("<item>".data : Chars).drop k ++ y) = false := by
  intro k hk
  rw [show (("<item>".data : Chars)).length = 6 from rfl] at hk
  interval_cases k <;> simp [startsL, List.isPrefixOf]

theorem noHit_item_close_chan (y : Chars) :
    ∀ k, k < ("</item>".data : Chars).length →
      startsL "</channel>".data (("</item>".data : Chars).drop k ++ y) = false := by
  intro k hk
  rw [show (("</item>".data : Chars)).length = 7 from rfl] at hk
  interval_cases k <;> simp [startsL, List.isPrefixOf]

theorem noHit_chan_item (b : Chars) (hb : ∀ c ∈ b, c ≠ '<') (y : Chars) :
    ∀ k, k < (renderFeedItem b).length →
      startsL "</channel>".data ((renderFeedItem b).drop k ++ y) = false := by
  have h2 : ∀ k, k < (b ++ "</item>".data).length →
      startsL "</channel>".data ((b ++ "</item>".data).drop k ++ y) = false :=
    noHit_append b "</item>".data y
      (noHit_noLt rfl b _ hb)
      (noHit_item_close_chan y)
  have h3 := noHit_append "<item>".data (b ++ "</item>".data) y
    (noHit_item_open_chan _) h2
  intro k hk
  have heq : renderFeedItem b = "<item>".data ++ (b ++ "</item>".data) := by
    simp [renderFeedItem, List.append_assoc]
  rw [heq] at hk ⊢
  exact h3 k hk

theorem noHit_chan_items (bs : List Chars)
    (hbs : ∀ b ∈ bs, ∀ c ∈ b, c ≠ '<') (y : Chars) :
    ∀ k, k < (renderFeedItems bs).length →
      startsL "</channel>".data ((renderFeedItems bs).drop k ++ y) = false := by
  induction bs with
  | nil =>
    intro k hk
    rw [show renderFeedItems [] = ([] : Chars) from rfl] at hk
    simp at hk
  | cons b bs' ih =>
    have h1 := noHit_chan_item b (hbs b (List.mem_cons_self b bs')) (renderFeedItems bs' ++ y)
    have h2 := ih (fun b2 hb2 => hbs b2 (List.mem_cons_of_mem b hb2))
    intro k hk
    rw [renderFeedItems_cons] at hk ⊢
    exact noHit_append _ _ y h1 h2 k hk

theorem chanCloseFind_cons_miss {c : Char} {s : Chars}
    (h : startsL "</channel>".data (c :: s) = false) :
    chanCloseFind (c :: s) =
      (match chanCloseFind s with
       | some (b, r) => some (c :: b, r)
       | none => none) := by
  unfold chanCloseFind
  rw [h]
  rw [if_neg (fun hc => by cases hc)]
  cases s <;> rfl

theorem chanCloseFind_hit (rest : Chars) :
    chanCloseFind ("</channel>".data ++ rest) = some ([], rest) := by
  rw [show ("</channel>".data : Chars) ++ rest =
    '<' :: ("/channel>".data ++ rest) from rfl]
  unfold chanCloseFind
  rw [show '<' :: ("/channel>".data ++ rest) =
    "</channel>".data ++ rest from rfl]
  rw [startsL_self_append, if_pos rfl]
  rw [show (10 : Nat) = ("</channel>".data : Chars).length from rfl, List.drop_left]

theorem chanCloseFind_shift (w y : Chars)
    (hw : ∀ k, k < w.length → startsL "</channel>".data (w.drop k ++ y) = false) :
    chanCloseFind (w ++ y) =
      (match chanCloseFind y with
       | some (b, r) => some (w ++ b, r)
       | none => none) := by
  induction w with
  | nil =>
    rw [List.nil_append]
    cases hcy : chanCloseFind y with
    | none => rfl
    | some pr => obtain ⟨b, r⟩ := pr; simp
  | cons c t ih =>
    rw [List.cons_append]
    rw [chanCloseFind_cons_miss (by
      have := hw 0 (by simp)
      simpa using this)]
    rw [ih (fun k hk => by
      have := hw (k + 1) (by simpa using Nat.succ_lt_succ hk)
      simpa using this)]
    cases hcy : chanCloseFind y with
    | none => rfl
    | some pr => obtain ⟨b, r⟩ := pr; simp

theorem subIdx_cons_eq (pat : Chars) (c : Char) (s : Chars) :
    subIdx pat (c :: s) =
      (if startsL pat (c :: s) then some 0
       else (subIdx pat s).map Nat.succ) := rfl

theorem subIdx_pass (pat x y : Chars)
    (hx : ∀ k, k < x.length → startsL pat (x.drop k ++ y) = false) :
    subIdx pat (x ++ y) = (subIdx pat y).map (fun n => n + x.length) := by
  induction x with
  | nil =>
    rw [List.nil_append]
    cases subIdx pat y with
    | none => rfl
    | some n => simp
  | cons c t ih =>
    rw [List.cons_append, subIdx_cons_eq]
    rw [show startsL pat (c :: (t ++ y)) = false from by
      have := hx 0 (by simp)
      simpa using this]
    rw [if_neg (fun hc => by cases hc)]
    rw [ih (fun k hk => by
      have := hx (k + 1) (by simpa using Nat.succ_lt_succ hk)
      simpa using this)]
    cases subIdx pat y with
    | none => rfl
    | some n =>
      simp only [List.length_cons]
      show some (Nat.succ (n + t.length)) = some (n + (t.length + 1))
      exact congrArg some (by omega)

theorem subIdx_hit {pat : Chars} {p0 : Char} {ps : Chars} (hpat : pat = p0 :: ps)
    (y : Chars) : subIdx pat (pat ++ y) = some 0 := by
  rw [hpat, List.cons_append, subIdx_cons_eq]
  rw [show p0 :: (ps ++ y) = (p0 :: ps) ++ y from rfl, startsL_self_append]
  rw [if_pos rfl]

theorem splitHeader_eq (hdr rest : Chars) (b : Chars) (bs : List Chars)
    (hhdr : ∀ c ∈ hdr, c ≠ '<') :
    splitHeader ("<channel>".data ++ (hdr ++ (renderFeedItems (b :: bs) ++ rest))) =
      "<channel>".data ++ hdr := by
  unfold splitHeader
  have hfirst : renderFeedItems (b :: bs) ++ rest =
      "<item>".data ++ ((b ++ "</item>".data ++ renderFeedItems bs) ++ rest) := by
    rw [renderFeedItems_cons]
    simp [renderFeedItem, List.append_assoc]
  have hsub : subIdx "<item>".data
      ("<channel>".data ++ (hdr ++ (renderFeedItems (b :: bs) ++ rest))) =
      some (0 + hdr.length + ("<channel>".data : Chars).length) := by
    rw [subIdx_pass _ _ _ (noHit_chan_open _)]
    rw [subIdx_pass _ _ _ (noHit_noLt rfl hdr _ hhdr)]
    rw [hfirst]
    rw [show ("<item>".data : Chars) ++
        ((b ++ "</item>".data ++ renderFeedItems bs) ++ rest) =
      "<item>".data ++ ((b ++ "</item>".data ++ renderFeedItems bs) ++ rest) from rfl]
    rw [subIdx_hit rfl]
    rfl
  rw [hsub]
  show List.take (0 + hdr.length + ("<channel>".data : Chars).length)
    ("<channel>".data ++ (hdr ++ (renderFeedItems (b :: bs) ++ rest))) =
    "<channel>".data ++ hdr
  have hlen : 0 + hdr.length + ("<channel>".data : Chars).length =
      (("<channel>".data : Chars) ++ hdr).length := by
    rw [List.length_append]
    omega
  rw [show ("<channel>".data : Chars) ++ (hdr ++ (renderFeedItems (b :: bs) ++ rest)) =
    (("<channel>".data : Chars) ++ hdr) ++ (renderFeedItems (b :: bs) ++ rest) from by
      simp [List.append_assoc]]
  rw [hlen, List.take_left]

theorem channelRegionStep_none (keep : Chars) {c : Char} (s : Chars) (hc : c ≠ '<') :
    channelRegionStep keep (c :: s) = none := by
  unfold channelRegionStep
  rw [show ("<channel>".data : Chars) = '<' :: "channel>".data from rfl]
  rw [startsL_head_false _ _ hc]
  rw [if_neg (fun h => by cases h)]

theorem channelRegionStep_trig (keep : Chars) :
    ∀ c s, decide (c = '<') = false → channelRegionStep keep (c :: s) = none :=
  fun _ s hc => channelRegionStep_none keep s (of_decide_eq_false hc)

theorem channelRegionStep_hit (keep hdr post : Chars) (b : Chars) (bs : List Chars)
    (hhdr : ∀ c ∈ hdr, c ≠ '<')
    (hbs : ∀ x ∈ b :: bs, ∀ c ∈ x, c ≠ '<') :
    channelRegionStep keep
      ("<channel>".data ++
        (hdr ++ (renderFeedItems (b :: bs) ++ ("</channel>".data ++ post)))) =
      some (("<channel>".data ++ hdr) ++ keep ++ "\n</channel>".data, post) := by
  unfold channelRegionStep
  rw [startsL_self_append, if_pos rfl]
  rw [show (9 : Nat) = ("<channel>".data : Chars).length from rfl, List.drop_left]
  have hw : ∀ k, k < (hdr ++ renderFeedItems (b :: bs)).length →
      startsL "</channel>".data
        ((hdr ++ renderFeedItems (b :: bs)).drop k ++
          ("</channel>".data ++ post)) = false :=
    noHit_append hdr (renderFeedItems (b :: bs)) _
      (noHit_noLt rfl hdr _ hhdr)
      (noHit_chan_items (b :: bs) hbs _)
  have hfind : chanCloseFind
      (hdr ++ (renderFeedItems (b :: bs) ++ ("</channel>".data ++ post))) =
      some (hdr ++ renderFeedItems (b :: bs), post) := by
    rw [show hdr ++ (renderFeedItems (b :: bs) ++ ("</channel>".data ++ post)) =
      (hdr ++ renderFeedItems (b :: bs)) ++ ("</channel>".data ++ post) from by
        simp [List.append_assoc]]
    rw [chanCloseFind_shift _ _ hw, chanCloseFind_hit]
    simp
  rw [hfind]
  simp only []
  rw [show ("<channel>".data ++ (hdr ++ renderFeedItems (b :: bs)) ++
      "</channel>".data : Chars) =
    "<channel>".data ++ (hdr ++ (renderFeedItems (b :: bs) ++ "</channel>".data))
      from by simp [List.append_assoc]]
  rw [splitHeader_eq hdr "</channel>".data b bs hhdr]

theorem intercalate_nil_chars (sep : Chars) :
    List.intercalate sep ([] : List Chars) = [] := by
  simp [List.intercalate]

theorem intercalate_one (sep x : Chars) : List.intercalate sep [x] = x := by
  simp [List.intercalate]

theorem intercalate_cons_cons (sep x y : Chars) (zs : List Chars) :
    List.intercalate sep (x :: y :: zs) =
      x ++ (sep ++ List.intercalate sep (y :: zs)) := by
  simp [List.intercalate, List.intersperse]

theorem itemsOf_kept (post : Chars) (hpost : ∀ c ∈ post, c ≠ '<') :
    ∀ l : List Chars, (∀ x ∈ l, ∀ c ∈ x, c ≠ '<') →
      itemsOf (List.intercalate "\n".data (l.map renderFeedItem) ++
        ("\n</channel>".data ++ post)) = l.map renderFeedItem := by
  intro l
  induction l with
  | nil =>
    intro _
    rw [List.map_nil, intercalate_nil_chars, List.nil_append]
    rw [show ("\n</channel>".data : Chars) ++ post =
      "\n".data ++ ("</channel>".data ++ post) from rfl]
    rw [itemsOf_pass "\n".data _ (noHit_noLt rfl "\n".data _ (by decide))]
    exact itemsOf_none (itemFind_none_tail post hpost)
  | cons b l2 ih =>
    intro hb
    cases l2 with
    | nil =>
      rw [List.map_cons, List.map_nil, intercalate_one]
      rw [show renderFeedItem b ++ ("\n</channel>".data ++ post) =
        "<item>".data ++ (b ++ ("</item>".data ++ ("\n</channel>".data ++ post)))
          from by simp [renderFeedItem, List.append_assoc]]
      rw [itemsOf_some (itemFind_hit b _ (hb b (List.mem_cons_self b [])))]
      rw [show ("\n</channel>".data : Chars) ++ post =
        "\n".data ++ ("</channel>".data ++ post) from rfl]
      rw [itemsOf_pass "\n".data _ (noHit_noLt rfl "\n".data _ (by decide))]
      rw [itemsOf_none (itemFind_none_tail post hpost)]
      rfl
    | cons b2 r2 =>
      rw [List.map_cons, List.map_cons, intercalate_cons_cons]
      rw [show (renderFeedItem b ++ ("\n".data ++
          List.intercalate "\n".data
            (renderFeedItem b2 :: List.map renderFeedItem r2))) ++
          ("\n</channel>".data ++ post) =
        "<item>".data ++ (b ++ ("</item>".data ++ ("\n".data ++
          (List.intercalate "\n".data
            (renderFeedItem b2 :: List.map renderFeedItem r2) ++
            ("\n</channel>".data ++ post)))))
          from by simp [renderFeedItem, List.append_assoc]]
      rw [itemsOf_some (itemFind_hit b _ (hb b (List.mem_cons_self _ _)))]
      rw [itemsOf_pass "\n".data _ (noHit_noLt rfl "\n".data _ (by decide))]
      rw [show (renderFeedItem b2 :: List.map renderFeedItem r2) =
        List.map renderFeedItem (b2 :: r2) from rfl]
      rw [ih (fun x hx => hb x (List.mem_cons_of_mem _ hx))]
      rfl

theorem itemsOf_doc (pre hdr post : Chars) (bs : List Chars)
    (hpre : ∀ c ∈ pre, c ≠ '<') (hhdr : ∀ c ∈ hdr, c ≠ '<')
    (hpost : ∀ c ∈ post, c ≠ '<') (hbs : ∀ x ∈ bs, ∀ c ∈ x, c ≠ '<') :
    itemsOf (pre ++ ("<channel>".data ++ (hdr ++ (renderFeedItems bs ++
      ("</channel>".data ++ post))))) = bs.map renderFeedItem := by
  rw [itemsOf_pass pre _ (noHit_noLt rfl pre _ hpre)]
  rw [itemsOf_pass "<channel>".data _ (noHit_chan_open _)]
  rw [itemsOf_pass hdr _ (noHit_noLt rfl hdr _ hhdr)]
  exact itemsOf_region post hpost bs hbs

theorem itemsOf_capped (pre hdr post : Chars) (l : List Chars)
    (hpre : ∀ c ∈ pre, c ≠ '<') (hhdr : ∀ c ∈ hdr, c ≠ '<')
    (hpost : ∀ c ∈ post, c ≠ '<') (hl : ∀ x ∈ l, ∀ c ∈ x, c ≠ '<') :
    itemsOf (pre ++ ("<channel>".data ++ (hdr ++
      (List.intercalate "\n".data (l.map renderFeedItem) ++
        ("\n</channel>".data ++ post))))) = l.map renderFeedItem := by
  rw [itemsOf_pass pre _ (noHit_noLt rfl pre _ hpre)]
  rw [itemsOf_pass "<channel>".data _ (noHit_chan_open _)]
  rw [itemsOf_pass hdr _ (noHit_noLt rfl hdr _ hhdr)]
  exact itemsOf_kept post hpost l hl

theorem limitItems_over (limit : Nat) (xml : Chars)
    (h : ¬ ((itemsOf xml).length ≤ limit)) :
    limitItems limit xml =
      repFirst (channelRegionStep
        (List.intercalate "\n".data ((itemsOf xml).take limit))) xml := by
  show (if decide ((itemsOf xml).length ≤ limit) = true then xml
    else repFirst (channelRegionStep
      (List.intercalate "\n".data ((itemsOf xml).take limit))) xml) = _
  rw [if_neg (by simpa using h)]

/-- C4: on any document with a markup-free preamble, channel header, item
bodies and postamble that holds more than ITEM_LIMIT items, limitItems
keeps exactly the first ITEM_LIMIT items in document order, preserving the
preamble, the channel header before the first item and the channel footer
after the last; the item count of the result is exactly ITEM_LIMIT, hence
at most the configured maximum. -/
theorem C4_limitItems (pre hdr post : Chars) (bs : List Chars)
    (hpre : ∀ c ∈ pre, c ≠ '<') (hhdr : ∀ c ∈ hdr, c ≠ '<')
    (hpost : ∀ c ∈ post, c ≠ '<') (hbs : ∀ x ∈ bs, ∀ c ∈ x, c ≠ '<')
    (hlen : ITEM_LIMIT < bs.length) :
    limitItems ITEM_LIMIT (pre ++ ("<channel>".data ++ (hdr ++
        (renderFeedItems bs ++ ("</channel>".data ++ post))))) =
      pre ++ ("<channel>".data ++ (hdr ++
        (List.intercalate "\n".data ((bs.take ITEM_LIMIT).map renderFeedItem) ++
          ("\n</channel>".data ++ post)))) ∧
    itemsOf (limitItems ITEM_LIMIT (pre ++ ("<channel>".data ++ (hdr ++
        (renderFeedItems bs ++ ("</channel>".data ++ post)))))) =
      (bs.take ITEM_LIMIT).map renderFeedItem ∧
    (itemsOf (limitItems ITEM_LIMIT (pre ++ ("<channel>".data ++ (hdr ++
        (renderFeedItems bs ++ ("</channel>".data ++ post))))))).length =
      ITEM_LIMIT := by
  obtain ⟨b, bs2, rfl⟩ : ∃ b bs2, bs = b :: bs2 := by
    cases bs with
    | nil => exact absurd hlen (by decide)
    | cons b t => exact ⟨b, t, rfl⟩
  have hmain : limitItems ITEM_LIMIT (pre ++ ("<channel>".data ++ (hdr ++
        (renderFeedItems (b :: bs2) ++ ("</channel>".data ++ post))))) =
      pre ++ ("<channel>".data ++ (hdr ++
        (List.intercalate "\n".data
          (((b :: bs2).take ITEM_LIMIT).map renderFeedItem) ++
          ("\n</channel>".data ++ post)))) := by
    rw [limitItems_over ITEM_LIMIT _ (by
      rw [itemsOf_doc pre hdr post (b :: bs2) hpre hhdr hpost hbs]
      rw [List.length_map]
      omega)]
    rw [itemsOf_doc pre hdr post (b :: bs2) hpre hhdr hpost hbs]
    rw [← List.map_take]
    rw [repFirst_pass (channelRegionStep_trig _) pre _
      (fun c hc => decide_eq_false (hpre c hc))]
    have hrep : repFirst (channelRegionStep (List.intercalate "\n".data
        (List.map renderFeedItem (List.take ITEM_LIMIT (b :: bs2)))))
        ("<channel>".data ++ (hdr ++ (renderFeedItems (b :: bs2) ++
          ("</channel>".data ++ post)))) =
        (("<channel>".data ++ hdr) ++ List.intercalate "\n".data
          (List.map renderFeedItem (List.take ITEM_LIMIT (b :: bs2))) ++
          "\n</channel>".data) ++ post :=
      repFirst_cons_some (channelRegionStep_hit _ hdr post b bs2 hhdr hbs)
    rw [hrep]
    simp [List.append_assoc]
  have hitems : itemsOf (pre ++ ("<channel>".data ++ (hdr ++
      (List.intercalate "\n".data
        (((b :: bs2).take ITEM_LIMIT).map renderFeedItem) ++
        ("\n</channel>".data ++ post))))) =
      ((b :: bs2).take ITEM_LIMIT).map renderFeedItem :=
    itemsOf_capped pre hdr post ((b :: bs2).take ITEM_LIMIT) hpre hhdr hpost
      (fun x hx => hbs x (List.take_subset _ _ hx))
  refine ⟨hmain, ?_, ?_⟩
  · rw [hmain, hitems]
  · rw [hmain, hitems]
    rw [List.length_map, List.length_take]
    simp only [List.length_cons] at hlen ⊢
    omega

theorem C4_witness :
    ITEM_LIMIT < (List.replicate 31 ("a".data : Chars)).length ∧
    (itemsOf (limitItems ITEM_LIMIT ("x".data ++ ("<channel>".data ++ ("h".data ++
      (renderFeedItems (List.replicate 31 ("a".data : Chars)) ++
        ("</channel>".data ++ "p".data))))))).length = ITEM_LIMIT :=
  ⟨by decide,
    (C4_limitItems "x".data "h".data "p".data (List.replicate 31 "a".data)
      (by decide) (by decide) (by decide) (by decide) (by decide)).2.2⟩

/-! ## C2: the namespace-stripping passes on structured documents -/

theorem length_takeWhile_leL {p : Char → Bool} :
    ∀ l : Chars, (l.takeWhile p).length ≤ l.length := by
  intro l
  induction l with
  | nil => exact Nat.le_refl _
  | cons c t ih =>
    rw [List.takeWhile_cons]
    cases p c with
    | false => simp
    | true =>
      rw [if_pos rfl, List.length_cons, List.length_cons]
      omega

theorem takeWhile_all_stop (f : Char → Bool) (p : Chars) (d : Char) (x : Chars)
    (hp : ∀ c ∈ p, f c = true) (hd : f d = false) :
    (p ++ d :: x).takeWhile f = p := by
  induction p with
  | nil =>
    rw [List.nil_append, List.takeWhile_cons, hd]
    rfl
  | cons a t ih =>
    rw [List.cons_append, List.takeWhile_cons, hp a (List.mem_cons_self a t),
      if_pos rfl, ih (fun c hc => hp c (List.mem_cons_of_mem a hc))]

theorem nsPfxChar_ne_lt {c : Char} (h : nsPfxChar c = true) : c ≠ '<' :=
  fun hc => absurd (hc ▸ h) (by decide)

theorem nsNameChar_ne_lt {c : Char} (h : nsNameChar c = true) : c ≠ '<' :=
  fun hc => absurd (hc ▸ h) (by decide)

theorem nsOpenParse_lt (r : Chars) :
    nsOpenParse ('<' :: r) =
      (if (r.takeWhile fun x => nsPfxChar x).isEmpty then none
       else
         match r.drop (r.takeWhile fun x => nsPfxChar x).length with
         | ':' :: r2 =>
           if (r2.takeWhile fun x => nsNameChar x).isEmpty then none
           else some (r.takeWhile fun x => nsPfxChar x,
             r2.takeWhile fun x => nsNameChar x,
             r2.drop (r2.takeWhile fun x => nsNameChar x).length)
         | _ => none) := rfl

theorem nsOpenParse_none {c : Char} (s : Chars) (hc : c ≠ '<') :
    nsOpenParse (c :: s) = none := by
  unfold nsOpenParse
  split
  next r heq =>
    exfalso
    rw [List.cons.injEq] at heq
    exact hc heq.1
  next => rfl

theorem nsOpenParse_eval (p n y : Chars) (d : Char)
    (hp0 : p ≠ []) (hp : ∀ c ∈ p, nsPfxChar c = true)
    (hn0 : n ≠ []) (hn : ∀ c ∈ n, nsNameChar c = true)
    (hd : nsNameChar d = false) :
    nsOpenParse ('<' :: (p ++ ':' :: (n ++ d :: y))) = some (p, n, d :: y) := by
  rw [nsOpenParse_lt]
  rw [takeWhile_all_stop _ p ':' (n ++ d :: y) hp (by decide)]
  rw [isEmpty_false_of_ne hp0]
  rw [if_neg (fun h => by cases h)]
  rw [List.drop_left]
  show (if ((n ++ d :: y).takeWhile fun x => nsNameChar x).isEmpty then none
    else some (p, (n ++ d :: y).takeWhile fun x => nsNameChar x,
      (n ++ d :: y).drop ((n ++ d :: y).takeWhile fun x => nsNameChar x).length)) =
    some (p, n, d :: y)
  rw [takeWhile_all_stop _ n d y hn hd]
  rw [isEmpty_false_of_ne hn0]
  rw [if_neg (fun h => by cases h)]
  rw [List.drop_left]

theorem renderNsParts_cons (pt : NsPart) (ps : List NsPart) :
    renderNsParts (pt :: ps) = renderNsPart pt ++ renderNsParts ps := by
  simp [renderNsParts]

theorem nsCloseFind_cons_eq (p n : Chars) (c : Char) (s : Chars) :
    nsCloseFind p n (c :: s) =
      (if startsL ("</".data ++ p ++ ":".data ++ n) (c :: s) &&
          (match ((c :: s).drop (3 + p.length + n.length)).dropWhile
              (fun x => jsWs x) with
           | '>' :: _ => true
           | _ => false) then
        some ((((c :: s).drop (3 + p.length + n.length)).dropWhile
          (fun x => jsWs x)).drop 1)
      else nsCloseFind p n s) := rfl

theorem nsCloseFind_pass (p n : Chars) (x y : Chars) (hx : ∀ c ∈ x, c ≠ '<') :
    nsCloseFind p n (x ++ y) = nsCloseFind p n y := by
  induction x with
  | nil => rfl
  | cons c t ih =>
    rw [List.cons_append, nsCloseFind_cons_eq]
    rw [show (("</".data ++ p ++ ":".data ++ n) : Chars) =
      '<' :: ("/".data ++ p ++ ":".data ++ n) from rfl]
    rw [startsL_head_false _ _ (hx c (List.mem_cons_self c t))]
    rw [Bool.false_and]
    rw [if_neg (fun h => by cases h)]
    exact ih (fun d hd => hx d (List.mem_cons_of_mem c hd))

theorem nsCloseFind_hit (p n y : Chars) :
    nsCloseFind p n (("</".data ++ p ++ ":".data ++ n) ++ ('>' :: y)) = some y := by
  rw [show (("</".data ++ p ++ ":".data ++ n) : Chars) ++ ('>' :: y) =
    '<' :: (("/".data ++ p ++ ":".data ++ n) ++ ('>' :: y)) from rfl]
  rw [nsCloseFind_cons_eq]
  rw [show ('<' :: (("/".data ++ p ++ ":".data ++ n) ++ ('>' :: y)) : Chars) =
    ("</".data ++ p ++ ":".data ++ n) ++ ('>' :: y) from rfl]
  rw [startsL_self_append]
  rw [show (3 + p.length + n.length) =
    (("</".data ++ p ++ ":".data ++ n) : Chars).length from by
      simp [List.length_append]
      try omega]
  rw [List.drop_left]
  rw [List.dropWhile_cons]
  rw [if_neg (show ¬ (jsWs '>' = true) from by decide)]
  rfl

theorem nsOpenParse_len {c : Char} {s p n r : Chars}
    (h : nsOpenParse (c :: s) = some (p, n, r)) : r.length ≤ s.length := by
  by_cases hc : c = '<'
  · subst hc
    rw [nsOpenParse_lt] at h
    split at h
    · cases h
    · split at h
      next r2 heq =>
        split at h
        · cases h
        · rw [Option.some.injEq, Prod.mk.injEq, Prod.mk.injEq] at h
          obtain ⟨_, _, hr⟩ := h
          have h1 : r.length ≤ r2.length := by
            rw [← hr, List.length_drop]
            omega
          have h2 := congrArg List.length heq
          rw [List.length_drop, List.length_cons] at h2
          omega
      next heq => cases h
  · rw [nsOpenParse_none s hc] at h
    cases h

theorem nsCloseFind_len (p n : Chars) :
    ∀ u r, nsCloseFind p n u = some r → r.length ≤ u.length := by
  intro u
  induction u with
  | nil => intro r h; cases h
  | cons c t ih =>
    intro r h
    rw [nsCloseFind_cons_eq] at h
    split at h
    · rw [Option.some.injEq] at h
      have h1 : r.length ≤
          (((c :: t).drop (3 + p.length + n.length)).dropWhile
            (fun x => jsWs x)).length := by
        rw [← h, List.length_drop]
        omega
      have h2 : (((c :: t).drop (3 + p.length + n.length)).dropWhile
          (fun x => jsWs x)).length ≤
          ((c :: t).drop (3 + p.length + n.length)).length :=
        length_dropWhile_leL _
      rw [List.length_drop, List.length_cons] at h2
      rw [List.length_cons]
      omega
    · exact Nat.le_trans (ih r h) (by rw [List.length_cons]; omega)

theorem nsBlockStep_ok : StepOk nsBlockStep := by
  intro c s out rest h
  unfold nsBlockStep at h
  split at h
  next p n r heq =>
    simp only [] at h
    have hr := nsOpenParse_len heq
    split at h
    next body heq2 =>
      have hbody : body.length ≤ r.length := by
        split at heq2
        next rest2 =>
          rw [Option.some.injEq] at heq2
          subst heq2
          rw [List.length_cons]
          omega
        next c2 t2 hne =>
          split at heq2
          · split at heq2
            next rest3 heq4 =>
              rw [Option.some.injEq] at heq2
              subst heq2
              have h5 := congrArg List.length heq4
              rw [List.length_drop, List.length_cons] at h5
              rw [List.length_cons]
              omega
            next => cases heq2
          · cases heq2
        next => cases heq2
      split at h
      next rest4 heq5 =>
        have h6 := nsCloseFind_len p n body rest4 heq5
        split at h
        · rw [Option.some.injEq, Prod.mk.injEq] at h
          obtain ⟨_, h7⟩ := h
          subst h7
          omega
        · rw [Option.some.injEq, Prod.mk.injEq] at h
          obtain ⟨_, h7⟩ := h
          subst h7
          omega
      next => cases h
    next => cases h
  next => cases h

theorem nsSelfStep_ok : StepOk nsSelfStep := by
  intro c s out rest h
  unfold nsSelfStep at h
  split at h
  next p n r heq =>
    simp only [] at h
    have hr := nsOpenParse_len heq
    split at h
    next body heq2 =>
      have hbody : body.length ≤ r.length := by
        split at heq2
        next t2 =>
          split at heq2
          next rest2 heq3 =>
            rw [Option.some.injEq] at heq2
            subst heq2
            have h4 : (t2.dropWhile (fun x => jsWs x)).length ≤ t2.length :=
              length_dropWhile_leL _
            have h5 := congrArg List.length heq3
            rw [List.length_cons] at h5
            rw [List.length_cons]
            omega
          next => cases heq2
        next c2 t2 hne =>
          split at heq2
          · split at heq2
            next rest3 heq4 =>
              split at heq2
              next =>
                rw [Option.some.injEq] at heq2
                subst heq2
                have h5 := congrArg List.length heq4
                rw [List.length_drop, List.length_cons, List.length_cons] at h5
                rw [List.length_cons]
                omega
              next => cases heq2
            next => cases heq2
          · cases heq2
        next => cases heq2
      split at h
      · rw [Option.some.injEq, Prod.mk.injEq] at h
        obtain ⟨_, h7⟩ := h
        subst h7
        omega
      · rw [Option.some.injEq, Prod.mk.injEq] at h
        obtain ⟨_, h7⟩ := h
        subst h7
        omega
    next => cases h
  next => cases h

theorem take_len_sub (R y : Chars) :
    (R ++ y).take ((R ++ y).length - y.length) = R := by
  rw [List.length_append]
  rw [show R.length + y.length - y.length = R.length from by omega]
  exact List.take_left R y

theorem nsBlockStep_none {c : Char} (s : Chars) (hc : c ≠ '<') :
    nsBlockStep (c :: s) = none := by
  unfold nsBlockStep
  rw [nsOpenParse_none s hc]

theorem nsBlockStep_trig :
    ∀ c s, decide (c = '<') = false → nsBlockStep (c :: s) = none :=
  fun _ s hc => nsBlockStep_none s (of_decide_eq_false hc)

theorem nsSelfStep_none {c : Char} (s : Chars) (hc : c ≠ '<') :
    nsSelfStep (c :: s) = none := by
  unfold nsSelfStep
  rw [nsOpenParse_none s hc]

theorem nsSelfStep_trig :
    ∀ c s, decide (c = '<') = false → nsSelfStep (c :: s) = none :=
  fun _ s hc => nsSelfStep_none s (of_decide_eq_false hc)

theorem nsBlockStep_eval (p n i y : Chars)
    (hp0 : p ≠ []) (hp : ∀ c ∈ p, nsPfxChar c = true)
    (hn0 : n ≠ []) (hn : ∀ c ∈ n, nsNameChar c = true)
    (hi : ∀ c ∈ i, c ≠ '<') :
    nsBlockStep (renderNsPart (NsPart.blockP p n i) ++ y) =
      some ((if allowedPfx p then renderNsPart (NsPart.blockP p n i) else []),
        y) := by
  have hshape : renderNsPart (NsPart.blockP p n i) ++ y =
      '<' :: (p ++ ':' :: (n ++ '>' ::
        (i ++ (("</".data ++ p ++ ":".data ++ n) ++ ('>' :: y))))) := by
    simp [renderNsPart, List.append_assoc]
  rw [hshape]
  unfold nsBlockStep
  rw [nsOpenParse_eval p n _ '>' hp0 hp hn0 hn (by decide)]
  show (match nsCloseFind p n
      (i ++ (("</".data ++ p ++ ":".data ++ n) ++ ('>' :: y))) with
    | some rest =>
      if allowedPfx p then
        some (('<' :: (p ++ ':' :: (n ++ '>' ::
          (i ++ (("</".data ++ p ++ ":".data ++ n) ++ ('>' :: y)))))).take
          (('<' :: (p ++ ':' :: (n ++ '>' ::
            (i ++ (("</".data ++ p ++ ":".data ++ n) ++
              ('>' :: y)))))).length - rest.length), rest)
      else some ([], rest)
    | none => none) =
    some ((if allowedPfx p then renderNsPart (NsPart.blockP p n i) else []), y)
  rw [nsCloseFind_pass p n i _ hi]
  rw [nsCloseFind_hit]
  show (if allowedPfx p then
      some (('<' :: (p ++ ':' :: (n ++ '>' ::
        (i ++ (("</".data ++ p ++ ":".data ++ n) ++ ('>' :: y)))))).take
        (('<' :: (p ++ ':' :: (n ++ '>' ::
          (i ++ (("</".data ++ p ++ ":".data ++ n) ++
            ('>' :: y)))))).length - y.length), y)
    else some ([], y)) =
    some ((if allowedPfx p then renderNsPart (NsPart.blockP p n i) else []), y)
  rw [← hshape]
  cases hA : allowedPfx p
  · rw [if_neg (show ¬ (false = true) from by decide),
      if_neg (show ¬ (false = true) from by decide)]
  · rw [if_pos rfl, if_pos rfl, take_len_sub]

theorem nsBlockStep_self_none (p n y : Chars)
    (hp0 : p ≠ []) (hp : ∀ c ∈ p, nsPfxChar c = true)
    (hn0 : n ≠ []) (hn : ∀ c ∈ n, nsNameChar c = true) :
    nsBlockStep (renderNsPart (NsPart.selfP p n) ++ y) = none := by
  have hshape : renderNsPart (NsPart.selfP p n) ++ y =
      '<' :: (p ++ ':' :: (n ++ '/' :: ('>' :: y))) := by
    simp [renderNsPart, List.append_assoc]
  rw [hshape]
  unfold nsBlockStep
  rw [nsOpenParse_eval p n ('>' :: y) '/' hp0 hp hn0 hn (by decide)]
  rfl

theorem nsSelfStep_eval (p n y : Chars)
    (hp0 : p ≠ []) (hp : ∀ c ∈ p, nsPfxChar c = true)
    (hn0 : n ≠ []) (hn : ∀ c ∈ n, nsNameChar c = true) :
    nsSelfStep (renderNsPart (NsPart.selfP p n) ++ y) =
      some ((if allowedPfx p then renderNsPart (NsPart.selfP p n) else []),
        y) := by
  have hshape : renderNsPart (NsPart.selfP p n) ++ y =
      '<' :: (p ++ ':' :: (n ++ '/' :: ('>' :: y))) := by
    simp [renderNsPart, List.append_assoc]
  rw [hshape]
  unfold nsSelfStep
  rw [nsOpenParse_eval p n ('>' :: y) '/' hp0 hp hn0 hn (by decide)]
  show (if allowedPfx p then
      some (('<' :: (p ++ ':' :: (n ++ '/' :: ('>' :: y)))).take
        (('<' :: (p ++ ':' :: (n ++ '/' :: ('>' :: y)))).length - y.length), y)
    else some ([], y)) =
    some ((if allowedPfx p then renderNsPart (NsPart.selfP p n) else []), y)
  rw [← hshape]
  cases hA : allowedPfx p
  · rw [if_neg (show ¬ (false = true) from by decide),
      if_neg (show ¬ (false = true) from by decide)]
  · rw [if_pos rfl, if_pos rfl, take_len_sub]

theorem nsSelfStep_block_open_none (p n x : Chars)
    (hp0 : p ≠ []) (hp : ∀ c ∈ p, nsPfxChar c = true)
    (hn0 : n ≠ []) (hn : ∀ c ∈ n, nsNameChar c = true) :
    nsSelfStep ('<' :: (p ++ ':' :: (n ++ '>' :: x))) = none := by
  unfold nsSelfStep
  rw [nsOpenParse_eval p n x '>' hp0 hp hn0 hn (by decide)]
  rfl

theorem nsSelfStep_slash_none (x : Chars) :
    nsSelfStep ('<' :: ('/' :: x)) = none := rfl

theorem ne_nil_of_not_isEmpty {l : Chars} (h : (!l.isEmpty) = true) : l ≠ [] := by
  cases l with
  | nil => simp at h
  | cons a t => exact List.cons_ne_nil a t

theorem wf_txt_parts {t : Chars} (h : nsPartWf (NsPart.txt t) = true) :
    ∀ c ∈ t, c ≠ '<' := by
  simp only [nsPartWf, List.all_eq_true, decide_eq_true_eq] at h
  exact h

theorem wf_block_parts {p n i : Chars}
    (h : nsPartWf (NsPart.blockP p n i) = true) :
    p ≠ [] ∧ (∀ c ∈ p, nsPfxChar c = true) ∧ n ≠ [] ∧
      (∀ c ∈ n, nsNameChar c = true) ∧ (∀ c ∈ i, c ≠ '<') := by
  simp only [nsPartWf, Bool.and_eq_true, List.all_eq_true,
    decide_eq_true_eq] at h
  obtain ⟨⟨⟨⟨h1, h2⟩, h3⟩, h4⟩, h5⟩ := h
  exact ⟨ne_nil_of_not_isEmpty h1, h2, ne_nil_of_not_isEmpty h3, h4, h5⟩

theorem wf_self_parts {p n : Chars}
    (h : nsPartWf (NsPart.selfP p n) = true) :
    p ≠ [] ∧ (∀ c ∈ p, nsPfxChar c = true) ∧ n ≠ [] ∧
      (∀ c ∈ n, nsNameChar c = true) := by
  simp only [nsPartWf, Bool.and_eq_true, List.all_eq_true,
    decide_eq_true_eq] at h
  obtain ⟨⟨⟨h1, h2⟩, h3⟩, h4⟩ := h
  exact ⟨ne_nil_of_not_isEmpty h1, h2, ne_nil_of_not_isEmpty h3, h4⟩

theorem filter_cons_trueL {α : Type} (f : α → Bool) (a : α) (l : List α)
    (h : f a = true) : (a :: l).filter f = a :: l.filter f := by
  simp [List.filter_cons, h]

theorem filter_cons_falseL {α : Type} (f : α → Bool) (a : α) (l : List α)
    (h : f a = false) : (a :: l).filter f = l.filter f := by
  simp [List.filter_cons, h]

theorem scan_block_parts :
    ∀ ps : List NsPart, (∀ pt ∈ ps, nsPartWf pt = true) →
      scan nsBlockStep (renderNsParts ps) =
        renderNsParts (ps.filter nsKeep1) := by
  intro ps
  induction ps with
  | nil => intro _; rfl
  | cons pt rest ih =>
    intro hwf
    have hw1 := hwf pt (List.mem_cons_self pt rest)
    have hrest := fun q hq => hwf q (List.mem_cons_of_mem pt hq)
    cases pt with
    | txt t =>
      have ht := wf_txt_parts hw1
      rw [renderNsParts_cons]
      rw [show renderNsPart (NsPart.txt t) = t from rfl]
      rw [scan_pass nsBlockStep_trig t _
        (fun c hc => decide_eq_false (ht c hc))]
      rw [ih hrest]
      rw [filter_cons_trueL nsKeep1 _ _
        (show nsKeep1 (NsPart.txt t) = true from rfl)]
      rw [renderNsParts_cons]
      rfl
    | blockP p n i =>
      obtain ⟨hp0, hp, hn0, hn, hi⟩ := wf_block_parts hw1
      have hscan : scan nsBlockStep
          (renderNsPart (NsPart.blockP p n i) ++ renderNsParts rest) =
          (if allowedPfx p then renderNsPart (NsPart.blockP p n i) else []) ++
            scan nsBlockStep (renderNsParts rest) :=
        scan_cons_some nsBlockStep_ok
          (nsBlockStep_eval p n i _ hp0 hp hn0 hn hi)
      rw [renderNsParts_cons, hscan, ih hrest]
      cases hA : allowedPfx p
      · rw [if_neg (show ¬ (false = true) from by decide)]
        rw [filter_cons_falseL nsKeep1 _ _
          (show nsKeep1 (NsPart.blockP p n i) = false from hA)]
        rw [List.nil_append]
      · rw [if_pos rfl]
        rw [filter_cons_trueL nsKeep1 _ _
          (show nsKeep1 (NsPart.blockP p n i) = true from hA)]
        rw [renderNsParts_cons]
    | selfP p n =>
      obtain ⟨hp0, hp, hn0, hn⟩ := wf_self_parts hw1
      have hnone : nsBlockStep
          (renderNsPart (NsPart.selfP p n) ++ renderNsParts rest) = none :=
        nsBlockStep_self_none p n _ hp0 hp hn0 hn
      have hscan : scan nsBlockStep
          (renderNsPart (NsPart.selfP p n) ++ renderNsParts rest) =
          '<' :: scan nsBlockStep
            ((p ++ ":".data ++ n ++ "/>".data) ++ renderNsParts rest) :=
        scan_cons_none hnone
      have hW : ∀ c ∈ (p ++ ":".data ++ n ++ "/>".data : Chars), c ≠ '<' := by
        rw [List.forall_mem_append, List.forall_mem_append,
          List.forall_mem_append]
        exact ⟨⟨⟨fun c hc => nsPfxChar_ne_lt (hp c hc), by decide⟩,
          fun c hc => nsNameChar_ne_lt (hn c hc)⟩, by decide⟩
      rw [renderNsParts_cons, hscan]
      rw [scan_pass nsBlockStep_trig _ _
        (fun c hc => decide_eq_false (hW c hc))]
      rw [ih hrest]
      rw [filter_cons_trueL nsKeep1 _ _
        (show nsKeep1 (NsPart.selfP p n) = true from rfl)]
      rw [renderNsParts_cons]
      simp [renderNsPart, List.append_assoc]

theorem scan_self_parts :
    ∀ ps : List NsPart, (∀ pt ∈ ps, nsPartWf pt = true) →
      scan nsSelfStep (renderNsParts ps) =
        renderNsParts (ps.filter nsKeep2) := by
  intro ps
  induction ps with
  | nil => intro _; rfl
  | cons pt rest ih =>
    intro hwf
    have hw1 := hwf pt (List.mem_cons_self pt rest)
    have hrest := fun q hq => hwf q (List.mem_cons_of_mem pt hq)
    cases pt with
    | txt t =>
      have ht := wf_txt_parts hw1
      rw [renderNsParts_cons]
      rw [show renderNsPart (NsPart.txt t) = t from rfl]
      rw [scan_pass nsSelfStep_trig t _
        (fun c hc => decide_eq_false (ht c hc))]
      rw [ih hrest]
      rw [filter_cons_trueL nsKeep2 _ _
        (show nsKeep2 (NsPart.txt t) = true from rfl)]
      rw [renderNsParts_cons]
      rfl
    | blockP p n i =>
      obtain ⟨hp0, hp, hn0, hn, hi⟩ := wf_block_parts hw1
      rw [renderNsParts_cons]
      rw [show renderNsPart (NsPart.blockP p n i) ++ renderNsParts rest =
        '<' :: (p ++ ':' :: (n ++ '>' :: (i ++ ('<' :: ('/' ::
          (p ++ ':' :: (n ++ '>' :: renderNsParts rest))))))) from by
          simp [renderNsPart, List.append_assoc]]
      have hs1 : scan nsSelfStep
          ('<' :: (p ++ ':' :: (n ++ '>' :: (i ++ ('<' :: ('/' ::
            (p ++ ':' :: (n ++ '>' :: renderNsParts rest)))))))) =
          '<' :: scan nsSelfStep
            (p ++ ':' :: (n ++ '>' :: (i ++ ('<' :: ('/' ::
              (p ++ ':' :: (n ++ '>' :: renderNsParts rest))))))) :=
        scan_cons_none (nsSelfStep_block_open_none p n _ hp0 hp hn0 hn)
      rw [hs1]
      rw [show (p ++ ':' :: (n ++ '>' :: (i ++ ('<' :: ('/' ::
          (p ++ ':' :: (n ++ '>' :: renderNsParts rest)))))) : Chars) =
        (p ++ ':' :: (n ++ '>' :: i)) ++ ('<' :: ('/' ::
          (p ++ ':' :: (n ++ '>' :: renderNsParts rest)))) from by
          simp [List.append_assoc]]
      have hx1 : ∀ c ∈ (p ++ ':' :: (n ++ '>' :: i) : Chars), c ≠ '<' := by
        rw [List.forall_mem_append, List.forall_mem_cons,
          List.forall_mem_append, List.forall_mem_cons]
        exact ⟨fun c hc => nsPfxChar_ne_lt (hp c hc),
          ⟨by decide, ⟨fun c hc => nsNameChar_ne_lt (hn c hc),
            ⟨by decide, fun c hc => hi c hc⟩⟩⟩⟩
      rw [scan_pass nsSelfStep_trig _ _
        (fun c hc => decide_eq_false (hx1 c hc))]
      have hs2 : scan nsSelfStep ('<' :: ('/' ::
          (p ++ ':' :: (n ++ '>' :: renderNsParts rest)))) =
          '<' :: scan nsSelfStep ('/' ::
            (p ++ ':' :: (n ++ '>' :: renderNsParts rest))) :=
        scan_cons_none (nsSelfStep_slash_none _)
      rw [hs2]
      rw [show ('/' :: (p ++ ':' :: (n ++ '>' :: renderNsParts rest)) : Chars) =
        ('/' :: (p ++ ':' :: (n ++ ">".data))) ++ renderNsParts rest from by
          simp [List.append_assoc]]
      have hx2 : ∀ c ∈ ('/' :: (p ++ ':' :: (n ++ ">".data)) : Chars),
          c ≠ '<' := by
        rw [List.forall_mem_cons, List.forall_mem_append,
          List.forall_mem_cons, List.forall_mem_append]
        exact ⟨by decide, ⟨fun c hc => nsPfxChar_ne_lt (hp c hc),
          ⟨by decide, ⟨fun c hc => nsNameChar_ne_lt (hn c hc), by decide⟩⟩⟩⟩
      rw [scan_pass nsSelfStep_trig _ _
        (fun c hc => decide_eq_false (hx2 c hc))]
      rw [ih hrest]
      rw [filter_cons_trueL nsKeep2 _ _
        (show nsKeep2 (NsPart.blockP p n i) = true from rfl)]
      rw [renderNsParts_cons]
      simp [renderNsPart, List.append_assoc]
    | selfP p n =>
      obtain ⟨hp0, hp, hn0, hn⟩ := wf_self_parts hw1
      have hscan : scan nsSelfStep
          (renderNsPart (NsPart.selfP p n) ++ renderNsParts rest) =
          (if allowedPfx p then renderNsPart (NsPart.selfP p n) else []) ++
            scan nsSelfStep (renderNsParts rest) :=
        scan_cons_some nsSelfStep_ok (nsSelfStep_eval p n _ hp0 hp hn0 hn)
      rw [renderNsParts_cons, hscan, ih hrest]
      cases hA : allowedPfx p
      · rw [if_neg (show ¬ (false = true) from by decide)]
        rw [filter_cons_falseL nsKeep2 _ _
          (show nsKeep2 (NsPart.selfP p n) = false from hA)]
        rw [List.nil_append]
      · rw [if_pos rfl]
        rw [filter_cons_trueL nsKeep2 _ _
          (show nsKeep2 (NsPart.selfP p n) = true from hA)]
        rw [renderNsParts_cons]

/-- C2 (amended): after the namespace-stripping passes, on any document
made of markup-free text segments, prefixed container elements and
self-closing prefixed elements (none nested inside another), exactly the
elements with a non-allowed prefix are removed — in both container and
self-closing form — and every other segment is kept verbatim. -/
theorem C2_amended_strip (ps : List NsPart)
    (hwf : ∀ pt ∈ ps, nsPartWf pt = true) :
    nsStrip (renderNsParts ps) = renderNsParts (ps.filter nsPartKeep) := by
  unfold nsStrip
  rw [scan_block_parts ps hwf]
  rw [scan_self_parts (ps.filter nsKeep1)
    (fun q hq => hwf q (List.mem_of_mem_filter hq))]
  rw [List.filter_filter]
  rw [show (fun a => nsKeep2 a && nsKeep1 a) = nsPartKeep from by
    funext a
    cases a <;> simp [nsKeep1, nsKeep2, nsPartKeep]]

/-- C2 (amended), witnessed on a document holding a text segment, an
allowed and a non-allowed container element, and an allowed and a
non-allowed self-closing element. -/
theorem C2_amended_witness :
    (∀ pt ∈ [NsPart.txt "ok".data,
      NsPart.blockP "media".data "group".data "x".data,
      NsPart.blockP "bad".data "els".data "y".data,
      NsPart.selfP "atom".data "link".data,
      NsPart.selfP "x".data "b".data], nsPartWf pt = true) ∧
    nsStrip (renderNsParts [NsPart.txt "ok".data,
      NsPart.blockP "media".data "group".data "x".data,
      NsPart.blockP "bad".data "els".data "y".data,
      NsPart.selfP "atom".data "link".data,
      NsPart.selfP "x".data "b".data]) =
    renderNsParts ([NsPart.txt "ok".data,
      NsPart.blockP "media".data "group".data "x".data,
      NsPart.blockP "bad".data "els".data "y".data,
      NsPart.selfP "atom".data "link".data,
      NsPart.selfP "x".data "b".data].filter nsPartKeep) :=
  ⟨by decide, C2_amended_strip _ (by decide)⟩

/-! ## C3: the self-link passes on structured channels -/

theorem subPositionsCI_cons_eq (pat : Chars) (c : Char) (s : Chars) :
    subPositionsCI pat (c :: s) =
      (if startsCI pat (c :: s) then [0] else []) ++
        (subPositionsCI pat s).map Nat.succ := rfl

theorem subPositionsCI_pass (pat x y : Chars)
    (hx : ∀ k, k < x.length → startsCI pat (x.drop k ++ y) = false) :
    subPositionsCI pat (x ++ y) =
      (subPositionsCI pat y).map (fun n => n + x.length) := by
  induction x with
  | nil =>
    rw [List.nil_append]
    simp
  | cons c t ih =>
    rw [List.cons_append, subPositionsCI_cons_eq]
    rw [show startsCI pat (c :: (t ++ y)) = false from by
      have := hx 0 (by simp)
      simpa using this]
    rw [if_neg (fun hc => by cases hc)]
    rw [List.nil_append]
    rw [ih (fun k hk => by
      have := hx (k + 1) (by simpa using Nat.succ_lt_succ hk)
      simpa using this)]
    rw [List.map_map]
    rw [show (Nat.succ ∘ fun n => n + t.length) =
        (fun n => n + (c :: t : Chars).length) from by
      funext n
      simp only [Function.comp_apply, List.length_cons]
      omega]

theorem noHitCI_chars {p0 : Char} {ps : Chars} (pat : Chars)
    (hpat : pat = p0 :: ps) (w y : Chars)
    (hw : ∀ c ∈ w, ciEqc p0 c = false) :
    ∀ k, k < w.length → startsCI pat (w.drop k ++ y) = false := by
  intro k hk
  cases hd : w.drop k with
  | nil =>
    exfalso
    have := congrArg List.length hd
    rw [List.length_drop] at this
    simp at this
    omega
  | cons c r =>
    have hc : c ∈ w :=
      List.drop_subset k w (by rw [hd]; exact List.mem_cons_self c r)
    rw [List.cons_append, hpat]
    exact startsCI_head_false _ _ (hw c hc)

theorem noHitCI_append (pat : Chars) (w1 w2 y : Chars)
    (h1 : ∀ k, k < w1.length → startsCI pat (w1.drop k ++ (w2 ++ y)) = false)
    (h2 : ∀ k, k < w2.length → startsCI pat (w2.drop k ++ y) = false) :
    ∀ k, k < (w1 ++ w2).length →
      startsCI pat ((w1 ++ w2).drop k ++ y) = false := by
  intro k hk
  by_cases hlt : k < w1.length
  · rw [List.drop_append_of_le_length (Nat.le_of_lt hlt), List.append_assoc]
    exact h1 k hlt
  · have hksplit : k = w1.length + (k - w1.length) := by omega
    rw [hksplit, List.drop_append]
    apply h2
    rw [List.length_append] at hk
    omega

theorem firstSome_cons {α β : Type} (a : α) (l : List α) (f : α → Option β) :
    firstSome (a :: l) f =
      (match f a with
       | some b => some b
       | none => firstSome l f) := rfl

theorem firstSome_ex {α β : Type} {l : List α} {f : α → Option β} {b : β}
    (h : firstSome l f = some b) : ∃ a ∈ l, f a = some b := by
  induction l with
  | nil => cases h
  | cons a t ih =>
    rw [firstSome_cons] at h
    split at h
    next b2 heq =>
      rw [Option.some.injEq] at h
      subst h
      exact ⟨a, List.mem_cons_self a t, heq⟩
    next heq =>
      obtain ⟨a2, ha2, hf⟩ := ih h
      exact ⟨a2, List.mem_cons_of_mem a ha2, hf⟩

theorem relSelfAt_len {r u : Chars} (h : relSelfAt r = some u) :
    u.length ≤ r.length := by
  unfold relSelfAt at h
  split at h
  next q1 t =>
    split at h
    · split at h
      next q2 u2 heq =>
        split at h
        · rw [Option.some.injEq] at h
          subst h
          have h2 := congrArg List.length heq
          rw [List.length_drop, List.length_cons] at h2
          rw [List.length_cons]
          omega
        · cases h
      next => cases h
    · cases h
  next => cases h

theorem selfLinkTail_len {r u : Chars} (h : selfLinkTail r = some u) :
    u.length ≤ r.length := by
  unfold selfLinkTail at h
  split at h
  next u1 heq =>
    simp only [] at h
    have h1 := relSelfAt_len heq
    split at h
    next rest heq2 =>
      split at h
      next =>
        rw [Option.some.injEq] at h
        subst h
        have h4 : (rest.dropWhile (fun x => jsWs x)).length ≤ rest.length :=
          length_dropWhile_leL _
        have h5 := congrArg List.length heq2
        rw [List.length_drop, List.length_cons] at h5
        omega
      next => cases h
    next => cases h
  next => cases h

theorem selfLinkStep_ok : StepOk selfLinkStep := by
  intro c s out rest h
  unfold selfLinkStep at h
  split at h
  · simp only [] at h
    split at h
    next rest2 heq =>
      rw [Option.some.injEq, Prod.mk.injEq] at h
      obtain ⟨_, h2⟩ := h
      subst h2
      obtain ⟨a, _, hf⟩ := firstSome_ex heq
      have h3 := selfLinkTail_len hf
      rw [List.length_drop, List.length_drop, List.length_cons] at h3
      omega
    next => cases h
  · cases h

theorem wf_txt_seg {t : Chars} (h : chSegWf (ChSeg.txt t) = true) :
    (∀ c ∈ t, c ≠ '<') ∧ (∀ c r, t = c :: r → jsWs c = false) := by
  simp only [chSegWf, Bool.and_eq_true, List.all_eq_true,
    decide_eq_true_eq] at h
  obtain ⟨h1, h2⟩ := h
  refine ⟨h1, ?_⟩
  intro c r hcr
  subst hcr
  simpa using h2

theorem wf_self_seg {u : Chars} (h : chSegWf (ChSeg.selfSeg u) = true) :
    ∀ c ∈ u, hrefSafe c = true := by
  simp only [chSegWf, List.all_eq_true] at h
  exact h

theorem hrefSafe_parts {c : Char} (h : hrefSafe c = true) :
    ciEqc 'r' c = false ∧ c ≠ '>' ∧ c ≠ '<' ∧ c ≠ '"' ∧ c ≠ squote ∧
      jsWs c = false := by
  simp only [hrefSafe, Bool.and_eq_true, Bool.not_eq_true',
    decide_eq_true_eq] at h
  obtain ⟨⟨⟨⟨⟨h1, h2⟩, h3⟩, h4⟩, h5⟩, h6⟩ := h
  exact ⟨h1, h2, h3, h4, h5, h6⟩

theorem renderChSegs_cons (sg : ChSeg) (segs : List ChSeg) :
    renderChSegs (sg :: segs) = renderChSeg sg ++ renderChSegs segs := by
  simp [renderChSegs]

theorem dropWs_render :
    ∀ segs : List ChSeg, (∀ sg ∈ segs, chSegWf sg = true) →
      (renderChSegs segs ++ "</channel>".data).dropWhile (fun x => jsWs x) =
        renderChSegs segs ++ "</channel>".data := by
  intro segs
  induction segs with
  | nil => intro _; rfl
  | cons sg rest ih =>
    intro hwf
    cases sg with
    | txt t =>
      cases t with
      | nil =>
        have := ih (fun q hq => hwf q (List.mem_cons_of_mem _ hq))
        simpa [renderChSegs, renderChSeg] using this
      | cons c r =>
        have hw := wf_txt_seg (hwf _ (List.mem_cons_self _ _))
        have hc : jsWs c = false := hw.2 c r rfl
        rw [show renderChSegs (ChSeg.txt (c :: r) :: rest) ++
            "</channel>".data =
          c :: (r ++ (renderChSegs rest ++ "</channel>".data)) from by
            simp [renderChSegs, renderChSeg, List.append_assoc]]
        rw [List.dropWhile_cons]
        rw [if_neg (show ¬ (jsWs c = true) from by rw [hc]; decide)]
    | selfSeg u =>
      rw [show renderChSegs (ChSeg.selfSeg u :: rest) ++ "</channel>".data =
        '<' :: (("atom:link href=\"".data ++ u ++ "\" rel=\"self\" />".data)
          ++ (renderChSegs rest ++ "</channel>".data)) from by
          simp [renderChSegs, renderChSeg, List.append_assoc]]
      rw [List.dropWhile_cons]
      rw [if_neg (show ¬ (jsWs '<' = true) from by decide)]

theorem selfLinkStep_none {c : Char} (s : Chars) (hc : c ≠ '<') :
    selfLinkStep (c :: s) = none := by
  unfold selfLinkStep
  rw [show ("<atom:link".data : Chars) = '<' :: "atom:link".data from rfl]
  rw [startsCI_head_false _ _ (ciEqc_angle hc)]
  rw [if_neg (fun h => by cases h)]

theorem selfLinkStep_trig :
    ∀ c s, decide (c = '<') = false → selfLinkStep (c :: s) = none :=
  fun _ s hc => selfLinkStep_none s (of_decide_eq_false hc)

theorem selfLinkStep_chan_none (x : Chars) :
    selfLinkStep ('<' :: ("channel>".data ++ x)) = none := by
  unfold selfLinkStep
  rw [show startsCI "<atom:link".data ('<' :: ("channel>".data ++ x)) = false
    from by simp [startsCI, ciEqc, lc]]
  rw [if_neg (fun h => by cases h)]

set_option maxHeartbeats 1600000 in
theorem selfLinkStep_self_eval (u Y : Chars)
    (hsafe : ∀ c ∈ u, hrefSafe c = true) :
    selfLinkStep (renderChSeg (ChSeg.selfSeg u) ++ Y) =
      some ([], Y.dropWhile (fun x => jsWs x)) := by
  have hshape : renderChSeg (ChSeg.selfSeg u) ++ Y =
      "<atom:link".data ++
        (((" href=\"".data ++ u) ++ "\" rel=\"self\" /".data) ++ ('>' :: Y)) := by
    simp [renderChSeg, List.append_assoc]
  rw [hshape]
  unfold selfLinkStep
  rw [startsCI_self_append]
  rw [if_pos rfl]
  simp only []
  rw [show (10 : Nat) = ("<atom:link".data : Chars).length from rfl,
    List.drop_left]
  rw [takeWhile_all_stop _ ((" href=\"".data ++ u) ++ "\" rel=\"self\" /".data)
    '>' Y (by
      rw [List.forall_mem_append, List.forall_mem_append]
      exact ⟨⟨by decide,
        fun c hc => decide_eq_true ((hrefSafe_parts (hsafe c hc)).2.1)⟩,
        by decide⟩) (by decide)]
  rw [subPositionsCI_pass "rel=".data (" href=\"".data ++ u)
    "\" rel=\"self\" /".data
    (noHitCI_append "rel=".data " href=\"".data u "\" rel=\"self\" /".data
      (by
        intro k hk
        rw [show ((" href=\"".data : Chars)).length = 7 from rfl] at hk
        interval_cases k <;> simp [startsCI, ciEqc, lc])
      (noHitCI_chars "rel=".data rfl u "\" rel=\"self\" /".data
        (fun c hc => (hrefSafe_parts (hsafe c hc)).1)))]
  rw [show subPositionsCI "rel=".data ("\" rel=\"self\" /".data : Chars) = [2]
    from by decide]
  rw [show List.map (fun n => n + ((" href=\"".data ++ u : Chars)).length)
    ([2] : List Nat) = [2 + ((" href=\"".data ++ u : Chars)).length] from rfl]
  rw [filter_cons_trueL (fun n => decide (1 ≤ n))
    (2 + ((" href=\"".data ++ u : Chars)).length) []
    (decide_eq_true
      (show (1 : Nat) ≤ 2 + ((" href=\"".data ++ u : Chars)).length
        from by omega))]
  rw [List.filter_nil]
  rw [show ([2 + ((" href=\"".data ++ u : Chars)).length] : List Nat).reverse =
    [2 + ((" href=\"".data ++ u : Chars)).length] from rfl]
  rw [firstSome_cons]
  simp only []
  rw [show (((" href=\"".data ++ u) ++ "\" rel=\"self\" /".data : Chars) ++
      ('>' :: Y)) =
    (" href=\"".data ++ u) ++ ("\" rel=\"self\" /".data ++ ('>' :: Y)) from by
      simp [List.append_assoc]]
  rw [show (2 + ((" href=\"".data ++ u : Chars)).length) + 4 =
    ((" href=\"".data ++ u : Chars)).length + 6 from by omega]
  rw [List.drop_append]
  rw [show selfLinkTail
      ((("\" rel=\"self\" /".data : Chars) ++ ('>' :: Y)).drop 6) =
    some (Y.dropWhile (fun x => jsWs x)) from rfl]

theorem scan_selfLink_segs :
    ∀ segs : List ChSeg, (∀ sg ∈ segs, chSegWf sg = true) →
      scan selfLinkStep (renderChSegs segs ++ "</channel>".data) =
        renderChSegs (segs.filter chKeep) ++ "</channel>".data := by
  intro segs
  induction segs with
  | nil => intro _; decide
  | cons sg rest ih =>
    intro hwf
    have hrest := fun q hq => hwf q (List.mem_cons_of_mem sg hq)
    cases sg with
    | txt t =>
      have ht := (wf_txt_seg (hwf _ (List.mem_cons_self _ _))).1
      rw [renderChSegs_cons]
      rw [show renderChSeg (ChSeg.txt t) = t from rfl]
      rw [List.append_assoc]
      rw [scan_pass selfLinkStep_trig t _
        (fun c hc => decide_eq_false (ht c hc))]
      rw [ih hrest]
      rw [filter_cons_trueL chKeep _ _
        (show chKeep (ChSeg.txt t) = true from rfl)]
      rw [renderChSegs_cons]
      simp [renderChSeg, List.append_assoc]
    | selfSeg u =>
      have hu := wf_self_seg (hwf _ (List.mem_cons_self _ _))
      rw [renderChSegs_cons, List.append_assoc]
      have hsc : scan selfLinkStep (renderChSeg (ChSeg.selfSeg u) ++
          (renderChSegs rest ++ "</channel>".data)) =
          [] ++ scan selfLinkStep
            ((renderChSegs rest ++ "</channel>".data).dropWhile
              (fun x => jsWs x)) :=
        scan_cons_some selfLinkStep_ok (selfLinkStep_self_eval u _ hu)
      rw [hsc]
      rw [dropWs_render rest hrest]
      rw [ih hrest]
      rw [filter_cons_falseL chKeep _ _
        (show chKeep (ChSeg.selfSeg u) = false from rfl)]
      rw [List.nil_append]

theorem scan1_channel (segs : List ChSeg)
    (hwf : ∀ sg ∈ segs, chSegWf sg = true) :
    scan selfLinkStep ("<channel>".data ++
        (renderChSegs segs ++ "</channel>".data)) =
      "<channel>".data ++
        (renderChSegs (segs.filter chKeep) ++ "</channel>".data) := by
  rw [show ("<channel>".data : Chars) ++
      (renderChSegs segs ++ "</channel>".data) =
    '<' :: ("channel>".data ++ (renderChSegs segs ++ "</channel>".data))
    from rfl]
  have h0 : scan selfLinkStep ('<' :: ("channel>".data ++
      (renderChSegs segs ++ "</channel>".data))) =
      '<' :: scan selfLinkStep ("channel>".data ++
        (renderChSegs segs ++ "</channel>".data)) :=
    scan_cons_none (selfLinkStep_chan_none _)
  rw [h0]
  rw [scan_pass selfLinkStep_trig "channel>".data _ (by decide)]
  rw [scan_selfLink_segs segs hwf]
  rfl

theorem selfOpenAt_nomatch {s : Chars}
    (h : startsCI "<atom:link".data s = false) : selfOpenAt s = none := by
  unfold selfOpenAt
  rw [h]
  rw [if_neg (fun hc => by cases hc)]

theorem selfOpenAt_none {c : Char} (s : Chars) (hc : c ≠ '<') :
    selfOpenAt (c :: s) = none :=
  selfOpenAt_nomatch (by
    rw [show ("<atom:link".data : Chars) = '<' :: "atom:link".data from rfl]
    exact startsCI_head_false _ _ (ciEqc_angle hc))

theorem selfOpenExists_cons (c : Char) (s : Chars) :
    selfOpenExists (c :: s) =
      ((selfOpenAt (c :: s)).isSome || selfOpenExists s) := rfl

theorem selfOpenExists_pass (x y : Chars) (hx : ∀ c ∈ x, c ≠ '<') :
    selfOpenExists (x ++ y) = selfOpenExists y := by
  induction x with
  | nil => rfl
  | cons c t ih =>
    rw [List.cons_append, selfOpenExists_cons]
    rw [selfOpenAt_none _ (hx c (List.mem_cons_self c t))]
    rw [show ((none : Option Chars)).isSome = false from rfl, Bool.false_or]
    exact ih (fun d hd => hx d (List.mem_cons_of_mem c hd))

theorem render_filter_no_lt :
    ∀ segs : List ChSeg, (∀ sg ∈ segs, chSegWf sg = true) →
      ∀ c ∈ renderChSegs (segs.filter chKeep), c ≠ '<' := by
  intro segs
  induction segs with
  | nil => intro _ c hc; cases hc
  | cons sg rest ih =>
    intro hwf
    have hrest := fun q hq => hwf q (List.mem_cons_of_mem sg hq)
    cases sg with
    | txt t =>
      have ht := (wf_txt_seg (hwf _ (List.mem_cons_self _ _))).1
      rw [filter_cons_trueL chKeep _ _
        (show chKeep (ChSeg.txt t) = true from rfl)]
      rw [renderChSegs_cons]
      intro c hc
      rcases List.mem_append.mp hc with hc2 | hc2
      · exact ht c hc2
      · exact ih hrest c hc2
    | selfSeg u =>
      rw [filter_cons_falseL chKeep _ _
        (show chKeep (ChSeg.selfSeg u) = false from rfl)]
      exact ih hrest

theorem selfOpenExists_filtered (segs : List ChSeg)
    (hwf : ∀ sg ∈ segs, chSegWf sg = true) :
    selfOpenExists (renderChSegs (segs.filter chKeep) ++
      "</channel>".data) = false := by
  rw [selfOpenExists_pass _ _ (render_filter_no_lt segs hwf)]
  decide

theorem channelInsStep_eval (X : Chars) (hX : selfOpenExists X = false) :
    channelInsStep ("<channel>".data ++ X) =
      some ("<channel>\n    ".data ++ SELF_LINK_TAG FEED_SELF_URL, X) := by
  unfold channelInsStep
  rw [startsCI_self_append]
  rw [if_pos rfl]
  simp only []
  rw [show (9 : Nat) = ("<channel>".data : Chars).length from rfl,
    List.drop_left]
  rw [hX]
  rw [if_neg (fun hc => by cases hc)]

theorem ensureSelfLink_eval (segs : List ChSeg)
    (hwf : ∀ sg ∈ segs, chSegWf sg = true) :
    ensureSelfLink ("<channel>".data ++
        (renderChSegs segs ++ "</channel>".data)) =
      ("<channel>\n    ".data ++ SELF_LINK_TAG FEED_SELF_URL) ++
        (renderChSegs (segs.filter chKeep) ++ "</channel>".data) := by
  unfold ensureSelfLink
  rw [scan1_channel segs hwf]
  have hrep : repFirst channelInsStep ("<channel>".data ++
      (renderChSegs (segs.filter chKeep) ++ "</channel>".data)) =
      ("<channel>\n    ".data ++ SELF_LINK_TAG FEED_SELF_URL) ++
        (renderChSegs (segs.filter chKeep) ++ "</channel>".data) :=
    repFirst_cons_some
      (channelInsStep_eval _ (selfOpenExists_filtered segs hwf))
  rw [hrep]

theorem selfLinkCount_cons (c : Char) (s : Chars) :
    selfLinkCount (c :: s) =
      (if (selfOpenAt (c :: s)).isSome then 1 else 0) + selfLinkCount s := rfl

theorem selfLinkCount_pass (x y : Chars)
    (hx : ∀ k, k < x.length → selfOpenAt (x.drop k ++ y) = none) :
    selfLinkCount (x ++ y) = selfLinkCount y := by
  induction x with
  | nil => rfl
  | cons c t ih =>
    rw [List.cons_append, selfLinkCount_cons]
    have h0 : selfOpenAt (c :: (t ++ y)) = none := by
      have := hx 0 (by simp)
      simpa using this
    rw [h0]
    rw [show ((none : Option Chars)).isSome = false from rfl]
    rw [if_neg (fun hc => by cases hc), Nat.zero_add]
    exact ih (fun k hk => by
      have := hx (k + 1) (by simpa using Nat.succ_lt_succ hk)
      simpa using this)

theorem firstSelfHref_cons (c : Char) (s : Chars) :
    firstSelfHref (c :: s) =
      (if (selfOpenAt (c :: s)).isSome then
        some (hrefOf (((c :: s).drop 10).takeWhile (fun x => x ≠ '>')))
      else firstSelfHref s) := rfl

theorem firstSelfHref_pass (x y : Chars)
    (hx : ∀ k, k < x.length → selfOpenAt (x.drop k ++ y) = none) :
    firstSelfHref (x ++ y) = firstSelfHref y := by
  induction x with
  | nil => rfl
  | cons c t ih =>
    rw [List.cons_append, firstSelfHref_cons]
    have h0 : selfOpenAt (c :: (t ++ y)) = none := by
      have := hx 0 (by simp)
      simpa using this
    rw [h0]
    rw [show ((none : Option Chars)).isSome = false from rfl]
    rw [if_neg (fun hc => by cases hc)]
    exact ih (fun k hk => by
      have := hx (k + 1) (by simpa using Nat.succ_lt_succ hk)
      simpa using this)

theorem selfOpenAt_drop_pass (w y : Chars) (hw : ∀ c ∈ w, c ≠ '<') :
    ∀ k, k < w.length → selfOpenAt (w.drop k ++ y) = none := by
  intro k hk
  cases hd : w.drop k with
  | nil =>
    exfalso
    have := congrArg List.length hd
    rw [List.length_drop] at this
    simp at this
    omega
  | cons c r =>
    have hc : c ∈ w :=
      List.drop_subset k w (by rw [hd]; exact List.mem_cons_self c r)
    rw [List.cons_append]
    exact selfOpenAt_none _ (hw c hc)

theorem selfOpenAt_header_none (y : Chars) :
    ∀ k, k < ("<channel>\n    ".data : Chars).length →
      selfOpenAt (("<channel>\n    ".data : Chars).drop k ++ y) = none := by
  intro k hk
  rw [show (("<channel>\n    ".data : Chars)).length = 14 from rfl] at hk
  interval_cases k
  · exact selfOpenAt_nomatch (by simp [startsCI, ciEqc, lc])
  all_goals exact selfOpenAt_none _ (by decide)

theorem tag_shape (rest : Chars) :
    SELF_LINK_TAG FEED_SELF_URL ++ rest =
      '<' :: (("atom:link href=\"https://ctv-clearlink.github.io/RSS-Feed/feed.xml\" rel=\"self\" type=\"application/rss+xml\" />".data : Chars) ++ rest) := rfl


set_option maxHeartbeats 800000 in
theorem selfOpenAt_tag (rest : Chars) :
    selfOpenAt ('<' :: (("atom:link href=\"https://ctv-clearlink.github.io/RSS-Feed/feed.xml\" rel=\"self\" type=\"application/rss+xml\" />".data : Chars) ++ rest)) =
      some ((" type=\"application/rss+xml\" /".data : Chars) ++ ('>' :: rest)) := by
  unfold selfOpenAt
  rw [show startsCI "<atom:link".data
      ('<' :: (("atom:link href=\"https://ctv-clearlink.github.io/RSS-Feed/feed.xml\" rel=\"self\" type=\"application/rss+xml\" />".data : Chars) ++ rest)) = true
    from by simp [startsCI, ciEqc, lc]]
  rw [if_pos rfl]
  simp only []
  rw [show (('<' :: (("atom:link href=\"https://ctv-clearlink.github.io/RSS-Feed/feed.xml\" rel=\"self\" type=\"application/rss+xml\" />".data : Chars) ++ rest) : Chars)).drop 10 =
      (" href=\"https://ctv-clearlink.github.io/RSS-Feed/feed.xml\" rel=\"self\" type=\"application/rss+xml\" /".data : Chars) ++ ('>' :: rest) from by
    rw [show (10 : Nat) = 9 + 1 from rfl, List.drop_succ_cons,
      List.drop_append_of_le_length (by decide)]
    rfl]
  rw [takeWhile_all_stop _ (" href=\"https://ctv-clearlink.github.io/RSS-Feed/feed.xml\" rel=\"self\" type=\"application/rss+xml\" /".data : Chars) '>' rest
    (by decide) (by decide)]
  rw [show subPositionsCI "rel=".data (" href=\"https://ctv-clearlink.github.io/RSS-Feed/feed.xml\" rel=\"self\" type=\"application/rss+xml\" /".data : Chars) = [58]
    from by decide]
  rw [filter_cons_trueL (fun n => decide (1 ≤ n)) 58 [] (by decide),
    List.filter_nil]
  rw [show ([58] : List Nat).reverse = [58] from rfl]
  rw [firstSome_cons]
  simp only []
  rw [show relSelfAt (((" href=\"https://ctv-clearlink.github.io/RSS-Feed/feed.xml\" rel=\"self\" type=\"application/rss+xml\" /".data : Chars) ++ ('>' :: rest)).drop (58 + 4)) =
      some ((" type=\"application/rss+xml\" /".data : Chars) ++ ('>' :: rest)) from by
    rw [show (58 + 4 : Nat) = 62 from rfl]
    rw [List.drop_append_of_le_length (by decide)]
    rfl]

theorem selfOpenAt_tag_isSome (rest : Chars) :
    (selfOpenAt ('<' :: (("atom:link href=\"https://ctv-clearlink.github.io/RSS-Feed/feed.xml\" rel=\"self\" type=\"application/rss+xml\" />".data : Chars) ++ rest))).isSome = true := by
  rw [selfOpenAt_tag]
  rfl

theorem selfLinkCount_out (R : Chars) (hR : ∀ c ∈ R, c ≠ '<') :
    selfLinkCount (("<channel>\n    ".data ++ SELF_LINK_TAG FEED_SELF_URL) ++
      (R ++ "</channel>".data)) = 1 := by
  rw [List.append_assoc]
  rw [selfLinkCount_pass _ _ (selfOpenAt_header_none _)]
  rw [show SELF_LINK_TAG FEED_SELF_URL ++ (R ++ "</channel>".data) =
    '<' :: (("atom:link href=\"https://ctv-clearlink.github.io/RSS-Feed/feed.xml\" rel=\"self\" type=\"application/rss+xml\" />".data : Chars) ++ (R ++ "</channel>".data)) from rfl]
  rw [selfLinkCount_cons]
  rw [selfOpenAt_tag_isSome]
  rw [if_pos rfl]
  rw [selfLinkCount_pass _ _ (selfOpenAt_drop_pass _ _ (by decide))]
  rw [selfLinkCount_pass _ _ (selfOpenAt_drop_pass _ _ hR)]
  rw [show selfLinkCount ("</channel>".data : Chars) = 0 from by decide]

theorem firstSelfHref_out (R : Chars) (hR : ∀ c ∈ R, c ≠ '<') :
    firstSelfHref (("<channel>\n    ".data ++ SELF_LINK_TAG FEED_SELF_URL) ++
      (R ++ "</channel>".data)) = some FEED_SELF_URL := by
  rw [List.append_assoc]
  rw [firstSelfHref_pass _ _ (selfOpenAt_header_none _)]
  rw [show SELF_LINK_TAG FEED_SELF_URL ++ (R ++ "</channel>".data) =
    '<' :: (("atom:link href=\"https://ctv-clearlink.github.io/RSS-Feed/feed.xml\" rel=\"self\" type=\"application/rss+xml\" />".data : Chars) ++ (R ++ "</channel>".data)) from rfl]
  rw [firstSelfHref_cons]
  rw [selfOpenAt_tag_isSome]
  rw [if_pos rfl]
  rw [show (('<' :: (("atom:link href=\"https://ctv-clearlink.github.io/RSS-Feed/feed.xml\" rel=\"self\" type=\"application/rss+xml\" />".data : Chars) ++ (R ++ "</channel>".data)) :
      Chars)).drop 10 =
    (" href=\"https://ctv-clearlink.github.io/RSS-Feed/feed.xml\" rel=\"self\" type=\"application/rss+xml\" /".data : Chars) ++ ('>' :: (R ++ "</channel>".data)) from by
      rw [show (10 : Nat) = 9 + 1 from rfl, List.drop_succ_cons,
        List.drop_append_of_le_length (by decide)]
      rfl]
  rw [takeWhile_all_stop _ (" href=\"https://ctv-clearlink.github.io/RSS-Feed/feed.xml\" rel=\"self\" type=\"application/rss+xml\" /".data : Chars) '>' (R ++ "</channel>".data)
    (by decide) (by decide)]
  rw [show hrefOf (" href=\"https://ctv-clearlink.github.io/RSS-Feed/feed.xml\" rel=\"self\" type=\"application/rss+xml\" /".data : Chars) = FEED_SELF_URL from by decide]

/-- C3 (amended): on any channel whose segments are markup-free text
pieces or self-closing self-link elements with arbitrary safe hrefs, the
processed channel contains exactly one self-referencing atom:link and its
href equals the configured canonical feed URL: every pre-existing
self-closing self-link is removed and one canonical link is inserted
after the channel opener. -/
theorem C3_amended_selfLink (segs : List ChSeg)
    (hwf : ∀ sg ∈ segs, chSegWf sg = true) :
    selfLinkCount (ensureSelfLink ("<channel>".data ++
      (renderChSegs segs ++ "</channel>".data))) = 1 ∧
    firstSelfHref (ensureSelfLink ("<channel>".data ++
      (renderChSegs segs ++ "</channel>".data))) = some FEED_SELF_URL := by
  rw [ensureSelfLink_eval segs hwf]
  exact ⟨selfLinkCount_out _ (render_filter_no_lt segs hwf),
    firstSelfHref_out _ (render_filter_no_lt segs hwf)⟩

/-- C3 (amended), witnessed on a channel holding a text segment and one
self-closing self-link with a wrong href. -/
theorem C3_amended_witness :
    (∀ sg ∈ [ChSeg.txt "t".data, ChSeg.selfSeg "x".data],
      chSegWf sg = true) ∧
    selfLinkCount (ensureSelfLink ("<channel>".data ++
      (renderChSegs [ChSeg.txt "t".data, ChSeg.selfSeg "x".data] ++
        "</channel>".data))) = 1 :=
  ⟨by decide, (C3_amended_selfLink _ (by decide)).1⟩

/-! ## C1: the per-item pipeline on clean single-description items -/

theorem startsCI_false_of_compat :
    ∀ (p w y : Chars), ciCompat p w = false → startsCI p (w ++ y) = false := by
  intro p
  induction p with
  | nil => intro w y h; cases w <;> cases h
  | cons p0 ps ih =>
    intro w y h
    cases w with
    | nil => cases h
    | cons c cs =>
      rw [show ciCompat (p0 :: ps) (c :: cs) =
        (ciEqc p0 c && ciCompat ps cs) from rfl] at h
      rw [List.cons_append]
      rw [show startsCI (p0 :: ps) (c :: (cs ++ y)) =
        (ciEqc p0 c && startsCI ps (cs ++ y)) from rfl]
      cases hc : ciEqc p0 c with
      | false => rw [Bool.false_and]
      | true =>
        rw [hc, Bool.true_and] at h
        rw [Bool.true_and]
        exact ih cs y h

theorem noCIHit_spec {p w : Chars} (h : noCIHit p w = true) :
    ∀ k, k < w.length → ∀ y, startsCI p (w.drop k ++ y) = false := by
  induction w with
  | nil => intro k hk; simp at hk
  | cons c s ih =>
    rw [show noCIHit p (c :: s) =
      ((!(ciCompat p (c :: s))) && noCIHit p s) from rfl,
      Bool.and_eq_true, Bool.not_eq_true'] at h
    intro k hk y
    cases k with
    | zero =>
      rw [List.drop_zero]
      exact startsCI_false_of_compat p (c :: s) y h.1
    | succ k2 =>
      rw [List.drop_succ_cons]
      exact ih h.2 k2 (by simp at hk; omega) y

theorem startsCI_short {p0 : Char} (ps : Chars) :
    startsCI (p0 :: ps) [] = false := rfl

theorem noCIHit_spec_closed {p0 : Char} {ps w : Chars}
    (h : noCIHit (p0 :: ps) w = true) :
    ∀ k, k < w.length → startsCI (p0 :: ps) (w.drop k) = false := by
  intro k hk
  have h2 := noCIHit_spec h k hk []
  rw [List.append_nil] at h2
  exact h2

theorem startsL_imp_CI :
    ∀ (p s : Chars), startsL p s = true → startsCI p s = true := by
  intro p
  induction p with
  | nil => intro s _; rfl
  | cons p0 ps ih =>
    intro s h
    cases s with
    | nil => cases h
    | cons c cs =>
      rw [startsL] at h
      rw [List.isPrefixOf] at h
      rw [Bool.and_eq_true] at h
      rw [show startsCI (p0 :: ps) (c :: cs) =
        (ciEqc p0 c && startsCI ps cs) from rfl]
      have hpc : p0 = c := eq_of_beq h.1
      subst hpc
      rw [ciEqc_refl, Bool.true_and]
      exact ih cs h.2

theorem startsL_false_of_CI {p s : Chars} (h : startsCI p s = false) :
    startsL p s = false := by
  cases hl : startsL p s with
  | false => rfl
  | true => rw [startsL_imp_CI p s hl] at h; cases h

theorem titleStep_nomatch {year : Nat} {s : Chars}
    (h : startsCI "<title>".data s = false) : titleStep year s = none := by
  unfold titleStep
  rw [h]
  rw [if_neg (fun hc => by cases hc)]

theorem blockStep_nomatch {tag : Chars} {fn : Chars → Chars} {s : Chars}
    (h : startsCI ("<".data ++ tag) s = false) : blockStep tag fn s = none := by
  unfold blockStep
  rw [h]
  rw [if_neg (fun hc => by cases hc)]

theorem mthumbRepStep_nomatch {s : Chars}
    (h : startsCI "<media:thumbnail".data s = false) :
    mthumbRepStep s = none := by
  unfold mthumbRepStep
  rw [h]
  rw [if_neg (fun hc => by cases hc)]

theorem utmLinkStep_nomatch {s : Chars}
    (h : startsCI "<link>".data s = false) : utmLinkStep s = none := by
  unfold utmLinkStep
  rw [h]
  rw [if_neg (fun hc => by cases hc)]

theorem litStep_nomatch {pat rep s : Chars}
    (h : startsL pat s = false) : litStep pat rep s = none := by
  unfold litStep
  rw [h]
  rw [if_neg (show ¬ (false = true) from by decide)]
  exact ite_self none

theorem litStepCI_nomatch {pat rep s : Chars}
    (h : startsCI pat s = false) : litStepCI pat rep s = none := by
  unfold litStepCI
  rw [h]
  rw [if_neg (show ¬ (false = true) from by decide)]
  exact ite_self none

theorem linkStepQ_nomatch {s : Chars}
    (h : startsL "<link>".data s = false) : linkStepQ s = none := by
  unfold linkStepQ
  rw [h]
  rw [if_neg (fun hc => by cases hc)]

theorem urlAttrStepQ_nomatch {openTag s : Chars}
    (h : startsCI openTag s = false) : urlAttrStepQ openTag s = none := by
  unfold urlAttrStepQ
  rw [h]
  rw [if_neg (fun hc => by cases hc)]

theorem repFirst_none_id {step : Chars → Option (Chars × Chars)} :
    ∀ s : Chars, (∀ k, k < s.length → step (s.drop k) = none) →
      repFirst step s = s := by
  intro s
  induction s with
  | nil => intro _; rfl
  | cons c t ih =>
    intro hs
    have h0 : step (c :: t) = none := by
      have := hs 0 (by simp)
      simpa using this
    rw [show repFirst step (c :: t) =
      (match step (c :: t) with
       | some (out, rest) => out ++ rest
       | none => c :: repFirst step t) from rfl]
    rw [h0]
    rw [ih (fun k hk => by
      have := hs (k + 1) (by simp only [List.length_cons]; omega)
      rwa [List.drop_succ_cons] at this)]

theorem repFirst_none_pass {step : Chars → Option (Chars × Chars)} :
    ∀ (x y : Chars), (∀ k, k < x.length → step (x.drop k ++ y) = none) →
      repFirst step (x ++ y) = x ++ repFirst step y := by
  intro x
  induction x with
  | nil => intro y _; rfl
  | cons c t ih =>
    intro y hx
    rw [List.cons_append]
    rw [show repFirst step (c :: (t ++ y)) =
      (match step (c :: (t ++ y)) with
       | some (out, rest) => out ++ rest
       | none => c :: repFirst step (t ++ y)) from rfl]
    rw [show step (c :: (t ++ y)) = none from by
      have := hx 0 (by simp)
      simpa using this]
    rw [ih y (fun k hk => by
      have := hx (k + 1) (by simp only [List.length_cons]; omega)
      rwa [List.drop_succ_cons] at this)]
    rfl

theorem noneAll_append {step : Chars → Option (Chars × Chars)}
    (x y : Chars)
    (hx : ∀ k, k < x.length → step (x.drop k ++ y) = none)
    (hy : ∀ k, k < y.length → step (y.drop k) = none) :
    ∀ k, k < (x ++ y).length → step ((x ++ y).drop k) = none := by
  intro k hk
  by_cases hlt : k < x.length
  · rw [List.drop_append_of_le_length (Nat.le_of_lt hlt)]
    exact hx k hlt
  · have hksplit : k = x.length + (k - x.length) := by omega
    rw [hksplit, List.drop_append]
    apply hy
    rw [List.length_append] at hk
    omega

theorem noneAll_chars {step : Chars → Option (Chars × Chars)}
    (hhead : ∀ c s, c ≠ '<' → step (c :: s) = none)
    (w y : Chars) (hw : ∀ c ∈ w, c ≠ '<') :
    ∀ k, k < w.length → step (w.drop k ++ y) = none := by
  intro k hk
  cases hd : w.drop k with
  | nil =>
    exfalso
    have := congrArg List.length hd
    rw [List.length_drop] at this
    simp at this
    omega
  | cons c r =>
    have hc : c ∈ w :=
      List.drop_subset k w (by rw [hd]; exact List.mem_cons_self c r)
    rw [List.cons_append]
    exact hhead c _ (hw c hc)

theorem startsCI_lt_head {ps : Chars} {c : Char} (s : Chars) (hc : c ≠ '<') :
    startsCI ('<' :: ps) (c :: s) = false :=
  startsCI_head_false _ _ (ciEqc_angle hc)

theorem titleStep_head {year : Nat} {c : Char} (s : Chars) (hc : c ≠ '<') :
    titleStep year (c :: s) = none :=
  titleStep_nomatch (by
    rw [show ("<title>".data : Chars) = '<' :: "title>".data from rfl]
    exact startsCI_lt_head s hc)

theorem blockStep_head {tag : Chars} {fn : Chars → Chars} {c : Char}
    (s : Chars) (hc : c ≠ '<') : blockStep tag fn (c :: s) = none :=
  blockStep_nomatch (by
    rw [show ("<".data : Chars) ++ tag = '<' :: tag from rfl]
    exact startsCI_lt_head s hc)

theorem mthumbRepStep_head {c : Char} (s : Chars) (hc : c ≠ '<') :
    mthumbRepStep (c :: s) = none :=
  mthumbRepStep_nomatch (by
    rw [show ("<media:thumbnail".data : Chars) =
      '<' :: "media:thumbnail".data from rfl]
    exact startsCI_lt_head s hc)

theorem utmLinkStep_head {c : Char} (s : Chars) (hc : c ≠ '<') :
    utmLinkStep (c :: s) = none :=
  utmLinkStep_nomatch (by
    rw [show ("<link>".data : Chars) = '<' :: "link>".data from rfl]
    exact startsCI_lt_head s hc)

theorem litStep_item_head {rep : Chars} {c : Char} (s : Chars) (hc : c ≠ '<') :
    litStep "</item>".data rep (c :: s) = none :=
  litStep_nomatch (by
    rw [show ("</item>".data : Chars) = '<' :: "/item>".data from rfl]
    exact startsL_head_false _ _ hc)

theorem linkFind_none :
    ∀ s : Chars,
      (∀ k, k < s.length → startsL "<link>".data (s.drop k) = false) →
      linkFind s = none := by
  intro s
  induction s with
  | nil => intro _; rfl
  | cons c t ih =>
    intro hs
    rw [show linkFind (c :: t) =
      (match linkStepQ (c :: t) with
       | some u => some u
       | none => linkFind t) from rfl]
    rw [linkStepQ_nomatch (by
      have := hs 0 (by simp)
      simpa using this)]
    exact ih (fun k hk => by
      have := hs (k + 1) (by simp only [List.length_cons]; omega)
      rwa [List.drop_succ_cons] at this)

theorem urlAttrFind_none (openTag : Chars) :
    ∀ s : Chars,
      (∀ k, k < s.length → startsCI openTag (s.drop k) = false) →
      urlAttrFind openTag s = none := by
  intro s
  induction s with
  | nil => intro _; rfl
  | cons c t ih =>
    intro hs
    rw [show urlAttrFind openTag (c :: t) =
      (match urlAttrStepQ openTag (c :: t) with
       | some u => some u
       | none => urlAttrFind openTag t) from rfl]
    rw [urlAttrStepQ_nomatch (by
      have := hs 0 (by simp)
      simpa using this)]
    exact ih (fun k hk => by
      have := hs (k + 1) (by simp only [List.length_cons]; omega)
      rwa [List.drop_succ_cons] at this)

theorem mthumbTest_cons (c : Char) (s : Chars) :
    mthumbTest (c :: s) =
      ((startsCI "<media:thumbnail".data (c :: s) &&
        (match (c :: s).drop 16 with
         | [] => true
         | d :: _ => !(jsWord d))) || mthumbTest s) := rfl

theorem mthumbTest_false :
    ∀ s : Chars,
      (∀ k, k < s.length →
        startsCI "<media:thumbnail".data (s.drop k) = false) →
      mthumbTest s = false := by
  intro s
  induction s with
  | nil => intro _; rfl
  | cons c t ih =>
    intro hs
    rw [mthumbTest_cons]
    rw [show startsCI "<media:thumbnail".data (c :: t) = false from by
      have := hs 0 (by simp)
      simpa using this]
    rw [Bool.false_and, Bool.false_or]
    exact ih (fun k hk => by
      have := hs (k + 1) (by simp only [List.length_cons]; omega)
      rwa [List.drop_succ_cons] at this)

theorem mthumbTest_pass (x y : Chars)
    (hx : ∀ k, k < x.length →
      startsCI "<media:thumbnail".data (x.drop k ++ y) = false) :
    mthumbTest (x ++ y) = mthumbTest y := by
  induction x with
  | nil => rfl
  | cons c t ih =>
    rw [List.cons_append, mthumbTest_cons]
    rw [show startsCI "<media:thumbnail".data (c :: (t ++ y)) = false from by
      have := hx 0 (by simp)
      simpa using this]
    rw [Bool.false_and, Bool.false_or]
    exact ih (fun k hk => by
      have := hx (k + 1) (by simp only [List.length_cons]; omega)
      rwa [List.drop_succ_cons] at this)

theorem mthumbTest_hit (y : Chars) :
    mthumbTest ("<media:thumbnail url=\"".data ++ y) = true := rfl

theorem dropWhile_subsetL {p : Char → Bool} :
    ∀ l : Chars, l.dropWhile p ⊆ l := by
  intro l
  induction l with
  | nil => exact fun c hc => hc
  | cons c t ih =>
    rw [List.dropWhile_cons]
    by_cases hp : p c = true
    · rw [if_pos hp]
      exact fun x hx => List.mem_cons_of_mem c (ih hx)
    · rw [if_neg hp]
      exact fun x hx => hx

theorem cdCapture_cons_eq (c : Char) (s : Chars) :
    cdCapture (c :: s) =
      (if startsL "]]>".data (c :: s) &&
          ((c :: s).drop 3).all (fun x => jsWs x) then
        some []
      else
        match cdCapture s with
        | some cap => some (c :: cap)
        | none => none) := rfl

theorem cdCapture_shift (x y : Chars)
    (hx : ∀ k, k < x.length → startsL "]]>".data (x.drop k ++ y) = false) :
    cdCapture (x ++ y) =
      (match cdCapture y with
       | some cap => some (x ++ cap)
       | none => none) := by
  induction x with
  | nil =>
    rw [List.nil_append]
    cases hcy : cdCapture y with
    | none => rfl
    | some cap => simp
  | cons c t ih =>
    rw [List.cons_append, cdCapture_cons_eq]
    rw [show startsL "]]>".data (c :: (t ++ y)) = false from by
      have := hx 0 (by simp)
      simpa using this]
    rw [Bool.false_and]
    rw [if_neg (fun hc => by cases hc)]
    rw [ih (fun k hk => by
      have := hx (k + 1) (by simp only [List.length_cons]; omega)
      rwa [List.drop_succ_cons] at this)]
    cases hcy : cdCapture y with
    | none => rfl
    | some cap => simp

theorem unwrapCdata_plain (s : Chars) (hs : ∀ c ∈ s, c ≠ '<') :
    unwrapCdata s = s := by
  unfold unwrapCdata
  simp only []
  cases hdw : s.dropWhile (fun x => jsWs x) with
  | nil =>
    rw [show startsCI "<![CDATA[".data ([] : Chars) = false from rfl]
    rw [if_neg (fun hc => by cases hc)]
  | cons c r =>
    have hc : c ∈ s := dropWhile_subsetL s (by
      rw [hdw]
      exact List.mem_cons_self c r)
    rw [startsCI_lt_head _ (hs c hc)]
    rw [if_neg (fun hc2 => by cases hc2)]

theorem unwrapCdata_cd (d : Chars) (hbr : ∀ c ∈ d, c ≠ ']') :
    unwrapCdata ("<![CDATA[".data ++ (d ++ "]]>".data)) = d := by
  unfold unwrapCdata
  simp only []
  rw [show (("<![CDATA[".data : Chars) ++ (d ++ "]]>".data)).dropWhile
      (fun x => jsWs x) = "<![CDATA[".data ++ (d ++ "]]>".data) from by
    rw [show ("<![CDATA[".data : Chars) ++ (d ++ "]]>".data) =
      '<' :: ("![CDATA[".data ++ (d ++ "]]>".data)) from rfl]
    rw [List.dropWhile_cons]
    rw [if_neg (show ¬ (jsWs '<' = true) from by decide)]]
  rw [startsCI_self_append]
  rw [if_pos rfl]
  rw [show (9 : Nat) = ("<![CDATA[".data : Chars).length from rfl,
    List.drop_left]
  rw [cdCapture_shift d _ (noHit_noLt rfl d _ hbr)]
  rw [show cdCapture ("]]>".data : Chars) = some [] from by decide]
  simp

theorem brStep_head {c : Char} (s : Chars) (hc : c ≠ '<') :
    brStep (c :: s) = none := by
  unfold brStep
  rw [show ("<br".data : Chars) = '<' :: "br".data from rfl]
  rw [startsCI_lt_head _ hc]
  rw [if_neg (fun h => by cases h)]

theorem hCloseStep_head {c : Char} (s : Chars) (hc : c ≠ '<') :
    hCloseStep (c :: s) = none := by
  unfold hCloseStep
  rw [show ("</h".data : Chars) = '<' :: "/h".data from rfl]
  rw [startsCI_lt_head _ hc]
  rw [if_neg (fun h => by cases h)]

theorem tagStep_head {c : Char} (s : Chars) (hc : c ≠ '<') :
    tagStep (c :: s) = none := by
  unfold tagStep
  split
  next c2 s2 heq =>
    exfalso
    rw [List.cons.injEq] at heq
    exact hc heq.1
  next => rfl

theorem stripAll_plain (d : Chars) (hd : ∀ c ∈ d, c ≠ '<') :
    stripAllTagsPreservingBreaks d = d := by
  unfold stripAllTagsPreservingBreaks
  rw [scan_pass_id
    (fun c s h => brStep_head s (of_decide_eq_false h)) d
    (fun c hc => decide_eq_false (hd c hc))]
  rw [scan_pass_id
    (fun c s h => litStepCI_nomatch (by
      rw [show ("</p>".data : Chars) = '<' :: "/p>".data from rfl]
      exact startsCI_lt_head _ (of_decide_eq_false h))) d
    (fun c hc => decide_eq_false (hd c hc))]
  rw [scan_pass_id
    (fun c s h => hCloseStep_head s (of_decide_eq_false h)) d
    (fun c hc => decide_eq_false (hd c hc))]
  rw [scan_pass_id
    (fun c s h => tagStep_head s (of_decide_eq_false h)) d
    (fun c hc => decide_eq_false (hd c hc))]

theorem decode_plain (d : Chars) (hd : ∀ c ∈ d, c ≠ '&') :
    decodeEntities d = d := by
  unfold decodeEntities
  unfold replaceAllLit
  rw [scan_pass_id
    (fun c s h => litStep_nomatch (by
      rw [show ("&nbsp;".data : Chars) = '&' :: "nbsp;".data from rfl]
      exact startsL_head_false _ _ (of_decide_eq_false h))) d
    (fun c hc => decide_eq_false (hd c hc))]
  rw [scan_pass_id
    (fun c s h => litStep_nomatch (by
      rw [show ("&amp;".data : Chars) = '&' :: "amp;".data from rfl]
      exact startsL_head_false _ _ (of_decide_eq_false h))) d
    (fun c hc => decide_eq_false (hd c hc))]
  rw [scan_pass_id
    (fun c s h => litStep_nomatch (by
      rw [show ("&quot;".data : Chars) = '&' :: "quot;".data from rfl]
      exact startsL_head_false _ _ (of_decide_eq_false h))) d
    (fun c hc => decide_eq_false (hd c hc))]
  rw [scan_pass_id
    (fun c s h => litStep_nomatch (by
      rw [show ("&#39;".data : Chars) = '&' :: "#39;".data from rfl]
      exact startsL_head_false _ _ (of_decide_eq_false h))) d
    (fun c hc => decide_eq_false (hd c hc))]
  rw [scan_pass_id
    (fun c s h => litStep_nomatch (by
      rw [show ("&lt;".data : Chars) = '&' :: "lt;".data from rfl]
      exact startsL_head_false _ _ (of_decide_eq_false h))) d
    (fun c hc => decide_eq_false (hd c hc))]
  rw [scan_pass_id
    (fun c s h => litStep_nomatch (by
      rw [show ("&gt;".data : Chars) = '&' :: "gt;".data from rfl]
      exact startsL_head_false _ _ (of_decide_eq_false h))) d
    (fun c hc => decide_eq_false (hd c hc))]

theorem capBody_le (d : Chars) (hlen : d.length ≤ CONTENT_MAX_CHARS) :
    capBody d = d := by
  unfold capBody
  rw [if_neg (by
    simp only [decide_eq_true_eq, gt_iff_lt, not_lt]
    exact hlen)]

theorem descClean_parts {d : Chars} (hd : descClean d = true) :
    (∀ c ∈ d, c ≠ '<') ∧ (∀ c ∈ d, c ≠ '&') ∧ (∀ c ∈ d, c ≠ ']') ∧
      trimL d = d ∧ d.length ≤ CONTENT_MAX_CHARS := by
  simp only [descClean, Bool.and_eq_true, List.all_eq_true,
    decide_eq_true_eq] at hd
  obtain ⟨⟨h1, h2⟩, h3⟩ := hd
  exact ⟨fun c hc => ((h1 c hc).1).1, fun c hc => ((h1 c hc).1).2,
    fun c hc => (h1 c hc).2, h2, h3⟩

theorem descTxt_eval (d : Chars) (hlt : ∀ c ∈ d, c ≠ '<')
    (hamp : ∀ c ∈ d, c ≠ '&') (htrim : trimL d = d)
    (hlen : d.length ≤ CONTENT_MAX_CHARS) :
    capBody (trimL (decodeEntities (stripAllTagsPreservingBreaks d))) = d := by
  rw [stripAll_plain d hlt, decode_plain d hamp, htrim, capBody_le d hlen]

theorem descFn_plain (d : Chars) (hlt : ∀ c ∈ d, c ≠ '<')
    (hamp : ∀ c ∈ d, c ≠ '&') (htrim : trimL d = d)
    (hlen : d.length ≤ CONTENT_MAX_CHARS) :
    descFn d = "<![CDATA[".data ++ d ++ "]]>".data := by
  unfold descFn
  simp only []
  rw [unwrapCdata_plain d hlt, descTxt_eval d hlt hamp htrim hlen]

theorem descFn_cd (d : Chars) (hlt : ∀ c ∈ d, c ≠ '<')
    (hamp : ∀ c ∈ d, c ≠ '&') (hbr : ∀ c ∈ d, c ≠ ']')
    (htrim : trimL d = d) (hlen : d.length ≤ CONTENT_MAX_CHARS) :
    descFn ("<![CDATA[".data ++ (d ++ "]]>".data)) =
      "<![CDATA[".data ++ d ++ "]]>".data := by
  unfold descFn
  simp only []
  rw [unwrapCdata_cd d hbr, descTxt_eval d hlt hamp htrim hlen]

theorem blockCloseFind_cons_eq (tag : Chars) (c : Char) (s : Chars) :
    blockCloseFind tag (c :: s) =
      (if startsCI ("</".data ++ tag) (c :: s) &&
          (match ((c :: s).drop (2 + tag.length)).dropWhile
              (fun x => jsWs x) with
           | '>' :: _ => true
           | _ => false) then
        some ([], (((c :: s).drop (2 + tag.length)).dropWhile
          (fun x => jsWs x)).drop 1)
      else
        match blockCloseFind tag s with
        | some (inner, rest) => some (c :: inner, rest)
        | none => none) := rfl

theorem blockCloseFind_shift (tag : Chars) (x y : Chars)
    (hx : ∀ k, k < x.length →
      startsCI ("</".data ++ tag) (x.drop k ++ y) = false) :
    blockCloseFind tag (x ++ y) =
      (match blockCloseFind tag y with
       | some (inner, rest) => some (x ++ inner, rest)
       | none => none) := by
  induction x with
  | nil =>
    rw [List.nil_append]
    cases hcy : blockCloseFind tag y with
    | none => rfl
    | some pr => obtain ⟨i, r⟩ := pr; simp
  | cons c t ih =>
    rw [List.cons_append, blockCloseFind_cons_eq]
    rw [show startsCI ("</".data ++ tag) (c :: (t ++ y)) = false from by
      have := hx 0 (by simp)
      simpa using this]
    rw [Bool.false_and]
    rw [if_neg (fun hc => by cases hc)]
    rw [ih (fun k hk => by
      have := hx (k + 1) (by simp only [List.length_cons]; omega)
      rwa [List.drop_succ_cons] at this)]
    cases hcy : blockCloseFind tag y with
    | none => rfl
    | some pr => obtain ⟨i, r⟩ := pr; simp

theorem blockCloseFind_hit (tag y : Chars) :
    blockCloseFind tag (("</".data ++ tag) ++ ('>' :: y)) = some ([], y) := by
  rw [show (("</".data ++ tag : Chars)) ++ ('>' :: y) =
    '<' :: (("/".data ++ tag) ++ ('>' :: y)) from rfl]
  rw [blockCloseFind_cons_eq]
  rw [show ('<' :: (("/".data ++ tag) ++ ('>' :: y)) : Chars) =
    ("</".data ++ tag) ++ ('>' :: y) from rfl]
  rw [startsCI_self_append]
  rw [show (2 + tag.length) = (("</".data ++ tag : Chars)).length from by
    simp [List.length_append]
    try omega]
  rw [List.drop_left]
  rw [List.dropWhile_cons]
  rw [if_neg (show ¬ (jsWs '>' = true) from by decide)]
  rfl

theorem blockStep_desc_eval (M Y : Chars)
    (hM : ∀ k, k < M.length →
      startsCI ("</".data ++ "description".data)
        (M.drop k ++ ("</description>".data ++ Y)) = false) :
    blockStep "description".data descFn
      ("<description>".data ++ (M ++ ("</description>".data ++ Y))) =
      some ("<description>".data ++ descFn M ++ "</description>".data,
        Y) := by
  unfold blockStep
  rw [show ("<description>".data : Chars) ++
      (M ++ ("</description>".data ++ Y)) =
    ("<".data ++ "description".data) ++
      ('>' :: (M ++ ("</description>".data ++ Y))) from rfl]
  rw [startsCI_self_append]
  rw [if_pos rfl]
  simp only []
  rw [show (1 + ("description".data : Chars).length) =
    (("<".data ++ "description".data : Chars)).length from by
      simp [List.length_append]]
  rw [List.drop_left]
  show (match blockCloseFind "description".data
      (M ++ ("</description>".data ++ Y)) with
    | some (inner, rest) =>
      some ("<".data ++ "description".data ++ ">".data ++ descFn inner ++
        "</".data ++ "description".data ++ ">".data, rest)
    | none => none) =
    some ("<description>".data ++ descFn M ++ "</description>".data, Y)
  rw [blockCloseFind_shift _ _ _ hM]
  rw [show ("</description>".data : Chars) ++ Y =
    ("</".data ++ "description".data) ++ ('>' :: Y) from rfl]
  rw [blockCloseFind_hit]
  simp [List.append_assoc]

theorem noCIHit_spec_cl {p w : Chars} (h : noCIHit p w = true) :
    ∀ k, k < w.length → startsCI p (w.drop k) = false := by
  intro k hk
  have h2 := noCIHit_spec h k hk []
  rwa [List.append_nil] at h2

theorem ciAll_append {pat : Chars} (x y : Chars)
    (hx : ∀ k, k < x.length → startsCI pat (x.drop k ++ y) = false)
    (hy : ∀ k, k < y.length → startsCI pat (y.drop k) = false) :
    ∀ k, k < (x ++ y).length → startsCI pat ((x ++ y).drop k) = false := by
  intro k hk
  by_cases hlt : k < x.length
  · rw [List.drop_append_of_le_length (Nat.le_of_lt hlt)]
    exact hx k hlt
  · have hksplit : k = x.length + (k - x.length) := by omega
    rw [hksplit, List.drop_append]
    apply hy
    rw [List.length_append] at hk
    omega

theorem litStep_hit (pat rep y : Chars) (hp : pat ≠ []) :
    litStep pat rep (pat ++ y) = some (rep, y) := by
  unfold litStep
  rw [isEmpty_false_of_ne hp]
  rw [if_neg (fun hc => by cases hc)]
  rw [startsL_self_append]
  rw [if_pos rfl]
  rw [List.drop_left]

theorem run1_title (year : Nat) (d : Chars) (hlt : ∀ c ∈ d, c ≠ '<') :
    repFirst (titleStep year) (mkDescItem d) = mkDescItem d := by
  rw [show mkDescItem d = "<item><description>".data ++
    (d ++ "</description></item>".data) from by
      simp [mkDescItem, List.append_assoc]]
  apply repFirst_none_id
  exact noneAll_append _ _
    (fun k hk => titleStep_nomatch (noCIHit_spec (by decide) k hk _))
    (noneAll_append _ _
      (noneAll_chars (fun c s hc => titleStep_head s hc) d _ hlt)
      (fun k hk => titleStep_nomatch (noCIHit_spec_cl (by decide) k hk)))

theorem run1_desc (d : Chars) (hlt : ∀ c ∈ d, c ≠ '<')
    (hamp : ∀ c ∈ d, c ≠ '&') (htrim : trimL d = d)
    (hlen : d.length ≤ CONTENT_MAX_CHARS) :
    repFirst (blockStep "description".data descFn) (mkDescItem d) =
      "<item><description><![CDATA[".data ++
        (d ++ "]]></description></item>".data) := by
  rw [show mkDescItem d = "<item>".data ++ ("<description>".data ++
    (d ++ ("</description>".data ++ "</item>".data))) from by
      simp [mkDescItem, List.append_assoc]]
  rw [repFirst_none_pass "<item>".data _
    (fun k hk => blockStep_nomatch (noCIHit_spec (by decide) k hk _))]
  have hstep : repFirst (blockStep "description".data descFn)
      ("<description>".data ++
        (d ++ ("</description>".data ++ "</item>".data))) =
      ("<description>".data ++ descFn d ++ "</description>".data) ++
        "</item>".data :=
    repFirst_cons_some (blockStep_desc_eval d "</item>".data
      (noHitCI_chars _ rfl d _ (fun c hc => ciEqc_angle (hlt c hc))))
  rw [hstep]
  rw [descFn_plain d hlt hamp htrim hlen]
  simp [List.append_assoc]

theorem run1_content (d : Chars) (hlt : ∀ c ∈ d, c ≠ '<') :
    repFirst (blockStep "content:encoded".data contentFn)
      ("<item><description><![CDATA[".data ++
        (d ++ "]]></description></item>".data)) =
      "<item><description><![CDATA[".data ++
        (d ++ "]]></description></item>".data) := by
  apply repFirst_none_id
  exact noneAll_append _ _
    (fun k hk => blockStep_nomatch (noCIHit_spec (by decide) k hk _))
    (noneAll_append _ _
      (noneAll_chars (fun c s hc => blockStep_head s hc) d _ hlt)
      (fun k hk => blockStep_nomatch (noCIHit_spec_cl (by decide) k hk)))

theorem run1_mthumb (d : Chars) (hlt : ∀ c ∈ d, c ≠ '<') :
    mthumbTest ("<item><description><![CDATA[".data ++
      (d ++ "]]></description></item>".data)) = false := by
  rw [mthumbTest_pass _ _ (fun k hk => noCIHit_spec (by decide) k hk _)]
  rw [mthumbTest_pass _ _
    (noHitCI_chars _ rfl d _ (fun c hc => ciEqc_angle (hlt c hc)))]
  decide

theorem run1_urlm (d : Chars) (hlt : ∀ c ∈ d, c ≠ '<') :
    urlAttrFind "<media:content".data
      ("<item><description><![CDATA[".data ++
        (d ++ "]]></description></item>".data)) = none := by
  apply urlAttrFind_none
  exact ciAll_append _ _
    (fun k hk => noCIHit_spec (by decide) k hk _)
    (ciAll_append _ _
      (noHitCI_chars _ rfl d _ (fun c hc => ciEqc_angle (hlt c hc)))
      (noCIHit_spec_cl (by decide)))

theorem run1_urle (d : Chars) (hlt : ∀ c ∈ d, c ≠ '<') :
    urlAttrFind "<enclosure".data
      ("<item><description><![CDATA[".data ++
        (d ++ "]]></description></item>".data)) = none := by
  apply urlAttrFind_none
  exact ciAll_append _ _
    (fun k hk => noCIHit_spec (by decide) k hk _)
    (ciAll_append _ _
      (noHitCI_chars _ rfl d _ (fun c hc => ciEqc_angle (hlt c hc)))
      (noCIHit_spec_cl (by decide)))

theorem run1_link (d : Chars) (hlt : ∀ c ∈ d, c ≠ '<') :
    linkFind ("<item><description><![CDATA[".data ++
      (d ++ "]]></description></item>".data)) = none := by
  apply linkFind_none
  intro k hk
  apply startsL_false_of_CI
  exact ciAll_append _ _
    (fun k2 hk2 => noCIHit_spec (by decide) k2 hk2 _)
    (ciAll_append _ _
      (noHitCI_chars "<link>".data rfl d _
        (fun c hc => ciEqc_angle (hlt c hc)))
      (noCIHit_spec_cl (by decide))) k hk

theorem run1_thumbins (d : Chars) (hlt : ∀ c ∈ d, c ≠ '<') :
    repFirst (litStep "</item>".data
      ("<media:thumbnail url=\"".data ++ DEFAULT_THUMB_URL ++
        "\" /></item>".data))
      ("<item><description><![CDATA[".data ++
        (d ++ "]]></description></item>".data)) =
      mkRewrittenItem d := by
  rw [show ("<item><description><![CDATA[".data : Chars) ++
      (d ++ "]]></description></item>".data) =
    "<item><description><![CDATA[".data ++
      (d ++ ("]]></description>".data ++ "</item>".data)) from by
      simp [List.append_assoc]]
  rw [repFirst_none_pass "<item><description><![CDATA[".data _
    (fun k hk => litStep_nomatch (startsL_false_of_CI
      (noCIHit_spec (by decide) k hk _)))]
  rw [repFirst_none_pass d _
    (noneAll_chars (fun c s hc => litStep_item_head s hc) d _ hlt)]
  rw [repFirst_none_pass "]]></description>".data _
    (fun k hk => litStep_nomatch (startsL_false_of_CI
      (noCIHit_spec (by decide) k hk _)))]
  nth_rewrite 2 [show ("</item>".data : Chars) =
    "</item>".data ++ ([] : Chars) from by simp]
  have hhit : repFirst (litStep "</item>".data
      ("<media:thumbnail url=\"".data ++ DEFAULT_THUMB_URL ++
        "\" /></item>".data))
      ("</item>".data ++ ([] : Chars)) =
      ("<media:thumbnail url=\"".data ++ DEFAULT_THUMB_URL ++
        "\" /></item>".data) ++ ([] : Chars) :=
    repFirst_cons_some (litStep_hit "</item>".data _ [] (by decide))
  rw [hhit]
  simp [mkRewrittenItem, DEFAULT_THUMB_URL, List.append_assoc]

theorem run1_utm (d : Chars) (hlt : ∀ c ∈ d, c ≠ '<') :
    repFirst utmLinkStep (mkRewrittenItem d) = mkRewrittenItem d := by
  unfold mkRewrittenItem
  apply repFirst_none_id
  exact noneAll_append _ _
    (fun k hk => utmLinkStep_nomatch (noCIHit_spec (by decide) k hk _))
    (noneAll_append _ _
      (noneAll_chars (fun c s hc => utmLinkStep_head s hc) d _ hlt)
      (noneAll_append _ _
        (fun k hk => utmLinkStep_nomatch (noCIHit_spec (by decide) k hk _))
        (noneAll_append _ _
          (fun k hk => utmLinkStep_nomatch (noCIHit_spec (by decide) k hk _))
          (fun k hk => utmLinkStep_nomatch
            (noCIHit_spec_cl (by decide) k hk)))))

set_option maxHeartbeats 1600000 in
theorem run1_eval (fetch ld : Chars → Option Chars) (year : Nat) (d : Chars)
    (hd : descClean d = true) :
    rewriteItem fetch ld year (mkDescItem d) = mkRewrittenItem d := by
  obtain ⟨hlt, hamp, hbr, htrim, hlen⟩ := descClean_parts hd
  unfold rewriteItem
  simp only []
  rw [run1_title year d hlt]
  rw [run1_desc d hlt hamp htrim hlen]
  rw [run1_content d hlt]
  rw [run1_mthumb d hlt]
  rw [run1_urlm d hlt]
  rw [run1_urle d hlt]
  rw [run1_link d hlt]
  show repFirst utmLinkStep
    (repFirst (litStep "</item>".data
      ("<media:thumbnail url=\"".data ++ DEFAULT_THUMB_URL ++
        "\" /></item>".data))
      ("<item><description><![CDATA[".data ++
        (d ++ "]]></description></item>".data))) = mkRewrittenItem d
  rw [run1_thumbins d hlt]
  rw [run1_utm d hlt]

theorem run2_title (year : Nat) (d : Chars) (hlt : ∀ c ∈ d, c ≠ '<') :
    repFirst (titleStep year) (mkRewrittenItem d) = mkRewrittenItem d := by
  unfold mkRewrittenItem
  apply repFirst_none_id
  exact noneAll_append _ _
    (fun k hk => titleStep_nomatch (noCIHit_spec (by decide) k hk _))
    (noneAll_append _ _
      (noneAll_chars (fun c s hc => titleStep_head s hc) d _ hlt)
      (noneAll_append _ _
        (fun k hk => titleStep_nomatch (noCIHit_spec (by decide) k hk _))
        (noneAll_append _ _
          (fun k hk => titleStep_nomatch (noCIHit_spec (by decide) k hk _))
          (fun k hk => titleStep_nomatch
            (noCIHit_spec_cl (by decide) k hk)))))

theorem run2_content (d : Chars) (hlt : ∀ c ∈ d, c ≠ '<') :
    repFirst (blockStep "content:encoded".data contentFn)
      (mkRewrittenItem d) = mkRewrittenItem d := by
  unfold mkRewrittenItem
  apply repFirst_none_id
  exact noneAll_append _ _
    (fun k hk => blockStep_nomatch (noCIHit_spec (by decide) k hk _))
    (noneAll_append _ _
      (noneAll_chars (fun c s hc => blockStep_head s hc) d _ hlt)
      (noneAll_append _ _
        (fun k hk => blockStep_nomatch (noCIHit_spec (by decide) k hk _))
        (noneAll_append _ _
          (fun k hk => blockStep_nomatch (noCIHit_spec (by decide) k hk _))
          (fun k hk => blockStep_nomatch
            (noCIHit_spec_cl (by decide) k hk)))))

theorem run2_desc (d : Chars) (hlt : ∀ c ∈ d, c ≠ '<')
    (hamp : ∀ c ∈ d, c ≠ '&') (hbr : ∀ c ∈ d, c ≠ ']')
    (htrim : trimL d = d) (hlen : d.length ≤ CONTENT_MAX_CHARS) :
    repFirst (blockStep "description".data descFn) (mkRewrittenItem d) =
      mkRewrittenItem d := by
  rw [show mkRewrittenItem d = "<item>".data ++ ("<description>".data ++
    (("<![CDATA[".data ++ (d ++ "]]>".data)) ++ ("</description>".data ++
      ("<media:thumbnail url=\"".data ++
        (DEFAULT_THUMB_URL ++ "\" /></item>".data))))) from by
      simp [mkRewrittenItem, List.append_assoc]]
  rw [repFirst_none_pass "<item>".data _
    (fun k hk => blockStep_nomatch (noCIHit_spec (by decide) k hk _))]
  have hM : ∀ k, k < ("<![CDATA[".data ++ (d ++ "]]>".data) : Chars).length →
      startsCI ("</".data ++ "description".data)
        (("<![CDATA[".data ++ (d ++ "]]>".data)).drop k ++
          ("</description>".data ++
            ("<media:thumbnail url=\"".data ++
              (DEFAULT_THUMB_URL ++ "\" /></item>".data)))) = false :=
    noHitCI_append _ "<![CDATA[".data (d ++ "]]>".data) _
      (fun k hk => noCIHit_spec (by decide) k hk _)
      (noHitCI_append _ d "]]>".data _
        (noHitCI_chars _ rfl d _ (fun c hc => ciEqc_angle (hlt c hc)))
        (fun k hk => noCIHit_spec (by decide) k hk _))
  have hstep : repFirst (blockStep "description".data descFn)
      ("<description>".data ++
        (("<![CDATA[".data ++ (d ++ "]]>".data)) ++ ("</description>".data ++
          ("<media:thumbnail url=\"".data ++
            (DEFAULT_THUMB_URL ++ "\" /></item>".data))))) =
      ("<description>".data ++
        descFn ("<![CDATA[".data ++ (d ++ "]]>".data)) ++
        "</description>".data) ++
        ("<media:thumbnail url=\"".data ++
          (DEFAULT_THUMB_URL ++ "\" /></item>".data)) :=
    repFirst_cons_some (blockStep_desc_eval _ _ hM)
  rw [hstep]
  rw [descFn_cd d hlt hamp hbr htrim hlen]
  simp [mkRewrittenItem, List.append_assoc]

theorem run2_mthumbT (d : Chars) (hlt : ∀ c ∈ d, c ≠ '<') :
    mthumbTest (mkRewrittenItem d) = true := by
  rw [show mkRewrittenItem d = "<item><description><![CDATA[".data ++
    (d ++ ("]]></description>".data ++ ("<media:thumbnail url=\"".data ++
      (DEFAULT_THUMB_URL ++ "\" /></item>".data)))) from by
      simp [mkRewrittenItem, List.append_assoc]]
  rw [mthumbTest_pass _ _ (fun k hk => noCIHit_spec (by decide) k hk _)]
  rw [mthumbTest_pass _ _
    (noHitCI_chars _ rfl d _ (fun c hc => ciEqc_angle (hlt c hc)))]
  rw [mthumbTest_pass _ _ (fun k hk => noCIHit_spec (by decide) k hk _)]
  exact mthumbTest_hit _

set_option maxHeartbeats 1600000 in
theorem run2_rep (d : Chars) (hlt : ∀ c ∈ d, c ≠ '<') :
    repFirst mthumbRepStep (mkRewrittenItem d) = mkRewrittenItem d := by
  rw [show mkRewrittenItem d = "<item><description><![CDATA[".data ++
    (d ++ ("]]></description>".data ++ ("<media:thumbnail url=\"".data ++
      (DEFAULT_THUMB_URL ++ "\" /></item>".data)))) from by
      simp [mkRewrittenItem, List.append_assoc]]
  rw [repFirst_none_pass "<item><description><![CDATA[".data _
    (fun k hk => mthumbRepStep_nomatch (noCIHit_spec (by decide) k hk _))]
  rw [repFirst_none_pass d _
    (noneAll_chars (fun c s hc => mthumbRepStep_head s hc) d _ hlt)]
  rw [repFirst_none_pass "]]></description>".data _
    (fun k hk => mthumbRepStep_nomatch (noCIHit_spec (by decide) k hk _))]
  have hhit : repFirst mthumbRepStep
      ("<media:thumbnail url=\"".data ++
        (DEFAULT_THUMB_URL ++ "\" /></item>".data)) =
      ("<media:thumbnail url=\"".data ++ DEFAULT_THUMB_URL ++
        "\" />".data) ++ "</item>".data :=
    repFirst_cons_some (show mthumbRepStep
      ("<media:thumbnail url=\"".data ++
        (DEFAULT_THUMB_URL ++ "\" /></item>".data)) =
      some ("<media:thumbnail url=\"".data ++ DEFAULT_THUMB_URL ++
        "\" />".data, "</item>".data) from by decide)
  rw [hhit]
  simp [List.append_assoc]

theorem run2_link (d : Chars) (hlt : ∀ c ∈ d, c ≠ '<') :
    linkFind (mkRewrittenItem d) = none := by
  unfold mkRewrittenItem
  apply linkFind_none
  intro k hk
  apply startsL_false_of_CI
  exact ciAll_append _ _
    (fun k2 hk2 => noCIHit_spec (by decide) k2 hk2 _)
    (ciAll_append _ _
      (noHitCI_chars "<link>".data rfl d _
        (fun c hc => ciEqc_angle (hlt c hc)))
      (ciAll_append _ _
        (fun k2 hk2 => noCIHit_spec (by decide) k2 hk2 _)
        (ciAll_append _ _
          (fun k2 hk2 => noCIHit_spec (by decide) k2 hk2 _)
          (noCIHit_spec_cl (by decide))))) k hk

set_option maxHeartbeats 800000 in
theorem run2_eval (fetch ld : Chars → Option Chars) (year : Nat) (d : Chars)
    (hd : descClean d = true) :
    rewriteItem fetch ld year (mkRewrittenItem d) = mkRewrittenItem d := by
  obtain ⟨hlt, hamp, hbr, htrim, hlen⟩ := descClean_parts hd
  unfold rewriteItem
  simp only []
  rw [run2_title year d hlt]
  rw [run2_desc d hlt hamp hbr htrim hlen]
  rw [run2_content d hlt]
  rw [run2_mthumbT d hlt]
  rw [run2_rep d hlt]
  rw [run2_link d hlt]
  show repFirst utmLinkStep (mkRewrittenItem d) = mkRewrittenItem d
  exact run1_utm d hlt

/-- C1: amended. The item-rewrite pipeline is idempotent on items whose
description text is clean: free of angle brackets, ampersands and closing
square brackets, already trimmed, and within the content length cap. For
such an item, one run produces the canonical rewritten form (CDATA-wrapped
description followed by the default media:thumbnail), and a second run
leaves that output byte-identical. (The unrestricted idempotence statement
of the specification is refuted by C1_counterexample: entity decoding is
not idempotent.) -/
theorem C1_amended_idempotent (fetch ld : Chars → Option Chars)
    (year : Nat) (d : Chars) (hd : descClean d = true) :
    rewriteItem fetch ld year (rewriteItem fetch ld year (mkDescItem d)) =
      rewriteItem fetch ld year (mkDescItem d) := by
  rw [run1_eval fetch ld year d hd]
  exact run2_eval fetch ld year d hd

theorem C1_amended_witness :
    descClean "hello world".data = true ∧
      rewriteItem (fun _ => none) (fun _ => none) 2024
        (rewriteItem (fun _ => none) (fun _ => none) 2024
          (mkDescItem "hello world".data)) =
      rewriteItem (fun _ => none) (fun _ => none) 2024
        (mkDescItem "hello world".data) :=
  ⟨by decide, C1_amended_idempotent (fun _ => none) (fun _ => none) 2024
    "hello world".data (by decide)⟩
